import Mathlib

/-!
The enchant broker: a shallow embedding of `src/enchant.c`.

C strings are represented by their content (the characters before the
terminating NUL), nullable pointers by `Option`, GLib hash tables by
association lists with unique keys, and the mutable objects reached through
pointers (dictionaries) by an explicit store indexed by address.
-/

namespace Enchant

/-- The content of a NUL-terminated C string. -/
abbrev CStr := List Char

/-- An address of an object allocated by a provider or by the broker. -/
abbrev Ptr := Nat

/-! ## GLib string helpers -/

/-- GLib `g_ascii_isspace`: the bytes that carry `G_ASCII_SPACE` in `g_ascii_table`, which are
the space 0x20, the horizontal tab 0x09, the line feed 0x0A, the form feed 0x0C and the
carriage return 0x0D. The vertical tab 0x0B is not among them (it is for C `isspace`). -/
def g_ascii_isspace (c : Char) : Bool :=
  c == ' ' || c == '\t' || c == '\n' || c == '\x0c' || c == '\r'

/-- GLib `g_strchug`: drops the leading whitespace. -/
def g_strchug (s : CStr) : CStr := s.dropWhile g_ascii_isspace

/-- GLib `g_strchomp`: scans from the end and drops the trailing whitespace. -/
def g_strchomp (s : CStr) : CStr := (s.reverse.dropWhile g_ascii_isspace).reverse

/-- GLib `g_strstrip(s)` is `g_strchomp (g_strchug (s))`. -/
def g_strstrip (s : CStr) : CStr := g_strchomp (g_strchug s)

/-- C `strchr`: the offset of the first occurrence of `c`, or no pointer. -/
def strchr : CStr → Char → Option Nat
  | [], _ => none
  | x :: xs, c => if x = c then some 0 else (strchr xs c).map (· + 1)

/-- The effect of `*needle = 0` on the content of the string, `needle` being at offset `i`. -/
def truncate_at (s : CStr) (i : Nat) : CStr := s.take i

/-- The function `enchant_normalize_dictionary_tag` of the source (lines 237-254). -/
def enchant_normalize_dictionary_tag (dict_tag : CStr) : CStr :=
  let new_tag := g_strstrip dict_tag
  let new_tag := match strchr new_tag '@' with
    | some needle => truncate_at new_tag needle
    | none => new_tag
  let new_tag := match strchr new_tag '.' with
    | some needle => truncate_at new_tag needle
    | none => new_tag
  new_tag

/-- The normalization as the specification words it: trim, cut at the first `@`,
then cut at the first `.`. -/
def spec_normalize (x : CStr) : CStr :=
  ((g_strstrip x).takeWhile (· ≠ '@')).takeWhile (· ≠ '.')

/-- The last character of the string is a whitespace character. -/
def ends_in_space (s : CStr) : Bool :=
  match s.getLast? with
  | some c => g_ascii_isspace c
  | none => false


/-- GLib `g_strndup (str, n)`: at most the first `n` bytes of the string. -/
def g_strndup (str : CStr) (n : Nat) : CStr := str.take n

/-- The loop of GLib `g_strsplit` for the delimiter `","`: `cur` is the token being read. -/
def g_strsplit_comma_loop : List Char → CStr → List CStr
  | [], cur => [cur]
  | c :: cs, cur =>
    if c = ',' then cur :: g_strsplit_comma_loop cs [] else g_strsplit_comma_loop cs (cur ++ [c])

/-- GLib `g_strsplit (string, ",", 0)`: every piece between commas, empty pieces included;
the empty string splits into the empty vector. -/
def g_strsplit_comma (string : CStr) : List CStr :=
  if string = [] then [] else g_strsplit_comma_loop string []

/-! ## GLib hash tables with string keys -/

/-- A `GHashTable` keyed by strings (`g_str_hash`, `g_str_equal`): the entries, one per key. -/
abbrev GHashTable (V : Type) := List (CStr × V)

/-- GLib `g_hash_table_lookup`: the value stored under the key, if any. -/
def g_hash_table_lookup {V : Type} : GHashTable V → CStr → Option V
  | [], _ => none
  | (k, v) :: rest, key => if k = key then some v else g_hash_table_lookup rest key

/-- GLib `g_hash_table_insert`: replaces the value of an existing key, else adds an entry. -/
def g_hash_table_insert {V : Type} : GHashTable V → CStr → V → GHashTable V
  | [], key, value => [(key, value)]
  | (k, v) :: rest, key, value =>
    if k = key then (k, value) :: rest else (k, v) :: g_hash_table_insert rest key value

/-- GLib `g_hash_table_remove`: drops the entry of the key. -/
def g_hash_table_remove {V : Type} (t : GHashTable V) (key : CStr) : GHashTable V :=
  t.filter (fun e => e.1 ≠ key)

/-- GLib `g_hash_table_size`: the number of entries. -/
def g_hash_table_size {V : Type} (t : GHashTable V) : Nat := t.length

/-! ## Data model (lines 61-83 of the source, and the hook tables it dereferences) -/

/-- The `struct str_enchant_session` of the source. The two word sets are hash tables whose
values are the constant `GINT_TO_POINTER(TRUE)`. -/
structure EnchantSession where
  session : GHashTable Unit
  personal : GHashTable Unit
  personal_filename : Option CStr
  language_tag : CStr
  error : Option CStr
  is_pwl : Bool
  provider : Option Ptr

/-- What a dictionary hook leaves behind: its return value and the message it stored through
`enchant_dict_set_error`, if it stored one. -/
structure DictHookResult (α : Type) where
  value : α
  error : Option CStr := none

/-- The dictionary object as the source uses it: the private session and the nullable hooks
`check`, `suggest`, `add_to_personal`, `add_to_session`, `store_replacement`. A hook receives
the word and its byte length. The `suggest` hook yields the list pointer (nullable) and the
count it wrote. -/
structure EnchantDict where
  enchant_private_data : EnchantSession
  check : Option (CStr → Nat → DictHookResult Int) := none
  suggest : Option (CStr → Nat → DictHookResult (Option (List CStr) × Nat)) := none
  add_to_personal : Option (CStr → Nat → DictHookResult Unit) := none
  add_to_session : Option (CStr → Nat → DictHookResult Unit) := none
  store_replacement : Option (CStr → Nat → CStr → Nat → DictHookResult Unit) := none

/-- What a provider's `request_dict` hook leaves behind: the dictionary object it built and
its address (or no dictionary), and the message it stored through
`enchant_provider_set_error`, if it stored one. -/
structure RequestResult where
  dict : Option (Ptr × EnchantDict)
  error : Option CStr := none

/-- The provider object as the source uses it: its address, the answers of `identify` and
`describe`, and the nullable hooks. -/
structure EnchantProvider where
  ptr : Ptr
  identify : CStr
  describe : CStr := []
  request_dict : Option (CStr → RequestResult) := none
  dictionary_exists : Option (CStr → Bool) := none
  list_dicts : Option (List CStr) := none
  dispose_dict : Bool := false
  dispose : Bool := false
  free_string_list : Bool := false

/-- The `struct str_enchant_broker` of the source. -/
structure EnchantBroker where
  provider_list : List EnchantProvider
  dict_map : GHashTable Ptr
  provider_ordering : GHashTable CStr
  error : Option CStr

/-- What leaves the broker, in the order of the calls: the invocations of provider and
dictionary hooks, the `fwrite` calls on the personal file and the warning of the teardown. -/
inductive Event where
  | provider_request_dict (provider : Ptr) (tag : CStr)
  | provider_dictionary_exists (provider : Ptr) (tag : CStr)
  | provider_list_dicts (provider : Ptr)
  | provider_free_string_list (provider : Ptr) (list : List CStr)
  | provider_dispose_dict (provider : Ptr) (dict : Ptr)
  | provider_dispose (provider : Ptr)
  | module_close (provider : Ptr)
  | dict_check (dict : Ptr) (word : CStr) (len : Nat)
  | dict_suggest (dict : Ptr) (word : CStr) (len : Nat)
  | dict_add_to_session (dict : Ptr) (word : CStr) (len : Nat)
  | dict_add_to_personal (dict : Ptr) (word : CStr) (len : Nat)
  | dict_store_replacement (dict : Ptr) (mis : CStr) (mis_len : Nat) (cor : CStr) (cor_len : Nat)
  | fwrite (file : CStr) (bytes : List Char)
  | warning (n_remaining : Nat)
  deriving DecidableEq

/-- The whole state the operations act on: the broker, the dictionary objects by address,
the text files by name (absent when `fopen` for reading fails) and the calls so far. -/
structure State where
  broker : EnchantBroker
  dicts : Ptr → EnchantDict
  files : CStr → Option (List Char)
  trace : List Event

/-- The platform the source is compiled against: the answer of `enchant_get_user_home_dir`,
GLib `g_build_filename` and the size `BUFSIZ` of the line buffer (at least 2). -/
structure Env where
  home_dir : Option CStr
  g_build_filename : List CStr → CStr
  BUFSIZ : Nat

/-! ## Sessions (lines 256-399) -/

/-- The successive results of `fgets (line, n, f)` on the rest of a file: each holds at most
`n - 1` characters and ends after a line feed. `cur` is the part of the line read so far. -/
def fgets_lines (n : Nat) : List Char → List Char → List (List Char)
  | [], cur => if cur = [] then [] else [cur]
  | c :: cs, cur =>
    if c = '\n' ∨ n ≤ cur.length + 2 then (cur ++ [c]) :: fgets_lines n cs []
    else fgets_lines n cs (cur ++ [c])

/-- Lines 296-298: the line feed that ends the buffer is overwritten by NUL. The buffer is
read as a C string, up to its first NUL. (An empty string, which only a NUL byte in the file
produces, makes the source index the buffer out of bounds; the embedding keeps the empty
word there.) -/
def strip_newline (line : List Char) : CStr :=
  let str := line.takeWhile (· ≠ '\x00')
  match str.getLast? with
  | some '\n' => str.dropLast
  | _ => str

/-- The loop of lines 294-301: every line read is inserted in the personal set. -/
def load_personal : GHashTable Unit → List (List Char) → GHashTable Unit
  | personal, [] => personal
  | personal, line :: rest =>
    load_personal (g_hash_table_insert personal (strip_newline line) ()) rest

/-- The function `enchant_session_new_with_pwl` of the source (lines 270-319). -/
def enchant_session_new_with_pwl (bufsiz : Nat) (files : CStr → Option (List Char))
    (provider : Option Ptr) (pwl : Option CStr) (lang : CStr) (fail_if_no_pwl : Bool) :
    Option EnchantSession :=
  let session : EnchantSession :=
    { session := [], personal := [], personal_filename := none, language_tag := lang,
      error := none, is_pwl := false, provider := provider }
  match pwl with
  | some pwl =>
    let session := { session with personal_filename := some pwl }
    match files pwl with
    | some content =>
      some { session with personal := load_personal session.personal (fgets_lines bufsiz content []) }
    | none => if fail_if_no_pwl then none else some session
  | none => if fail_if_no_pwl then none else some session

/-- The function `enchant_session_new` of the source (lines 321-345). The constructor is
called with `fail_if_no_pwl = FALSE`, for which it returns no NULL. -/
def enchant_session_new (env : Env) (files : CStr → Option (List Char))
    (provider : Option Ptr) (lang : CStr) : EnchantSession :=
  let dic := match env.home_dir with
    | some home_dir =>
      some (env.g_build_filename [home_dir, ".enchant".toList, lang ++ ".dic".toList])
    | none => none
  match enchant_session_new_with_pwl env.BUFSIZ files provider dic lang false with
  | some session => session
  | none =>
    { session := [], personal := [], personal_filename := dic, language_tag := lang,
      error := none, is_pwl := false, provider := provider }

/-- The function `enchant_session_add` of the source (lines 347-351). -/
def enchant_session_add (session : EnchantSession) (word : CStr) (len : Nat) : EnchantSession :=
  { session with session := g_hash_table_insert session.session (g_strndup word len) () }

/-- The function `enchant_session_contains` of the source (lines 375-389). -/
def enchant_session_contains (session : EnchantSession) (word : CStr) (len : Nat) : Bool :=
  let utf := g_strndup word len
  (g_hash_table_lookup session.session utf).isSome ||
    (g_hash_table_lookup session.personal utf).isSome

/-- The function `enchant_session_clear_error` of the source (lines 391-399). -/
def enchant_session_clear_error (session : EnchantSession) : EnchantSession :=
  { session with error := none }

/-! ## Dictionary operations (lines 424-658) -/

/-- The effect of a hook on the error slot of the session: `enchant_dict_set_error`
(lines 432-444) when the hook stored a message. -/
def apply_dict_error (session : EnchantSession) (err : Option CStr) : EnchantSession :=
  match err with
  | some e => { enchant_session_clear_error session with error := some e }
  | none => session

/-- The byte length in use after `if (len < 0) len = strlen (word)`. -/
def word_length (word : CStr) (len : Int) : Nat :=
  if len < 0 then word.length else len.toNat

/-- Writes the session of the dictionary at address `dict`. -/
def State.set_session (st : State) (dict : Ptr) (session : EnchantSession) : State :=
  let obj := st.dicts dict
  { st with dicts := Function.update st.dicts dict { obj with enchant_private_data := session } }

/-- The function `enchant_dict_get_error` of the source (lines 456-466). -/
def enchant_dict_get_error (st : State) (dict : Option Ptr) : Option CStr :=
  match dict with
  | none => none
  | some d => (st.dicts d).enchant_private_data.error

/-- The function `enchant_dict_check` of the source (lines 479-503). -/
def enchant_dict_check (st : State) (dict : Option Ptr) (word : Option CStr) (len : Int) :
    Int × State :=
  match dict, word with
  | none, _ => (-1, st)
  | some _, none => (-1, st)
  | some d, some w =>
    let len := word_length w len
    let session := enchant_session_clear_error (st.dicts d).enchant_private_data
    let st := st.set_session d session
    if enchant_session_contains session w len then (0, st)
    else
      match (st.dicts d).check with
      | some hook =>
        let r := hook w len
        let st := st.set_session d (apply_dict_error session r.error)
        (r.value, { st with trace := st.trace ++ [Event.dict_check d w len] })
      | none => if session.is_pwl then (1, st) else (-1, st)

/-- The function `enchant_dict_add_to_session` of the source (lines 616-634). -/
def enchant_dict_add_to_session (st : State) (dict : Option Ptr) (word : Option CStr)
    (len : Int) : State :=
  match dict, word with
  | none, _ => st
  | some _, none => st
  | some d, some w =>
    let len := word_length w len
    let session := enchant_session_clear_error (st.dicts d).enchant_private_data
    let session := enchant_session_add session w len
    let st := st.set_session d session
    match (st.dicts d).add_to_session with
    | some hook =>
      let r := hook w len
      let st := st.set_session d (apply_dict_error session r.error)
      { st with trace := st.trace ++ [Event.dict_add_to_session d w len] }
    | none => st

/-- The function `enchant_dict_is_in_session` of the source (lines 642-658). -/
def enchant_dict_is_in_session (st : State) (dict : Option Ptr) (word : Option CStr)
    (len : Int) : Int × State :=
  match dict, word with
  | none, _ => (0, st)
  | some _, none => (0, st)
  | some d, some w =>
    let len := word_length w len
    let session := enchant_session_clear_error (st.dicts d).enchant_private_data
    let st := st.set_session d session
    (if enchant_session_contains session w len then 1 else 0, st)

/-! ## Broker operations (lines 773-781, 942-991, 1136-1180, 1362-1432) -/

/-- The function `enchant_broker_clear_error` of the source (lines 773-781). -/
def enchant_broker_clear_error (broker : EnchantBroker) : EnchantBroker :=
  { broker with error := none }

/-- The function `enchant_provider_set_error` of the source (lines 1403-1416), on the broker
that owns the provider. -/
def enchant_provider_set_error (broker : EnchantBroker) (err : CStr) : EnchantBroker :=
  { enchant_broker_clear_error broker with error := some err }

/-- The function `enchant_broker_get_error` of the source (lines 1426-1432). -/
def enchant_broker_get_error (broker : EnchantBroker) : Option CStr := broker.error

/-- GLib `g_slist_find`: some element of the list is the object at this address. -/
def g_slist_find (list : List EnchantProvider) (data : Ptr) : Bool :=
  list.any (fun q => q.ptr == data)

/-- The loop of lines 959-960: appends a copy of every registered provider. -/
def append_all : List EnchantProvider → List EnchantProvider → List EnchantProvider
  | list, [] => list
  | list, provider :: iter => append_all (list ++ [provider]) iter

/-- The inner loop of lines 971-977: appends the providers whose name is the token. -/
def append_matching (token : CStr) :
    List EnchantProvider → List EnchantProvider → List EnchantProvider
  | list, [] => list
  | list, provider :: iter =>
    append_matching token (if token = provider.identify then list ++ [provider] else list) iter

/-- The outer loop of lines 967-978, over the tokens. -/
def append_tokens (provider_list : List EnchantProvider) :
    List EnchantProvider → List CStr → List EnchantProvider
  | list, [] => list
  | list, token :: tokens =>
    append_tokens provider_list (append_matching token list provider_list) tokens

/-- The loop of lines 984-988: appends the providers that `g_slist_find` does not find. -/
def append_missing : List EnchantProvider → List EnchantProvider → List EnchantProvider
  | list, [] => list
  | list, provider :: iter =>
    append_missing (if g_slist_find list provider.ptr then list else list ++ [provider]) iter

/-- The function `enchant_get_ordered_providers` of the source (lines 942-991). -/
def enchant_get_ordered_providers (broker : EnchantBroker) (tag : CStr) : List EnchantProvider :=
  let ordering := g_hash_table_lookup broker.provider_ordering tag
  let ordering := match ordering with
    | some o => some o
    | none => g_hash_table_lookup broker.provider_ordering "*".toList
  match ordering with
  | none => append_all [] broker.provider_list
  | some ordering =>
    let tokens := g_strsplit_comma ordering
    let list := append_tokens broker.provider_list [] tokens
    append_missing list broker.provider_list

/-- The effect on the state of one call of a provider's `request_dict` hook: the call is
recorded and the message the hook stored, if any, is in the broker's error slot. -/
def after_request (st : State) (provider : EnchantProvider) (tag : CStr) (r : RequestResult) :
    State :=
  { st with
    trace := st.trace ++ [Event.provider_request_dict provider.ptr tag]
    broker := match r.error with
      | some e => enchant_provider_set_error st.broker e
      | none => st.broker }

/-- The loop of lines 1157-1173 of `enchant_broker_request_dict`. -/
def request_dict_loop (env : Env) (normalized_tag : CStr) :
    State → List EnchantProvider → Option Ptr × State
  | st, [] => (none, st)
  | st, provider :: list =>
    match provider.request_dict with
    | none => request_dict_loop env normalized_tag st list
    | some hook =>
      let r := hook normalized_tag
      let st := after_request st provider normalized_tag r
      match r.dict with
      | some (dict, obj) =>
        let session := enchant_session_new env st.files (some provider.ptr) normalized_tag
        (some dict,
          { st with
            dicts := Function.update st.dicts dict { obj with enchant_private_data := session }
            broker := { st.broker with
              dict_map := g_hash_table_insert st.broker.dict_map normalized_tag dict } })
      | none => request_dict_loop env normalized_tag st list

/-- The function `enchant_broker_request_dict` of the source (lines 1136-1180). -/
def enchant_broker_request_dict (env : Env) (st : State) (tag : Option CStr) :
    Option Ptr × State :=
  match tag with
  | none => (none, st)
  | some tag =>
    if tag = [] then (none, st)
    else
      let st := { st with broker := enchant_broker_clear_error st.broker }
      let normalized_tag := enchant_normalize_dictionary_tag tag
      match g_hash_table_lookup st.broker.dict_map normalized_tag with
      | some dict => (some dict, st)
      | none =>
        request_dict_loop env normalized_tag st
          (enchant_get_ordered_providers st.broker normalized_tag)

/-- The function `enchant_broker_set_ordering` of the source (lines 1362-1393). -/
def enchant_broker_set_ordering (broker : EnchantBroker) (tag ordering : Option CStr) :
    EnchantBroker :=
  match tag, ordering with
  | some tag, some ordering =>
    if tag = [] then broker
    else if ordering = [] then broker
    else
      let broker := enchant_broker_clear_error broker
      let tag_dupl := enchant_normalize_dictionary_tag tag
      let ordering_dupl := g_strstrip ordering
      if tag_dupl ≠ [] ∧ ordering_dupl ≠ [] then
        { broker with
          provider_ordering := g_hash_table_insert broker.provider_ordering tag_dupl ordering_dupl }
      else broker
  | _, _ => broker

/-! ## Personal word lists, release and existence (lines 353-373, 571-592, 993-1010,
1092-1127, 1287-1348) -/

/-- The function `enchant_session_add_personal` of the source (lines 353-373).
`can_append` tells whether `fopen (name, "a")` succeeds; the stream then receives, by two
calls of `fwrite`, the first `len` bytes of the word and a line feed, after the content the
file had (a missing file is created). For `len` beyond the end of the string the source
writes the bytes that follow the terminator; the embedding writes the string. -/
def enchant_session_add_personal (can_append : CStr → Bool) (st : State)
    (session : EnchantSession) (word : CStr) (len : Nat) : State :=
  match session.personal_filename with
  | some name =>
    if can_append name then
      { st with
        files := Function.update st.files name
          (some ((st.files name).getD [] ++ word.take len ++ ['\n']))
        trace := st.trace ++ [Event.fwrite name (word.take len), Event.fwrite name ['\n']] }
    else st
  | none => st

/-- The function `enchant_dict_add_to_pwl` of the source (lines 571-592). -/
def enchant_dict_add_to_pwl (can_append : CStr → Bool) (st : State) (dict : Option Ptr)
    (word : Option CStr) (len : Int) : State :=
  match dict, word with
  | none, _ => st
  | some _, none => st
  | some d, some w =>
    let len := word_length w len
    let st := enchant_dict_add_to_session st (some d) (some w) (Int.ofNat len)
    let session := enchant_session_clear_error (st.dicts d).enchant_private_data
    let st := st.set_session d session
    let st := enchant_session_add_personal can_append st session w len
    match (st.dicts d).add_to_personal with
    | some hook =>
      let r := hook w len
      let st := st.set_session d (apply_dict_error session r.error)
      { st with trace := st.trace ++ [Event.dict_add_to_personal d w len] }
    | none => st

/-- The message of line 1114: `"Couldn't open personal wordlist '%s'"`. -/
def pwl_error_message (normalized_pwl : CStr) : CStr :=
  "Couldn't open personal wordlist '".toList ++ normalized_pwl ++ "'".toList

/-- The function `enchant_broker_request_pwl_dict` of the source (lines 1092-1127). `fresh`
is the address that `g_new0 (EnchantDict, 1)` returns: an object with every hook NULL. -/
def enchant_broker_request_pwl_dict (env : Env) (st : State) (pwl : Option CStr)
    (fresh : Ptr) : Option Ptr × State :=
  match pwl with
  | none => (none, st)
  | some pwl =>
    if pwl = [] then (none, st)
    else
      let st := { st with broker := enchant_broker_clear_error st.broker }
      let normalized_pwl := enchant_normalize_dictionary_tag pwl
      match g_hash_table_lookup st.broker.dict_map normalized_pwl with
      | some dict => (some dict, st)
      | none =>
        match enchant_session_new_with_pwl env.BUFSIZ st.files none (some pwl)
            "Personal WordList".toList true with
        | none =>
          (none, { st with
            broker := { st.broker with error := some (pwl_error_message normalized_pwl) } })
        | some session =>
          let session := { session with is_pwl := true }
          (some fresh,
            { st with
              dicts := Function.update st.dicts fresh { enchant_private_data := session }
              broker := { st.broker with
                dict_map := g_hash_table_insert st.broker.dict_map normalized_pwl fresh } })

/-- The `dispose_dict` hook of the provider object at the address `owner`, as a flag: the
address is looked up among the registered providers, which hold every provider object. -/
def owner_dispose_dict (broker : EnchantBroker) (owner : Ptr) : Bool :=
  match broker.provider_list.find? (fun p => p.ptr == owner) with
  | some p => p.dispose_dict
  | none => false

/-- The function `enchant_dict_destroyed` of the source (lines 993-1010): the owner's
`dispose_dict` hook is called when there is an owner with that hook; the session is then
released, which leaves nothing to observe. -/
def enchant_dict_destroyed (st : State) (dict : Ptr) : State :=
  let session := (st.dicts dict).enchant_private_data
  match session.provider with
  | some owner =>
    if owner_dispose_dict st.broker owner then
      { st with trace := st.trace ++ [Event.provider_dispose_dict owner dict] }
    else st
  | none => st

/-- GLib `g_hash_table_remove` on `dict_map`, whose value destructor is
`enchant_dict_destroyed` (lines 1045-1046): an entry found is dropped and its value
destroyed; a key that is absent changes nothing. -/
def dict_map_remove (st : State) (key : CStr) : State :=
  match g_hash_table_lookup st.broker.dict_map key with
  | some dict =>
    enchant_dict_destroyed
      { st with broker := { st.broker with
          dict_map := g_hash_table_remove st.broker.dict_map key } } dict
  | none => st

/-- The function `enchant_broker_free_dict` of the source (lines 1287-1303). A session
without provider and without file name would pass NULL as the key; no operation of the
source builds one, and the embedding removes nothing there. -/
def enchant_broker_free_dict (st : State) (dict : Option Ptr) : State :=
  match dict with
  | none => st
  | some d =>
    let st := { st with broker := enchant_broker_clear_error st.broker }
    let session := (st.dicts d).enchant_private_data
    if session.provider.isSome then dict_map_remove st session.language_tag
    else
      match session.personal_filename with
      | some name => dict_map_remove st name
      | none => st

/-- The loop of lines 1333-1344 of `enchant_broker_dict_exists`. -/
def dictionary_exists_loop (normalized_tag : CStr) :
    State → List EnchantProvider → Int × State
  | st, [] => (0, st)
  | st, provider :: list =>
    match provider.dictionary_exists with
    | none => dictionary_exists_loop normalized_tag st list
    | some hook =>
      let st := { st with
        trace := st.trace ++ [Event.provider_dictionary_exists provider.ptr normalized_tag] }
      if hook normalized_tag then (1, st)
      else dictionary_exists_loop normalized_tag st list

/-- The function `enchant_broker_dict_exists` of the source (lines 1312-1348). -/
def enchant_broker_dict_exists (st : State) (tag : Option CStr) : Int × State :=
  match tag with
  | none => (0, st)
  | some tag =>
    if tag = [] then (0, st)
    else
      let st := { st with broker := enchant_broker_clear_error st.broker }
      let normalized_tag := enchant_normalize_dictionary_tag tag
      if (g_hash_table_lookup st.broker.dict_map normalized_tag).isSome then (1, st)
      else dictionary_exists_loop normalized_tag st st.broker.provider_list

/-! ## Suggestions, replacements, teardown and listing (lines 404-422, 517-562, 672-695,
1012-1028, 1060-1083, 1229-1278) -/

/-- The `free_string_list` hook of the provider object at the address `owner`, as a flag,
looked up among the registered providers. -/
def owner_free_string_list (broker : EnchantBroker) (owner : Ptr) : Bool :=
  match broker.provider_list.find? (fun p => p.ptr == owner) with
  | some p => p.free_string_list
  | none => false

/-- The function `enchant_dict_free_string_list_impl` of the source (lines 411-422), for a
non-null dictionary and list: the session error is cleared and the list goes to the
`free_string_list` hook of the session's provider, when there is a provider with the hook
(`enchant_provider_free_string_list`, lines 404-409). -/
def enchant_dict_free_string_list_impl (st : State) (dict : Ptr) (string_list : List CStr) :
    State :=
  let session := enchant_session_clear_error (st.dicts dict).enchant_private_data
  let st := st.set_session dict session
  match session.provider with
  | some owner =>
    if owner_free_string_list st.broker owner then
      { st with trace := st.trace ++ [Event.provider_free_string_list owner string_list] }
    else st
  | none => st

/-- The function `enchant_dict_suggest` of the source (lines 517-562): the list returned
(NULL or a copy) and the count stored through `out_n_suggs` (nothing is stored when an
argument is NULL). The copy holds the first `n_suggs` strings of the provider's list. -/
def enchant_dict_suggest (st : State) (dict : Option Ptr) (word : Option CStr) (len : Int) :
    (Option (List CStr) × Option Nat) × State :=
  match dict, word with
  | none, _ => ((none, none), st)
  | some _, none => ((none, none), st)
  | some d, some w =>
    let len := word_length w len
    match (st.dicts d).suggest with
    | some hook =>
      let r := hook w len
      let n_suggs := r.value.2
      let st := st.set_session d (apply_dict_error (st.dicts d).enchant_private_data r.error)
      let st := { st with trace := st.trace ++ [Event.dict_suggest d w len] }
      match r.value.1 with
      | some tmp_suggs =>
        let suggs := tmp_suggs.take n_suggs
        ((some suggs, some n_suggs), enchant_dict_free_string_list_impl st d tmp_suggs)
      | none => ((none, some n_suggs), st)
    | none => ((none, some 0), st)

/-- The function `enchant_dict_store_replacement` of the source (lines 672-695). -/
def enchant_dict_store_replacement (st : State) (dict : Option Ptr) (mis : Option CStr)
    (mis_len : Int) (cor : Option CStr) (cor_len : Int) : State :=
  match dict, mis, cor with
  | some d, some m, some c =>
    let mis_len := word_length m mis_len
    let cor_len := word_length c cor_len
    let session := enchant_session_clear_error (st.dicts d).enchant_private_data
    let st := st.set_session d session
    match (st.dicts d).store_replacement with
    | some hook =>
      let r := hook m mis_len c cor_len
      let st := st.set_session d (apply_dict_error session r.error)
      { st with trace := st.trace ++ [Event.dict_store_replacement d m mis_len c cor_len] }
    | none => st
  | _, _, _ => st

/-- One invocation of the callback of `enchant_broker_list_dicts`: the tag, and the
provider whose name, description and module file are passed with it. -/
structure ListDictsCall where
  tag : CStr
  name : CStr
  desc : CStr
  provider : Ptr
  deriving DecidableEq

/-- The loop of lines 1263-1271: a tag not yet in the table `tags` is inserted and
reported. -/
def list_dicts_tags (provider : EnchantProvider) :
    GHashTable Unit → List ListDictsCall → List CStr → GHashTable Unit × List ListDictsCall
  | tags, calls, [] => (tags, calls)
  | tags, calls, tag :: dicts =>
    if (g_hash_table_lookup tags tag).isSome then list_dicts_tags provider tags calls dicts
    else
      list_dicts_tags provider (g_hash_table_insert tags tag ())
        (calls ++ [{ tag := tag, name := provider.identify, desc := provider.describe,
                     provider := provider.ptr }]) dicts

/-- The loop of lines 1244-1275 over the providers. -/
def list_dicts_loop :
    State → GHashTable Unit → List ListDictsCall → List EnchantProvider →
      List ListDictsCall × State
  | st, _, calls, [] => (calls, st)
  | st, tags, calls, provider :: list =>
    match provider.list_dicts with
    | some dicts =>
      let st := { st with trace := st.trace ++ [Event.provider_list_dicts provider.ptr] }
      let r := list_dicts_tags provider tags calls dicts
      let st :=
        if provider.free_string_list then
          { st with trace := st.trace ++ [Event.provider_free_string_list provider.ptr dicts] }
        else st
      list_dicts_loop st r.1 r.2 list
    | none => list_dicts_loop st tags calls list

/-- The function `enchant_broker_list_dicts` of the source (lines 1229-1278), for a non-null
callback: the invocations of the callback, in order, and the state. -/
def enchant_broker_list_dicts (st : State) : List ListDictsCall × State :=
  let st := { st with broker := enchant_broker_clear_error st.broker }
  list_dicts_loop st [] [] st.broker.provider_list

/-- A public operation on a dictionary, with its arguments. -/
inductive DictOp where
  | check (dict : Option Ptr) (word : Option CStr) (len : Int)
  | suggest (dict : Option Ptr) (word : Option CStr) (len : Int)
  | add_to_pwl (dict : Option Ptr) (word : Option CStr) (len : Int)
  | add_to_session (dict : Option Ptr) (word : Option CStr) (len : Int)
  | is_in_session (dict : Option Ptr) (word : Option CStr) (len : Int)
  | store_replacement (dict : Option Ptr) (mis : Option CStr) (mis_len : Int)
      (cor : Option CStr) (cor_len : Int)

/-- The state after one public operation on a dictionary. -/
def DictOp.run (can_append : CStr → Bool) (st : State) : DictOp → State
  | .check dict word len => (enchant_dict_check st dict word len).2
  | .suggest dict word len => (enchant_dict_suggest st dict word len).2
  | .add_to_pwl dict word len => enchant_dict_add_to_pwl can_append st dict word len
  | .add_to_session dict word len => enchant_dict_add_to_session st dict word len
  | .is_in_session dict word len => (enchant_dict_is_in_session st dict word len).2
  | .store_replacement dict mis mis_len cor cor_len =>
    enchant_dict_store_replacement st dict mis mis_len cor cor_len

/-- The state after a sequence of public operations on dictionaries. -/
def run_ops (can_append : CStr → Bool) : State → List DictOp → State
  | st, [] => st
  | st, op :: ops => run_ops can_append (op.run can_append st) ops

/-! ## Specification-side definitions -/

/-- The rule the specification selects for a tag: the rule stored for exactly that tag,
else the rule stored under the wildcard key. -/
def selected_rule (broker : EnchantBroker) (tag : CStr) : Option CStr :=
  match g_hash_table_lookup broker.provider_ordering tag with
  | some s => some s
  | none => g_hash_table_lookup broker.provider_ordering "*".toList

/-- For each token, in token order, every provider whose name is the token, in
registration order. -/
def spec_matched (providers : List EnchantProvider) (tokens : List CStr) :
    List EnchantProvider :=
  tokens.flatMap (fun token => providers.filter (fun p => p.identify = token))

/-- Every provider not yet included, in registration order; `included` holds the addresses
included so far. -/
def spec_not_yet_included : List Ptr → List EnchantProvider → List EnchantProvider
  | _, [] => []
  | included, p :: rest =>
    if p.ptr ∈ included then spec_not_yet_included included rest
    else p :: spec_not_yet_included (included ++ [p.ptr]) rest

/-- The resolution of an ordering rule as the specification words it. -/
def spec_ordered (providers : List EnchantProvider) (rule : CStr) : List EnchantProvider :=
  let matched := spec_matched providers (g_strsplit_comma rule)
  matched ++ spec_not_yet_included (matched.map (·.ptr)) providers

/-- The hook calls made when the providers of the list are tried for the tag: one per
provider that has a `request_dict` hook, in order. -/
def request_events (tag : CStr) (providers : List EnchantProvider) : List Event :=
  (providers.filter (fun p => p.request_dict.isSome)).map
    (fun p => Event.provider_request_dict p.ptr tag)

/-- The messages the hooks of the providers of the list store when tried for the tag, in
order. -/
def provider_errors (tag : CStr) (providers : List EnchantProvider) : List CStr :=
  providers.filterMap (fun p =>
    match p.request_dict with
    | some hook => (hook tag).error
    | none => none)

/-- The state after the hooks of the providers of the list were called for the tag. -/
def after_requests (tag : CStr) : State → List EnchantProvider → State
  | st, [] => st
  | st, p :: rest =>
    match p.request_dict with
    | none => after_requests tag st rest
    | some hook => after_requests tag (after_request st p tag (hook tag)) rest

/-- The word is a key of the session set or of the personal set of the session. -/
def in_word_sets (session : EnchantSession) (word : CStr) : Prop :=
  word ∈ session.session.map Prod.fst ∨ word ∈ session.personal.map Prod.fst

/-- The hook calls made when the providers of the list are asked whether a dictionary
exists for the tag: one per provider that has a `dictionary_exists` hook, in order. -/
def existence_events (tag : CStr) (providers : List EnchantProvider) : List Event :=
  (providers.filter (fun p => p.dictionary_exists.isSome)).map
    (fun p => Event.provider_dictionary_exists p.ptr tag)

/-- Some provider of the list implements `dictionary_exists` and answers true for the tag. -/
def some_provider_has (tag : CStr) (providers : List EnchantProvider) : Prop :=
  ∃ p ∈ providers, ∃ hook, p.dictionary_exists = some hook ∧ hook tag = true

/-- The providers of the list that a request for the tag tries: all up to and including the
first whose hook yields a dictionary. -/
def tried (tag : CStr) : List EnchantProvider → List EnchantProvider
  | [] => []
  | p :: rest =>
    match p.request_dict with
    | none => p :: tried tag rest
    | some hook => if (hook tag).dict.isSome then [p] else p :: tried tag rest

/-- The cut of the source at the first occurrence of a character: `strchr`, then NUL written
at the needle. -/
def cut_at_first (c : Char) (s : CStr) : CStr :=
  match strchr s c with
  | some needle => truncate_at s needle
  | none => s

/-- The normalization with the two cuts exchanged: trim, cut at the first `.`, then cut at
the first `@`. -/
def normalize_dot_first (x : CStr) : CStr :=
  cut_at_first '@' (cut_at_first '.' (g_strstrip x))

/-- Provider objects are determined by their address: two providers of the list at the same
address are the same provider. -/
def addresses_determine (providers : List EnchantProvider) : Prop :=
  ∀ p ∈ providers, ∀ q ∈ providers, p.ptr = q.ptr → p = q

/-- The number of times the provider object at the address occurs in the list. -/
def occurrences (list : List EnchantProvider) (address : Ptr) : Nat :=
  list.countP (fun q => q.ptr == address)

/-- The second session has the personal set, the file name and the provider of the first,
and every word of the session set of the first is in its session set. -/
def session_le (s s2 : EnchantSession) : Prop :=
  s2.personal = s.personal ∧ s2.personal_filename = s.personal_filename ∧
  s2.provider = s.provider ∧
  ∀ k, (g_hash_table_lookup s.session k).isSome = true →
    (g_hash_table_lookup s2.session k).isSome = true

/-- The tags that the providers list, each with the provider listing it: the providers in
registration order and, for each provider that has a `list_dicts` hook, its tags in list
order. -/
def listed_pairs (providers : List EnchantProvider) : List (CStr × EnchantProvider) :=
  providers.flatMap (fun p =>
    match p.list_dicts with
    | some dicts => dicts.map (fun tag => (tag, p))
    | none => [])

/-- The invocation of the callback for a tag listed by a provider. -/
def call_of (pair : CStr × EnchantProvider) : ListDictsCall :=
  { tag := pair.1, name := pair.2.identify, desc := pair.2.describe, provider := pair.2.ptr }

/-- The invocations for a sequence of listed tags, given the table of the tags already
reported: a tag is reported when it is met for the first time. -/
def report : GHashTable Unit → List (CStr × EnchantProvider) → List ListDictsCall
  | _, [] => []
  | tags, pair :: rest =>
    if (g_hash_table_lookup tags pair.1).isSome then report tags rest
    else call_of pair :: report (g_hash_table_insert tags pair.1 ()) rest

/-- The table of reported tags after a sequence of listed tags. -/
def tags_after : GHashTable Unit → List (CStr × EnchantProvider) → GHashTable Unit
  | tags, [] => tags
  | tags, pair :: rest =>
    if (g_hash_table_lookup tags pair.1).isSome then tags_after tags rest
    else tags_after (g_hash_table_insert tags pair.1 ()) rest

/-- The whitespace that the trimming removes, spelled out: space, horizontal tab, line feed,
form feed and carriage return. -/
def spec_whitespace (c : Char) : Prop :=
  c = ' ' ∨ c = '\t' ∨ c = '\n' ∨ c = '\x0c' ∨ c = '\r'

instance spec_whitespace_decidable (c : Char) : Decidable (spec_whitespace c) :=
  inferInstanceAs (Decidable (c = ' ' ∨ c = '\t' ∨ c = '\n' ∨ c = '\x0c' ∨ c = '\r'))

/-- The string `r` is `x` with its leading and trailing whitespace trimmed: `x` is `r` between
two runs of whitespace, and `r` neither begins nor ends with whitespace. -/
def spec_trimmed (r x : CStr) : Prop :=
  ∃ l t : CStr, x = l ++ r ++ t ∧ (∀ c ∈ l, spec_whitespace c) ∧ (∀ c ∈ t, spec_whitespace c) ∧
    (∀ c, r.head? = some c → ¬ spec_whitespace c) ∧
    (∀ c, r.getLast? = some c → ¬ spec_whitespace c)

/-- Every provider-backed dictionary of the cache carries the tag it is cached under. This
holds on an empty cache and is kept by the requests as long as no provider hands out an
object that is a dictionary of the cache already. -/
def cache_tags_agree (st : State) : Prop :=
  ∀ key d, g_hash_table_lookup st.broker.dict_map key = some d →
    (st.dicts d).enchant_private_data.provider.isSome = true →
    (st.dicts d).enchant_private_data.language_tag = key

/-! ## Example objects -/

/-- A session with no word, no file and no provider. -/
def blank_session : EnchantSession :=
  { session := [], personal := [], personal_filename := none, language_tag := [],
    error := none, is_pwl := false, provider := none }

/-- A dictionary object whose `check` hook reports every word as incorrect. -/
def strict_dict : EnchantDict :=
  { enchant_private_data := blank_session, check := some (fun _ _ => { value := 1 }) }

/-- A provider named `a` without a `request_dict` hook. -/
def prov_a : EnchantProvider := { ptr := 1, identify := "a".toList }

/-- A provider named `b` that serves `en_US` only and reports an error otherwise. -/
def prov_b : EnchantProvider :=
  { ptr := 2, identify := "b".toList,
    request_dict := some (fun tag =>
      if tag = "en_US".toList then { dict := some (100, strict_dict) }
      else { dict := none, error := some "b: unknown tag".toList }) }

/-- A provider named `c` that serves every tag but `xx`, one object per tag class. -/
def prov_c : EnchantProvider :=
  { ptr := 3, identify := "c".toList,
    request_dict := some (fun tag =>
      if tag = "xx".toList then { dict := none }
      else { dict := some (200 + tag.length, strict_dict) }) }

/-- A broker with the providers `a`, `b`, `c` registered in that order. -/
def example_broker : EnchantBroker :=
  { provider_list := [prov_a, prov_b, prov_c], dict_map := [], provider_ordering := [],
    error := none }

/-- A broker without any provider. -/
def empty_broker : EnchantBroker :=
  { provider_list := [], dict_map := [], provider_ordering := [], error := none }

/-- A state around a broker: no file, no call so far. -/
def state_of (broker : EnchantBroker) : State :=
  { broker := broker, dicts := fun _ => { enchant_private_data := blank_session },
    files := fun _ => none, trace := [] }

/-- A platform with a home directory and a plain join of path elements. -/
def example_env : Env :=
  { home_dir := some "/home/u".toList,
    g_build_filename := fun l => List.intercalate "/".toList l,
    BUFSIZ := 1024 }

/-- A state with two dictionaries: a provider dictionary at address 100 whose hook rejects
every word, and a personal-word-list dictionary at address 7 holding the word `foo`. -/
def two_dict_state : State :=
  { broker := example_broker,
    dicts := fun d =>
      if d = 100 then
        { strict_dict with
          enchant_private_data :=
            { blank_session with language_tag := "en_US".toList, provider := some 2 } }
      else
        { enchant_private_data :=
            { blank_session with personal := [("foo".toList, ())], is_pwl := true } },
    files := fun _ => none, trace := [] }

/-- Every file can be opened for append. -/
def always_append : CStr → Bool := fun _ => true

/-- A state whose dictionary at address 7 is backed by the personal file `/tmp/pwl`, the
file holding `content`. -/
def pwl_state (content : List Char) : State :=
  { broker := example_broker,
    dicts := fun _ =>
      { enchant_private_data :=
          { blank_session with personal_filename := some "/tmp/pwl".toList, is_pwl := true } },
    files := fun name => if name = "/tmp/pwl".toList then some content else none,
    trace := [] }

/-- A state whose dictionary at address 7 is backed by the personal file `/tmp/pwl`, which
holds the line `abc`, and has the hooks `add_to_session` and `add_to_personal`. -/
def pwl_hooks_state : State :=
  { broker := example_broker,
    dicts := fun _ =>
      { enchant_private_data :=
          { blank_session with personal_filename := some "/tmp/pwl".toList },
        add_to_session := some (fun _ _ => { value := () }),
        add_to_personal := some (fun _ _ => { value := () }) },
    files := fun name => if name = "/tmp/pwl".toList then some "abc\n".toList else none,
    trace := [] }

/-- A state with an empty cache and the personal file `/tmp/words.txt` holding `foo`. -/
def words_state : State :=
  { broker := example_broker,
    dicts := fun _ => { enchant_private_data := blank_session },
    files := fun name => if name = "/tmp/words.txt".toList then some "foo\n".toList else none,
    trace := [] }

/-- A provider named `d` that serves every tag with the object at address 300, has a
`dispose_dict` hook and knows the dictionary `en_US`. -/
def prov_d : EnchantProvider :=
  { ptr := 4, identify := "d".toList,
    request_dict := some (fun _ => { dict := some (300, strict_dict) }),
    dictionary_exists := some (fun tag => tag = "en_US".toList),
    dispose_dict := true }

/-- A provider named `e` that knows no dictionary. -/
def prov_e : EnchantProvider :=
  { ptr := 5, identify := "e".toList, dictionary_exists := some (fun _ => false) }

/-- A broker with the providers `a`, `e`, `d`, `c` registered in that order. -/
def second_broker : EnchantBroker :=
  { provider_list := [prov_a, prov_e, prov_d, prov_c], dict_map := [], provider_ordering := [],
    error := none }

/-- The state after the requests for `en_US` and then `fr_FR` on the broker with the
providers `a`, `e`, `d`, `c`: the provider `d` has handed out the object 300 for both tags,
the cache holds it under both, and its session carries `fr_FR`. -/
def aliased_state : State :=
  (enchant_broker_request_dict example_env
    (enchant_broker_request_dict example_env (state_of second_broker)
      (some "en_US".toList)).2 (some "fr_FR".toList)).2

/-- A broker with the providers `a`, `b` registered in that order. -/
def ab_broker : EnchantBroker :=
  { provider_list := [prov_a, prov_b], dict_map := [], provider_ordering := [], error := none }

/-- A provider named `f` with the hooks `free_string_list`, `dispose`, `dispose_dict` and
`list_dicts`, the latter listing `en_US` and `fr_FR`. -/
def prov_f : EnchantProvider :=
  { ptr := 6, identify := "f".toList, list_dicts := some ["en_US".toList, "fr_FR".toList],
    dispose_dict := true, dispose := true, free_string_list := true }

/-- A dictionary of provider `f` whose `suggest` hook proposes `foo` and `bar`. -/
def helpful_dict : EnchantDict :=
  { enchant_private_data :=
      { blank_session with language_tag := "en_US".toList, provider := some 6 },
    suggest := some (fun _ _ => { value := (some ["foo".toList, "bar".toList], 2) }) }

/-- A dictionary of provider `f` without `suggest` hook, whose `check` hook fails and stores
a message through `enchant_dict_set_error`. -/
def moody_dict : EnchantDict :=
  { enchant_private_data :=
      { blank_session with language_tag := "fr_FR".toList, provider := some 6 },
    check := some (fun _ _ => { value := -1, error := some "backend failure".toList }) }

/-- A state with the provider `f`, its dictionary with suggestions at address 100 (cached
under `en_US`) and its failing dictionary at every other address (cached under `fr_FR` at
address 7). -/
def hooks_state : State :=
  { broker :=
      { provider_list := [prov_f],
        dict_map := [("en_US".toList, 100), ("fr_FR".toList, 7)],
        provider_ordering := [("*".toList, "f".toList)], error := none },
    dicts := fun d => if d = 100 then helpful_dict else moody_dict,
    files := fun _ => none, trace := [] }

/-- A provider named `g` whose `list_dicts` hook lists `fr_FR` and, twice, `de_DE`. -/
def prov_g : EnchantProvider :=
  { ptr := 8, identify := "g".toList,
    list_dicts := some ["fr_FR".toList, "de_DE".toList, "de_DE".toList] }

/-- A state whose broker holds the providers `a`, `f`, `g` registered in that order. -/
def listing_state : State :=
  state_of { provider_list := [prov_a, prov_f, prov_g], dict_map := [],
             provider_ordering := [], error := none }

end Enchant

namespace Enchant

/-! ## Lemmas on the string helpers -/

theorem strchr_cut (s : CStr) (c : Char) :
    (match strchr s c with
      | some needle => truncate_at s needle
      | none => s) = s.takeWhile (· ≠ c) := by
  induction s with
  | nil => simp [strchr]
  | cons x xs ih =>
    by_cases h : x = c
    · simp [strchr, h, truncate_at]
    · simp only [strchr, h, if_false]
      rw [List.takeWhile_cons_of_pos (by simpa using h)]
      cases hs : strchr xs c with
      | none => simp [hs] at ih ⊢; exact ih
      | some i => simp [hs, truncate_at] at ih ⊢; exact ih

theorem normalize_eq_spec (x : CStr) :
    enchant_normalize_dictionary_tag x = spec_normalize x := by
  unfold enchant_normalize_dictionary_tag spec_normalize
  simp only []
  rw [strchr_cut, strchr_cut]

/-- No whitespace character starts the string. -/
theorem head_not_space_chug (s : CStr) :
    ∀ c, (g_strchug s).head? = some c → g_ascii_isspace c = false := by
  intro c hc
  have h := List.head?_dropWhile_not g_ascii_isspace s
  unfold g_strchug at hc
  rw [hc] at h
  exact h

theorem head_not_space_of_initial {a b : CStr} (hp : a <+: b)
    (hb : ∀ c, b.head? = some c → g_ascii_isspace c = false) :
    ∀ c, a.head? = some c → g_ascii_isspace c = false := by
  obtain ⟨t, rfl⟩ := hp
  intro c hc
  cases a with
  | nil => simp at hc
  | cons x xs => exact hb c (by simpa using hc)

theorem g_strchug_of_head {s : CStr}
    (h : ∀ c, s.head? = some c → g_ascii_isspace c = false) : g_strchug s = s := by
  cases s with
  | nil => rfl
  | cons x xs =>
    have hx := h x rfl
    simp [g_strchug, List.dropWhile, hx]

theorem g_strchomp_initial (s : CStr) : g_strchomp s <+: s := by
  unfold g_strchomp
  have h := List.dropWhile_suffix (l := s.reverse) g_ascii_isspace
  rw [← List.reverse_prefix] at h
  simpa using h

theorem spec_normalize_initial_chug (x : CStr) : spec_normalize x <+: g_strchug x := by
  unfold spec_normalize g_strstrip
  exact (( List.takeWhile_prefix _).trans ( List.takeWhile_prefix _)).trans
    (g_strchomp_initial _)

theorem spec_normalize_no_sep (x : CStr) :
    ∀ c ∈ spec_normalize x, c ≠ '@' ∧ c ≠ '.' := by
  intro c hc
  unfold spec_normalize at hc
  have h2 := List.mem_takeWhile_imp hc
  have h1 := List.mem_takeWhile_imp (( List.takeWhile_prefix _).subset hc)
  exact ⟨by simpa using h1, by simpa using h2⟩

/-- Normalizing a normalized tag only removes its trailing whitespace. -/
theorem normalize_normalize (x : CStr) :
    enchant_normalize_dictionary_tag (enchant_normalize_dictionary_tag x)
      = g_strchomp (enchant_normalize_dictionary_tag x) := by
  rw [normalize_eq_spec x, normalize_eq_spec]
  have hhead := head_not_space_of_initial (spec_normalize_initial_chug x) (head_not_space_chug x)
  have hsep := spec_normalize_no_sep x
  generalize spec_normalize x = y at hhead hsep
  unfold spec_normalize g_strstrip
  rw [g_strchug_of_head hhead]
  have hsub := (g_strchomp_initial y).subset
  have h1 : (g_strchomp y).takeWhile (· ≠ '@') = g_strchomp y := by
    rw [List.takeWhile_eq_self_iff]
    intro c hc
    simpa using (hsep c (hsub hc)).1
  rw [h1]
  rw [List.takeWhile_eq_self_iff]
  intro c hc
  simpa using (hsep c (hsub hc)).2

theorem g_strchomp_eq_self_iff (s : CStr) : g_strchomp s = s ↔ ends_in_space s = false := by
  unfold g_strchomp ends_in_space
  rw [← List.head?_reverse]
  rw [List.reverse_eq_iff]
  generalize s.reverse = r
  cases r with
  | nil => simp
  | cons a t =>
    by_cases ha : g_ascii_isspace a = true
    · simp only [List.dropWhile, ha, List.head?_cons]
      constructor
      · intro h
        have := List.dropWhile_suffix (l := t) g_ascii_isspace
        rw [h] at this
        have hl := this.length_le
        simp at hl
      · intro h; simp at h
    · simp only [Bool.not_eq_true] at ha
      simp [List.dropWhile, ha]

theorem g_ascii_isspace_iff (c : Char) : g_ascii_isspace c = true ↔ spec_whitespace c := by
  unfold g_ascii_isspace spec_whitespace
  simp only [Bool.or_eq_true, beq_iff_eq, or_assoc]

theorem g_ascii_isspace_false_iff (c : Char) :
    g_ascii_isspace c = false ↔ ¬ spec_whitespace c := by
  rw [← g_ascii_isspace_iff]
  simp

theorem dropWhile_append_all {p : Char → Bool} (l r : List Char)
    (hl : ∀ c ∈ l, p c = true) : (l ++ r).dropWhile p = r.dropWhile p := by
  induction l with
  | nil => rfl
  | cons a l ih =>
    have ha := hl a (List.mem_cons_self _ _)
    simp only [List.cons_append, List.dropWhile, ha]
    exact ih (fun c hc => hl c (List.mem_cons_of_mem _ hc))

theorem dropWhile_of_head {p : Char → Bool} (r : List Char)
    (h : ∀ c, r.head? = some c → p c = false) : r.dropWhile p = r := by
  cases r with
  | nil => rfl
  | cons x xs =>
    have hx := h x rfl
    simp [List.dropWhile, hx]

theorem dropWhile_all {p : Char → Bool} (l : List Char)
    (hl : ∀ c ∈ l, p c = true) : l.dropWhile p = [] := by
  have h := dropWhile_append_all l [] hl
  simpa using h

/-- The trimmed string is determined by `spec_trimmed`: it is what `g_strstrip` leaves. -/
theorem spec_trimmed_unique (r x : CStr) (h : spec_trimmed r x) : r = g_strstrip x := by
  obtain ⟨l, t, rfl, hl, ht, hhead, hlast⟩ := h
  have hl2 : ∀ c ∈ l, g_ascii_isspace c = true := fun c hc => (g_ascii_isspace_iff c).mpr (hl c hc)
  have ht2 : ∀ c ∈ t, g_ascii_isspace c = true := fun c hc => (g_ascii_isspace_iff c).mpr (ht c hc)
  unfold g_strstrip g_strchug
  rw [List.append_assoc, dropWhile_append_all l (r ++ t) hl2]
  cases r with
  | nil =>
    simp only [List.nil_append]
    rw [dropWhile_all t ht2]
    rfl
  | cons a r =>
    have hhead2 : ∀ c, (a :: r ++ t).head? = some c → g_ascii_isspace c = false := by
      intro c hc
      exact (g_ascii_isspace_false_iff c).mpr (hhead c (by simpa using hc))
    rw [dropWhile_of_head _ hhead2]
    unfold g_strchomp
    rw [List.reverse_append, dropWhile_append_all t.reverse (a :: r).reverse
      (fun c hc => ht2 c (List.mem_reverse.mp hc))]
    rw [dropWhile_of_head]
    · simp
    · intro c hc
      rw [List.head?_reverse] at hc
      exact (g_ascii_isspace_false_iff c).mpr (hlast c hc)

/-- What `g_strstrip` leaves is the input with leading and trailing whitespace trimmed. -/
theorem g_strstrip_trimmed (x : CStr) : spec_trimmed (g_strstrip x) x := by
  refine ⟨x.takeWhile g_ascii_isspace,
    ((g_strchug x).reverse.takeWhile g_ascii_isspace).reverse, ?_, ?_, ?_, ?_, ?_⟩
  · have h1 : x = x.takeWhile g_ascii_isspace ++ g_strchug x :=
      (List.takeWhile_append_dropWhile g_ascii_isspace x).symm
    have h2 : g_strchug x = g_strstrip x
        ++ ((g_strchug x).reverse.takeWhile g_ascii_isspace).reverse := by
      unfold g_strstrip g_strchomp
      rw [← List.reverse_append, List.takeWhile_append_dropWhile, List.reverse_reverse]
    rw [List.append_assoc, ← h2]
    exact h1
  · intro c hc
    exact (g_ascii_isspace_iff c).mp (List.mem_takeWhile_imp hc)
  · intro c hc
    exact (g_ascii_isspace_iff c).mp (List.mem_takeWhile_imp (List.mem_reverse.mp hc))
  · intro c hc
    exact (g_ascii_isspace_false_iff c).mp
      (head_not_space_of_initial (g_strchomp_initial _) (head_not_space_chug x) c hc)
  · intro c hc
    apply (g_ascii_isspace_false_iff c).mp
    unfold g_strstrip g_strchomp at hc
    rw [← List.head?_reverse, List.reverse_reverse] at hc
    have h := List.head?_dropWhile_not g_ascii_isspace (g_strchug x).reverse
    rw [hc] at h
    exact h

/-- Nothing is left of a string by `g_strstrip` exactly when it holds whitespace only. -/
theorem g_strstrip_eq_nil_iff (s : CStr) :
    g_strstrip s = [] ↔ ∀ c ∈ s, spec_whitespace c := by
  constructor
  · intro h
    obtain ⟨l, t, hx, hl, ht, _, _⟩ := g_strstrip_trimmed s
    rw [h] at hx
    intro c hc
    rw [hx] at hc
    simp only [List.append_nil, List.mem_append] at hc
    rcases hc with hc | hc
    · exact hl c hc
    · exact ht c hc
  · intro h
    exact (spec_trimmed_unique [] s ⟨s, [], by simp, h, by simp, by simp, by simp⟩).symm

/-- A tag that starts with the character of a cut normalizes to the empty string. -/
theorem normalize_of_head (tag : CStr) (h : tag.head? = some '@' ∨ tag.head? = some '.') :
    enchant_normalize_dictionary_tag tag = [] := by
  cases tag with
  | nil => simp at h
  | cons a rest =>
    have ha : a = '@' ∨ a = '.' := by simpa using h
    have hw : g_ascii_isspace a = false := by
      rcases ha with rfl | rfl <;> decide
    have hchug : g_strchug (a :: rest) = a :: rest := by
      simp [g_strchug, List.dropWhile, hw]
    obtain ⟨l, t, hx, hl, _, hhead, _⟩ := g_strstrip_trimmed (a :: rest)
    have hl0 : l = [] := by
      cases l with
      | nil => rfl
      | cons b l2 =>
        have hb : b = a := by
          have := congrArg List.head? hx
          simpa using this.symm
        have := (g_ascii_isspace_iff b).mpr (hl b (List.mem_cons_self _ _))
        rw [hb, hw] at this
        cases this
    rw [hl0] at hx
    rw [normalize_eq_spec]
    unfold spec_normalize
    cases hs : g_strstrip (a :: rest) with
    | nil => rfl
    | cons b s2 =>
      rw [hs] at hx
      have hb : b = a := by
        have := congrArg List.head? hx
        simpa using this.symm
      subst hb
      rcases ha with rfl | rfl
      · simp [List.takeWhile]
      · simp [List.takeWhile]

/-! ## Lemmas on the provider ordering -/

theorem append_all_eq (list providers : List EnchantProvider) :
    append_all list providers = list ++ providers := by
  induction providers generalizing list with
  | nil => simp [append_all]
  | cons p rest ih => simp [append_all, ih]

theorem append_matching_eq (token : CStr) (list providers : List EnchantProvider) :
    append_matching token list providers
      = list ++ providers.filter (fun p => p.identify = token) := by
  induction providers generalizing list with
  | nil => simp [append_matching]
  | cons p rest ih =>
    by_cases h : token = p.identify
    · subst h
      simp [append_matching, ih, List.filter_cons]
    · have h2 : ¬ p.identify = token := fun e => h e.symm
      simp [append_matching, ih, h, h2, List.filter_cons]

theorem append_tokens_eq (providers list : List EnchantProvider) (tokens : List CStr) :
    append_tokens providers list tokens = list ++ spec_matched providers tokens := by
  induction tokens generalizing list with
  | nil => simp [append_tokens, spec_matched]
  | cons t ts ih =>
    simp only [append_tokens, ih, append_matching_eq]
    simp [spec_matched, List.flatMap_cons]

theorem g_slist_find_iff (list : List EnchantProvider) (data : Ptr) :
    g_slist_find list data = true ↔ data ∈ list.map (·.ptr) := by
  unfold g_slist_find
  rw [List.any_eq_true, List.mem_map]
  constructor
  · rintro ⟨q, hq, he⟩
    exact ⟨q, hq, by simpa using he⟩
  · rintro ⟨q, hq, he⟩
    exact ⟨q, hq, by simpa using he⟩

theorem append_missing_eq (list providers : List EnchantProvider) :
    append_missing list providers
      = list ++ spec_not_yet_included (list.map (·.ptr)) providers := by
  induction providers generalizing list with
  | nil => simp [append_missing, spec_not_yet_included]
  | cons p rest ih =>
    by_cases h : g_slist_find list p.ptr = true
    · have h2 := (g_slist_find_iff list p.ptr).mp h
      simp only [append_missing, h, if_true, ih, spec_not_yet_included, h2]
    · have h2 : ¬ p.ptr ∈ list.map (·.ptr) := fun e => h ((g_slist_find_iff list p.ptr).mpr e)
      simp only [append_missing, h, ih, spec_not_yet_included, h2, if_false]
      simp

theorem spec_not_yet_included_nodup (included : List Ptr) (providers : List EnchantProvider)
    (hnd : (providers.map (·.ptr)).Nodup) :
    spec_not_yet_included included providers
      = providers.filter (fun p => decide (p.ptr ∉ included)) := by
  induction providers generalizing included with
  | nil => simp [spec_not_yet_included]
  | cons p rest ih =>
    simp only [List.map_cons, List.nodup_cons] at hnd
    by_cases h : p.ptr ∈ included
    · simp [spec_not_yet_included, h, ih included hnd.2, List.filter_cons]
    · simp only [spec_not_yet_included, h, if_false, ih _ hnd.2, List.filter_cons]
      simp only [not_false_eq_true, decide_True, if_true, List.cons.injEq, true_and]
      apply List.filter_congr
      intro q hq
      have hne : q.ptr ≠ p.ptr := by
        intro e
        exact hnd.1 (e ▸ List.mem_map_of_mem _ hq)
      simp [hne]

theorem ordered_of_rule (broker : EnchantBroker) (tag rule : CStr)
    (h : selected_rule broker tag = some rule) :
    enchant_get_ordered_providers broker tag = spec_ordered broker.provider_list rule := by
  have key : ∀ o : Option CStr, o = some rule →
      (match o with
        | none => append_all [] broker.provider_list
        | some ordering =>
          append_missing (append_tokens broker.provider_list [] (g_strsplit_comma ordering))
            broker.provider_list) = spec_ordered broker.provider_list rule := by
    intro o ho
    subst ho
    simp only []
    rw [append_missing_eq, append_tokens_eq]
    simp [spec_ordered]
  exact key _ h

theorem ordered_of_no_rule (broker : EnchantBroker) (tag : CStr)
    (h : selected_rule broker tag = none) :
    enchant_get_ordered_providers broker tag = broker.provider_list := by
  have key : ∀ o : Option CStr, o = none →
      (match o with
        | none => append_all [] broker.provider_list
        | some ordering =>
          append_missing (append_tokens broker.provider_list [] (g_strsplit_comma ordering))
            broker.provider_list) = broker.provider_list := by
    intro o ho
    subst ho
    simp only []
    rw [append_all_eq]
    simp
  exact key _ h


theorem mem_spec_not_yet_included (included : List Ptr) (providers : List EnchantProvider)
    (q : EnchantProvider) (h : q ∈ spec_not_yet_included included providers) :
    q ∈ providers := by
  induction providers generalizing included with
  | nil => simp [spec_not_yet_included] at h
  | cons p rest ih =>
    by_cases hp : p.ptr ∈ included
    · simp only [spec_not_yet_included, hp, if_true] at h
      exact List.mem_cons_of_mem _ (ih _ h)
    · simp only [spec_not_yet_included, hp, if_false, List.mem_cons] at h
      rcases h with h | h
      · simp [h]
      · exact List.mem_cons_of_mem _ (ih _ h)

/-- Every provider of the ordered list is a registered provider. -/
theorem mem_ordered_registered (broker : EnchantBroker) (tag : CStr) (q : EnchantProvider)
    (h : q ∈ enchant_get_ordered_providers broker tag) : q ∈ broker.provider_list := by
  cases hr : selected_rule broker tag with
  | none => rw [ordered_of_no_rule broker tag hr] at h; exact h
  | some rule =>
    rw [ordered_of_rule broker tag rule hr, spec_ordered] at h
    simp only [List.mem_append] at h
    rcases h with h | h
    · simp only [spec_matched, List.mem_flatMap, List.mem_filter] at h
      obtain ⟨_, _, hq, _⟩ := h
      exact hq
    · exact mem_spec_not_yet_included _ _ q h

/-! ## Lemmas on hash tables -/

theorem lookup_insert_self {V : Type} (t : GHashTable V) (key : CStr) (value : V) :
    g_hash_table_lookup (g_hash_table_insert t key value) key = some value := by
  induction t with
  | nil => simp [g_hash_table_insert, g_hash_table_lookup]
  | cons e rest ih =>
    obtain ⟨k, v⟩ := e
    by_cases h : k = key
    · simp [g_hash_table_insert, g_hash_table_lookup, h]
    · simp [g_hash_table_insert, g_hash_table_lookup, h, ih]

theorem lookup_insert_other {V : Type} (t : GHashTable V) (key other : CStr) (value : V)
    (hne : other ≠ key) :
    g_hash_table_lookup (g_hash_table_insert t key value) other = g_hash_table_lookup t other := by
  induction t with
  | nil =>
    have h : ¬ key = other := fun e => hne e.symm
    simp [g_hash_table_insert, g_hash_table_lookup, h]
  | cons e rest ih =>
    obtain ⟨k, v⟩ := e
    by_cases h : k = key
    · subst h
      have h2 : ¬ k = other := fun e => hne e.symm
      simp [g_hash_table_insert, g_hash_table_lookup, h2]
    · by_cases h3 : k = other
      · subst h3
        simp only [g_hash_table_insert, h, if_false, g_hash_table_lookup, if_true]
      · simp only [g_hash_table_insert, h, if_false, g_hash_table_lookup, h3, ih]

theorem lookup_isSome_iff {V : Type} (t : GHashTable V) (key : CStr) :
    (g_hash_table_lookup t key).isSome = true ↔ key ∈ t.map Prod.fst := by
  induction t with
  | nil => simp [g_hash_table_lookup]
  | cons e rest ih =>
    obtain ⟨k, v⟩ := e
    by_cases h : k = key
    · simp only [g_hash_table_lookup, h, if_true, Option.isSome_some, List.map_cons,
        List.mem_cons, true_or]
    · have h2 : ¬ key = k := fun e => h e.symm
      simp only [g_hash_table_lookup, h, if_false, ih, List.map_cons, List.mem_cons, h2,
        false_or]

/-! ## Lemmas on sessions and on the request loop -/

theorem session_new_provider (env : Env) (files : CStr → Option (List Char))
    (provider : Option Ptr) (lang : CStr) :
    (enchant_session_new env files provider lang).provider = provider ∧
    (enchant_session_new env files provider lang).language_tag = lang := by
  unfold enchant_session_new enchant_session_new_with_pwl
  cases env.home_dir with
  | none => simp
  | some home =>
    simp only []
    cases files (env.g_build_filename [home, ".enchant".toList, lang ++ ".dic".toList]) with
    | none => simp
    | some content => simp

theorem after_requests_append (tag : CStr) (st : State) (l1 l2 : List EnchantProvider) :
    after_requests tag st (l1 ++ l2) = after_requests tag (after_requests tag st l1) l2 := by
  induction l1 generalizing st with
  | nil => rfl
  | cons p rest ih =>
    cases hp : p.request_dict with
    | none => simp [after_requests, hp, ih]
    | some hook => simp [after_requests, hp, ih]

theorem after_requests_frame (tag : CStr) (st : State) (l : List EnchantProvider) :
    (after_requests tag st l).trace = st.trace ++ request_events tag l ∧
    (after_requests tag st l).dicts = st.dicts ∧
    (after_requests tag st l).files = st.files ∧
    (after_requests tag st l).broker.dict_map = st.broker.dict_map ∧
    (after_requests tag st l).broker.provider_list = st.broker.provider_list ∧
    (after_requests tag st l).broker.provider_ordering = st.broker.provider_ordering := by
  induction l generalizing st with
  | nil => simp [after_requests, request_events]
  | cons p rest ih =>
    cases hp : p.request_dict with
    | none =>
      simp only [after_requests, hp]
      have h := ih st
      simp only [request_events, List.filter_cons, hp, Option.isSome_none] at h ⊢
      exact h
    | some hook =>
      simp only [after_requests, hp]
      obtain ⟨h1, h2, h3, h4, h5, h6⟩ := ih (after_request st p tag (hook tag))
      refine ⟨?_, ?_, ?_, ?_, ?_, ?_⟩
      · rw [h1]
        simp [request_events, List.filter_cons, hp, after_request]
      · rw [h2]; rfl
      · rw [h3]; rfl
      · rw [h4]; unfold after_request enchant_provider_set_error enchant_broker_clear_error
        cases (hook tag).error <;> rfl
      · rw [h5]; unfold after_request enchant_provider_set_error enchant_broker_clear_error
        cases (hook tag).error <;> rfl
      · rw [h6]; unfold after_request enchant_provider_set_error enchant_broker_clear_error
        cases (hook tag).error <;> rfl

/-- The error slot after a run of hook calls: the last message stored, else what it held. -/
theorem after_requests_error (tag : CStr) (st : State) (l : List EnchantProvider) :
    (after_requests tag st l).broker.error
      = match (provider_errors tag l).getLast? with
        | some e => some e
        | none => st.broker.error := by
  induction l generalizing st with
  | nil => simp [after_requests, provider_errors]
  | cons p rest ih =>
    cases hp : p.request_dict with
    | none =>
      simp only [after_requests, hp]
      rw [ih st]
      simp [provider_errors, List.filterMap_cons, hp]
    | some hook =>
      simp only [after_requests, hp]
      rw [ih]
      cases he : (hook tag).error with
      | none =>
        simp [provider_errors, List.filterMap_cons, hp, he, after_request]
      | some e =>
        have hcons : provider_errors tag (p :: rest) = e :: provider_errors tag rest := by
          simp [provider_errors, List.filterMap_cons, hp, he]
        rw [hcons]
        cases hl : (provider_errors tag rest).getLast? with
        | none =>
          have hnil : provider_errors tag rest = [] := by
            simpa [List.getLast?_eq_none_iff] using hl
          simp [hnil, after_request, he, enchant_provider_set_error, enchant_broker_clear_error]
        | some e2 =>
          have hne : provider_errors tag rest ≠ [] := by
            intro hnil; rw [hnil] at hl; simp at hl
          obtain ⟨x, xs, hxs⟩ := List.exists_cons_of_ne_nil hne
          rw [hxs] at hl ⊢
          rw [List.getLast?_cons_cons, hl]

/-- Providers that return no dictionary are passed over by the request loop. -/
theorem request_dict_loop_skip (env : Env) (tag : CStr) (st : State)
    (pre rest : List EnchantProvider)
    (hpre : ∀ q ∈ pre, ∀ hook, q.request_dict = some hook → (hook tag).dict = none) :
    request_dict_loop env tag st (pre ++ rest)
      = request_dict_loop env tag (after_requests tag st pre) rest := by
  induction pre generalizing st with
  | nil => rfl
  | cons p ps ih =>
    have hps : ∀ q ∈ ps, ∀ hook, q.request_dict = some hook → (hook tag).dict = none :=
      fun q hq => hpre q (List.mem_cons_of_mem _ hq)
    cases hp : p.request_dict with
    | none =>
      simp only [List.cons_append, request_dict_loop, after_requests, hp]
      exact ih st hps
    | some hook =>
      have hd := hpre p (List.mem_cons_self _ _) hook hp
      simp only [List.cons_append, request_dict_loop, after_requests, hp, hd]
      exact ih _ hps

/-- A dictionary returned by the request loop is in the cache under the tag. -/
theorem request_dict_loop_cached (env : Env) (tag : CStr) (st st1 : State)
    (l : List EnchantProvider) (d : Ptr)
    (h : request_dict_loop env tag st l = (some d, st1)) :
    g_hash_table_lookup st1.broker.dict_map tag = some d := by
  induction l generalizing st with
  | nil => simp [request_dict_loop] at h
  | cons p ps ih =>
    cases hp : p.request_dict with
    | none =>
      simp only [request_dict_loop, hp] at h
      exact ih st h
    | some hook =>
      cases hd : (hook tag).dict with
      | none =>
        simp only [request_dict_loop, hp, hd] at h
        exact ih _ h
      | some res =>
        obtain ⟨dptr, obj⟩ := res
        simp only [request_dict_loop, hp, hd, Prod.mk.injEq, Option.some.injEq] at h
        obtain ⟨h1, h2⟩ := h
        subst h1
        subst h2
        exact lookup_insert_self _ _ _

/-! ## Claims on tag normalization -/

/-- C1 (counterexample): normalization is not idempotent on `"en @euro"`: the first pass cuts
at `@` and leaves `"en "`, whose trailing blank the second pass trims. -/
theorem normalize_not_idempotent :
    enchant_normalize_dictionary_tag (enchant_normalize_dictionary_tag "en @euro".toList)
      ≠ enchant_normalize_dictionary_tag "en @euro".toList := by
  decide

/-- C1 (amended): normalizing a normalized tag removes its trailing whitespace and nothing
else; hence `normalize (normalize x) = normalize x` holds exactly for the strings `x` whose
normalized form does not end in a whitespace character, which is one of space, tab, line
feed, form feed and carriage return. -/
theorem normalize_idempotent_iff (x : CStr) :
    enchant_normalize_dictionary_tag (enchant_normalize_dictionary_tag x)
        = g_strchomp (enchant_normalize_dictionary_tag x) ∧
    (enchant_normalize_dictionary_tag (enchant_normalize_dictionary_tag x)
        = enchant_normalize_dictionary_tag x ↔
      ends_in_space (enchant_normalize_dictionary_tag x) = false) ∧
    (ends_in_space (enchant_normalize_dictionary_tag x) = true ↔
      ∃ c, (enchant_normalize_dictionary_tag x).getLast? = some c ∧ spec_whitespace c) := by
  refine ⟨normalize_normalize x, ?_, ?_⟩
  · rw [normalize_normalize x]
    exact g_strchomp_eq_self_iff _
  · unfold ends_in_space
    cases (enchant_normalize_dictionary_tag x).getLast? with
    | none => simp
    | some c => simp [g_ascii_isspace_iff]

/-- C1 (witness): the amended statement at `"en_GB.UTF-8@euro"`, whose normalized form
`"en_GB"` ends in no whitespace, and at `en`, vertical tab, `@euro`, whose normalized form
ends in a vertical tab, which is no whitespace of the trimming. -/
theorem normalize_idempotent_iff_witness :
    enchant_normalize_dictionary_tag
        (enchant_normalize_dictionary_tag "en_GB.UTF-8@euro".toList)
      = enchant_normalize_dictionary_tag "en_GB.UTF-8@euro".toList ∧
    enchant_normalize_dictionary_tag
        (enchant_normalize_dictionary_tag "en\x0b@euro".toList)
      = enchant_normalize_dictionary_tag "en\x0b@euro".toList :=
  ⟨(normalize_idempotent_iff "en_GB.UTF-8@euro".toList).2.1.mpr (by decide),
   (normalize_idempotent_iff "en\x0b@euro".toList).2.1.mpr (by decide)⟩

/-- C2: the four examples of the specification, and in general the result is the input
trimmed, then cut at the first `@`, then cut at the first `.`. The trimming takes off the
leading and the trailing run of whitespace, which is space, tab, line feed, form feed and
carriage return: the input is the trimmed string between two runs of such characters, and
the trimmed string neither begins nor ends with one; this determines it. A vertical tab is
not trimmed. -/
theorem normalize_examples_and_shape :
    enchant_normalize_dictionary_tag "en_GB@euro".toList = "en_GB".toList ∧
    enchant_normalize_dictionary_tag "de_DE.UTF-8".toList = "de_DE".toList ∧
    enchant_normalize_dictionary_tag "  fr_FR  ".toList = "fr_FR".toList ∧
    enchant_normalize_dictionary_tag "en_GB.UTF-8@euro".toList = "en_GB".toList ∧
    (∀ x : CStr, enchant_normalize_dictionary_tag x
      = ((g_strstrip x).takeWhile (· ≠ '@')).takeWhile (· ≠ '.')) ∧
    (∀ x : CStr, spec_trimmed (g_strstrip x) x) ∧
    (∀ x r : CStr, spec_trimmed r x →
      enchant_normalize_dictionary_tag x = (r.takeWhile (· ≠ '@')).takeWhile (· ≠ '.')) ∧
    (∀ c : Char, g_ascii_isspace c = true ↔ spec_whitespace c) ∧
    enchant_normalize_dictionary_tag "\t\r\n\x0c fr_FR.UTF-8 \x0c\n\r\t".toList
      = "fr_FR".toList ∧
    enchant_normalize_dictionary_tag "\x0ben_US\x0b".toList = "\x0ben_US\x0b".toList ∧
    enchant_normalize_dictionary_tag "\x0b".toList = "\x0b".toList := by
  refine ⟨by decide, by decide, by decide, by decide, ?_, g_strstrip_trimmed, ?_,
    g_ascii_isspace_iff, by decide, by decide, by decide⟩
  · intro x
    exact normalize_eq_spec x
  · intro x r h
    rw [spec_trimmed_unique r x h]
    exact normalize_eq_spec x

/-- C2 (witness): `"fr_FR.UTF-8"` is what the trimming leaves of the string with a tab and a
blank in front and a blank and a line feed behind, so the tag normalizes to `fr_FR`. -/
theorem normalize_examples_and_shape_witness :
    enchant_normalize_dictionary_tag "\t fr_FR.UTF-8 \n".toList = "fr_FR".toList :=
  (normalize_examples_and_shape.2.2.2.2.2.2.1 "\t fr_FR.UTF-8 \n".toList "fr_FR.UTF-8".toList
    ⟨"\t ".toList, " \n".toList, by decide, by decide, by decide,
      fun c hc => by
        have e : 'f' = c := Option.some.inj hc
        subst e
        decide,
      fun c hc => by
        have e : '8' = c := Option.some.inj hc
        subst e
        decide⟩).trans
    (by decide)

/-! ## Claims on the provider ordering -/

/-- C3: when the rule selected for the tag is the string `rule`, the ordered list is, for
each comma-separated token in token order, the providers named by the token in registration
order, followed by the providers not yet included, in registration order (with pairwise
distinct provider objects: the registered providers that no token named). With providers
`[a, b, c]` and `set_ordering ("en_US", "b,a")` the list for `en_US` is `[b, a, c]`. -/
theorem ordered_providers_by_rule :
    (∀ (broker : EnchantBroker) (tag rule : CStr), selected_rule broker tag = some rule →
      enchant_get_ordered_providers broker tag
          = spec_matched broker.provider_list (g_strsplit_comma rule)
            ++ spec_not_yet_included
                ((spec_matched broker.provider_list (g_strsplit_comma rule)).map (·.ptr))
                broker.provider_list ∧
      ((broker.provider_list.map (·.ptr)).Nodup →
        enchant_get_ordered_providers broker tag
          = spec_matched broker.provider_list (g_strsplit_comma rule)
            ++ broker.provider_list.filter (fun p => decide (p.ptr ∉
                (spec_matched broker.provider_list (g_strsplit_comma rule)).map (·.ptr))))) ∧
    enchant_get_ordered_providers
        (enchant_broker_set_ordering example_broker (some "en_US".toList) (some "b,a".toList))
        "en_US".toList = [prov_b, prov_a, prov_c] := by
  refine ⟨?_, by rfl⟩
  intro broker tag rule h
  have h1 := ordered_of_rule broker tag rule h
  refine ⟨h1, ?_⟩
  intro hnd
  rw [h1, spec_ordered, spec_not_yet_included_nodup _ _ hnd]

/-- C3 (witness): the general statement at the example broker after
`set_ordering ("en_US", "b,a")`, whose provider objects are pairwise distinct. -/
theorem ordered_providers_by_rule_witness :
    enchant_get_ordered_providers
        (enchant_broker_set_ordering example_broker (some "en_US".toList) (some "b,a".toList))
        "en_US".toList
      = spec_matched [prov_a, prov_b, prov_c] (g_strsplit_comma "b,a".toList)
        ++ [prov_a, prov_b, prov_c].filter (fun p => decide (p.ptr ∉
            (spec_matched [prov_a, prov_b, prov_c] (g_strsplit_comma "b,a".toList)).map
              (·.ptr))) :=
  (ordered_providers_by_rule.1
    (enchant_broker_set_ordering example_broker (some "en_US".toList) (some "b,a".toList))
    "en_US".toList "b,a".toList (by rfl)).2 (by decide)

/-- C4: the rule stored for exactly the tag is the one resolved when present, whatever the
wildcard rule is; the rule stored under `*` is resolved only when the tag has no rule. With
providers `[a, b, c]`, no rule for `de_DE` and `set_ordering ("*", "c,a")`, the list for
`de_DE` is `[c, a, b]`. -/
theorem rule_selection :
    (∀ (broker : EnchantBroker) (tag rule : CStr),
      g_hash_table_lookup broker.provider_ordering tag = some rule →
      enchant_get_ordered_providers broker tag = spec_ordered broker.provider_list rule) ∧
    (∀ (broker : EnchantBroker) (tag rule : CStr),
      g_hash_table_lookup broker.provider_ordering tag = none →
      g_hash_table_lookup broker.provider_ordering "*".toList = some rule →
      enchant_get_ordered_providers broker tag = spec_ordered broker.provider_list rule) ∧
    enchant_get_ordered_providers
        (enchant_broker_set_ordering example_broker (some "*".toList) (some "c,a".toList))
        "de_DE".toList = [prov_c, prov_a, prov_b] := by
  refine ⟨?_, ?_, by rfl⟩
  · intro broker tag rule h
    exact ordered_of_rule broker tag rule (by unfold selected_rule; rw [h])
  · intro broker tag rule h hw
    exact ordered_of_rule broker tag rule (by unfold selected_rule; rw [h]; exact hw)

/-- C4 (witness): the exact rule wins over the wildcard rule, and the wildcard rule serves
a tag without a rule, on a broker holding the rules `* -> c,a` and `en_US -> b`. -/
theorem rule_selection_witness :
    enchant_get_ordered_providers
        (enchant_broker_set_ordering
          (enchant_broker_set_ordering example_broker (some "*".toList) (some "c,a".toList))
          (some "en_US".toList) (some "b".toList))
        "en_US".toList = spec_ordered [prov_a, prov_b, prov_c] "b".toList ∧
    enchant_get_ordered_providers
        (enchant_broker_set_ordering
          (enchant_broker_set_ordering example_broker (some "*".toList) (some "c,a".toList))
          (some "en_US".toList) (some "b".toList))
        "de_DE".toList = spec_ordered [prov_a, prov_b, prov_c] "c,a".toList :=
  ⟨rule_selection.1 _ "en_US".toList "b".toList (by decide),
   rule_selection.2.1 _ "de_DE".toList "c,a".toList (by decide) (by decide)⟩

/-- C5: with no rule for the tag and no rule for `*`, the ordered list is the registered
provider list, in registration order. -/
theorem no_rule_registration_order (broker : EnchantBroker) (tag : CStr)
    (htag : g_hash_table_lookup broker.provider_ordering tag = none)
    (hstar : g_hash_table_lookup broker.provider_ordering "*".toList = none) :
    enchant_get_ordered_providers broker tag = broker.provider_list :=
  ordered_of_no_rule broker tag (by unfold selected_rule; rw [htag]; exact hstar)

/-- C5 (witness): the example broker holds no rule at all. -/
theorem no_rule_registration_order_witness :
    enchant_get_ordered_providers example_broker "en_US".toList = [prov_a, prov_b, prov_c] :=
  no_rule_registration_order example_broker "en_US".toList (by decide) (by decide)

/-! ## Claims on dictionary requests -/

/-- C6: if `request_dict (t1)` returns the dictionary `d`, a directly following
`request_dict (t2)` for a tag with the same normalized form returns the same `d`, calls no
hook (the trace is unchanged) and leaves the cache and the dictionary objects unchanged: the
state differs at most by the cleared error slot. -/
theorem cache_hit_after_request (env : Env) (st st1 : State) (t1 t2 : CStr) (d : Ptr)
    (h1 : t1 ≠ []) (h2 : t2 ≠ [])
    (hn : enchant_normalize_dictionary_tag t1 = enchant_normalize_dictionary_tag t2)
    (hreq : enchant_broker_request_dict env st (some t1) = (some d, st1)) :
    enchant_broker_request_dict env st1 (some t2)
        = (some d, { st1 with broker := enchant_broker_clear_error st1.broker }) ∧
    (enchant_broker_request_dict env st1 (some t2)).1 = some d ∧
    (enchant_broker_request_dict env st1 (some t2)).2.trace = st1.trace ∧
    (enchant_broker_request_dict env st1 (some t2)).2.broker.dict_map = st1.broker.dict_map ∧
    (enchant_broker_request_dict env st1 (some t2)).2.dicts = st1.dicts := by
  have hcached : g_hash_table_lookup st1.broker.dict_map (enchant_normalize_dictionary_tag t2)
      = some d := by
    rw [← hn]
    simp only [enchant_broker_request_dict, h1, if_false] at hreq
    cases hl : g_hash_table_lookup (enchant_broker_clear_error st.broker).dict_map
        (enchant_normalize_dictionary_tag t1) with
    | some dict =>
      simp only [hl, Prod.mk.injEq, Option.some.injEq] at hreq
      obtain ⟨e1, e2⟩ := hreq
      subst e1
      subst e2
      exact hl
    | none =>
      simp only [hl] at hreq
      exact request_dict_loop_cached _ _ _ _ _ _ hreq
  have hres : enchant_broker_request_dict env st1 (some t2)
      = (some d, { st1 with broker := enchant_broker_clear_error st1.broker }) := by
    simp only [enchant_broker_request_dict, h2, if_false]
    have hc2 : g_hash_table_lookup (enchant_broker_clear_error st1.broker).dict_map
        (enchant_normalize_dictionary_tag t2) = some d := hcached
    simp only [hc2]
  rw [hres]
  exact ⟨rfl, rfl, rfl, rfl, rfl⟩

/-- C6 (witness): `request_dict ("en_US")` followed by `request_dict (" en_US.UTF-8")`
on the example broker: both return the dictionary at address 100, the second without any call. -/
theorem cache_hit_after_request_witness :
    (enchant_broker_request_dict example_env
        (enchant_broker_request_dict example_env (state_of example_broker)
          (some "en_US".toList)).2 (some " en_US.UTF-8".toList)).1 = some 100 ∧
    (enchant_broker_request_dict example_env
        (enchant_broker_request_dict example_env (state_of example_broker)
          (some "en_US".toList)).2 (some " en_US.UTF-8".toList)).2.trace
      = (enchant_broker_request_dict example_env (state_of example_broker)
          (some "en_US".toList)).2.trace :=
  have h := cache_hit_after_request example_env (state_of example_broker)
    (enchant_broker_request_dict example_env (state_of example_broker) (some "en_US".toList)).2
    "en_US".toList " en_US.UTF-8".toList 100 (by decide) (by decide) (by decide) (by rfl)
  ⟨h.2.1, h.2.2.1⟩

/-- C7: for a non-empty tag whose normalized form is not cached, when the ordered provider
list is `pre ++ p :: post`, no provider of `pre` yields a dictionary and the hook of `p`
yields one, the request returns that dictionary; the hooks called are those of `pre` (the
providers without a hook skipped) and then that of `p`, in order, and none of `post`; the
new session is bound to `p` and to the normalized tag; the dictionary keeps the hooks the
provider gave it and is inserted in the cache under the normalized tag. -/
theorem request_dict_first_success (env : Env) (st : State) (tag : CStr)
    (pre post : List EnchantProvider) (p : EnchantProvider)
    (hook : CStr → RequestResult) (dict : Ptr) (obj : EnchantDict)
    (htag : tag ≠ [])
    (hcache : g_hash_table_lookup st.broker.dict_map (enchant_normalize_dictionary_tag tag)
      = none)
    (hord : enchant_get_ordered_providers st.broker (enchant_normalize_dictionary_tag tag)
      = pre ++ p :: post)
    (hpre : ∀ q ∈ pre, ∀ hk, q.request_dict = some hk →
      (hk (enchant_normalize_dictionary_tag tag)).dict = none)
    (hhook : p.request_dict = some hook)
    (hres : (hook (enchant_normalize_dictionary_tag tag)).dict = some (dict, obj)) :
    (enchant_broker_request_dict env st (some tag)).1 = some dict ∧
    (enchant_broker_request_dict env st (some tag)).2.trace
      = st.trace ++ request_events (enchant_normalize_dictionary_tag tag) pre
        ++ [Event.provider_request_dict p.ptr (enchant_normalize_dictionary_tag tag)] ∧
    ((enchant_broker_request_dict env st (some tag)).2.dicts dict).enchant_private_data.provider
      = some p.ptr ∧
    ((enchant_broker_request_dict env st (some tag)).2.dicts dict).enchant_private_data.language_tag
      = enchant_normalize_dictionary_tag tag ∧
    ((enchant_broker_request_dict env st (some tag)).2.dicts dict).check = obj.check ∧
    (enchant_broker_request_dict env st (some tag)).2.broker.dict_map
      = g_hash_table_insert st.broker.dict_map (enchant_normalize_dictionary_tag tag) dict ∧
    g_hash_table_lookup (enchant_broker_request_dict env st (some tag)).2.broker.dict_map
      (enchant_normalize_dictionary_tag tag) = some dict := by
  have hc2 : g_hash_table_lookup (enchant_broker_clear_error st.broker).dict_map
      (enchant_normalize_dictionary_tag tag) = none := hcache
  have ho2 : enchant_get_ordered_providers (enchant_broker_clear_error st.broker)
      (enchant_normalize_dictionary_tag tag) = pre ++ p :: post := hord
  obtain ⟨f1, f2, f3, f4, f5, f6⟩ := after_requests_frame (enchant_normalize_dictionary_tag tag)
    { st with broker := enchant_broker_clear_error st.broker } pre
  have hrun : enchant_broker_request_dict env st (some tag)
      = request_dict_loop env (enchant_normalize_dictionary_tag tag)
          (after_requests (enchant_normalize_dictionary_tag tag)
            { st with broker := enchant_broker_clear_error st.broker } pre) (p :: post) := by
    simp only [enchant_broker_request_dict, htag, if_false, hc2, ho2]
    exact request_dict_loop_skip env _ _ pre (p :: post) hpre
  rw [hrun]
  simp only [request_dict_loop, hhook, hres]
  have hs := session_new_provider env
    (after_request (after_requests (enchant_normalize_dictionary_tag tag)
      { st with broker := enchant_broker_clear_error st.broker } pre) p
      (enchant_normalize_dictionary_tag tag) (hook (enchant_normalize_dictionary_tag tag))).files
    (some p.ptr) (enchant_normalize_dictionary_tag tag)
  have hmap : (after_request (after_requests (enchant_normalize_dictionary_tag tag)
      { st with broker := enchant_broker_clear_error st.broker } pre) p
      (enchant_normalize_dictionary_tag tag)
      (hook (enchant_normalize_dictionary_tag tag))).broker.dict_map = st.broker.dict_map := by
    unfold after_request enchant_provider_set_error enchant_broker_clear_error
    cases (hook (enchant_normalize_dictionary_tag tag)).error with
    | none => exact f4
    | some e => exact f4
  refine ⟨trivial, ?_, ?_, ?_, ?_, ?_, ?_⟩
  · simp only [after_request, f1]
  · simp only [Function.update_same]
    exact hs.1
  · simp only [Function.update_same]
    exact hs.2
  · simp only [Function.update_same]
  · simp only [hmap]
  · exact lookup_insert_self _ _ _

/-- C7 (witness): `request_dict ("en_US")` on the example broker, whose ordered list is
`[a, b, c]`: `a` has no hook and `b` serves the tag, so `c` is not called. -/
theorem request_dict_first_success_witness :
    (enchant_broker_request_dict example_env (state_of example_broker)
        (some "en_US".toList)).1 = some 100 ∧
    (enchant_broker_request_dict example_env (state_of example_broker)
        (some "en_US".toList)).2.trace = [Event.provider_request_dict 2 "en_US".toList] :=
  have h := request_dict_first_success example_env (state_of example_broker) "en_US".toList
    [prov_a] [prov_c] prov_b
    (fun tag =>
      if tag = "en_US".toList then { dict := some (100, strict_dict) }
      else { dict := none, error := some "b: unknown tag".toList })
    100 strict_dict (by decide) (by decide) (by rfl)
    (by
      intro q hq hk hhk
      rw [List.mem_singleton] at hq
      subst hq
      cases hhk)
    (by rfl) (by rfl)
  ⟨h.1, h.2.1⟩

/-- C8 (counterexample): on a broker without providers, `request_dict ("en_US")` returns no
dictionary and `enchant_broker_get_error` then returns no message. -/
theorem not_found_leaves_no_message :
    (enchant_broker_request_dict example_env (state_of empty_broker)
        (some "en_US".toList)).1 = none ∧
    enchant_broker_get_error
      (enchant_broker_request_dict example_env (state_of empty_broker)
        (some "en_US".toList)).2.broker = none := by
  decide

/-- C8 (amended): for a non-empty tag whose normalized form is not cached, when no
registered provider yields a dictionary, the request returns no dictionary and leaves the
cache unchanged; the broker stores no message of its own: afterwards the error slot holds
the last message a consulted provider stored through `enchant_provider_set_error`, and it
is empty when none stored one. -/
theorem request_dict_not_found (env : Env) (st : State) (tag : CStr)
    (htag : tag ≠ [])
    (hcache : g_hash_table_lookup st.broker.dict_map (enchant_normalize_dictionary_tag tag)
      = none)
    (hnone : ∀ q ∈ st.broker.provider_list, ∀ hk, q.request_dict = some hk →
      (hk (enchant_normalize_dictionary_tag tag)).dict = none) :
    (enchant_broker_request_dict env st (some tag)).1 = none ∧
    enchant_broker_get_error (enchant_broker_request_dict env st (some tag)).2.broker
      = (provider_errors (enchant_normalize_dictionary_tag tag)
          (enchant_get_ordered_providers st.broker
            (enchant_normalize_dictionary_tag tag))).getLast? ∧
    (enchant_broker_request_dict env st (some tag)).2.broker.dict_map = st.broker.dict_map := by
  have hc2 : g_hash_table_lookup (enchant_broker_clear_error st.broker).dict_map
      (enchant_normalize_dictionary_tag tag) = none := hcache
  have hord : ∀ q ∈ enchant_get_ordered_providers st.broker
      (enchant_normalize_dictionary_tag tag), ∀ hk, q.request_dict = some hk →
      (hk (enchant_normalize_dictionary_tag tag)).dict = none :=
    fun q hq => hnone q (mem_ordered_registered _ _ q hq)
  have ho2 : enchant_get_ordered_providers (enchant_broker_clear_error st.broker)
      (enchant_normalize_dictionary_tag tag)
      = enchant_get_ordered_providers st.broker (enchant_normalize_dictionary_tag tag) := rfl
  have hrun : enchant_broker_request_dict env st (some tag)
      = (none, after_requests (enchant_normalize_dictionary_tag tag)
          { st with broker := enchant_broker_clear_error st.broker }
          (enchant_get_ordered_providers st.broker (enchant_normalize_dictionary_tag tag))) := by
    simp only [enchant_broker_request_dict, htag, if_false, hc2, ho2]
    have h := request_dict_loop_skip env (enchant_normalize_dictionary_tag tag)
      { st with broker := enchant_broker_clear_error st.broker }
      (enchant_get_ordered_providers st.broker (enchant_normalize_dictionary_tag tag)) [] hord
    rw [List.append_nil] at h
    rw [h]
    rfl
  rw [hrun]
  refine ⟨rfl, ?_, ?_⟩
  · unfold enchant_broker_get_error
    rw [after_requests_error]
    cases (provider_errors (enchant_normalize_dictionary_tag tag)
      (enchant_get_ordered_providers st.broker (enchant_normalize_dictionary_tag tag))).getLast?
      <;> rfl
  · exact (after_requests_frame _ _ _).2.2.2.1

/-- C8 (witness): `request_dict ("xx")` on the example broker: `b` and `c` decline, and the
slot holds the message stored by `b`. -/
theorem request_dict_not_found_witness :
    (enchant_broker_request_dict example_env (state_of example_broker)
        (some "xx".toList)).1 = none ∧
    enchant_broker_get_error
      (enchant_broker_request_dict example_env (state_of example_broker)
        (some "xx".toList)).2.broker = some "b: unknown tag".toList :=
  have h := request_dict_not_found example_env (state_of example_broker) "xx".toList
    (by decide) (by decide)
    (by
      intro q hq hk hhk
      have hq2 : q = prov_a ∨ q = prov_b ∨ q = prov_c := by
        simpa [state_of, example_broker] using hq
      rcases hq2 with e | e | e
      · subst e; cases hhk
      · subst e; cases hhk; rfl
      · subst e; cases hhk; rfl)
  ⟨h.1, h.2.1.trans (by decide)⟩

/-! ## Claims on the dictionary operations -/

theorem contains_iff (session : EnchantSession) (word : CStr) (len : Nat) :
    enchant_session_contains session word len = true
      ↔ in_word_sets session (g_strndup word len) := by
  unfold enchant_session_contains in_word_sets
  simp only [Bool.or_eq_true, lookup_isSome_iff]

theorem contains_clear_error (session : EnchantSession) (word : CStr) (len : Nat) :
    enchant_session_contains (enchant_session_clear_error session) word len
      = enchant_session_contains session word len := rfl

theorem contains_apply_dict_error (session : EnchantSession) (err : Option CStr)
    (word : CStr) (len : Nat) :
    enchant_session_contains (apply_dict_error session err) word len
      = enchant_session_contains session word len := by
  cases err <;> rfl

theorem contains_after_add (session : EnchantSession) (word : CStr) (len : Nat) :
    enchant_session_contains (enchant_session_add session word len) word len = true := by
  unfold enchant_session_contains enchant_session_add
  simp only [lookup_insert_self, Option.isSome_some, Bool.true_or]

theorem set_session_same (st : State) (d : Ptr) (session : EnchantSession) :
    ((st.set_session d session).dicts d).enchant_private_data = session ∧
    ((st.set_session d session).dicts d).check = (st.dicts d).check ∧
    ((st.set_session d session).dicts d).add_to_session = (st.dicts d).add_to_session ∧
    (st.set_session d session).trace = st.trace := by
  simp [State.set_session]

theorem set_session_other (st : State) (d d2 : Ptr) (session : EnchantSession)
    (h : d2 ≠ d) : (st.set_session d session).dicts d2 = st.dicts d2 := by
  simp [State.set_session, Function.update_noteq h]

/-- The session of the dictionary after `enchant_dict_add_to_session`, and the other
dictionaries. -/
theorem add_to_session_effect (st : State) (d : Ptr) (w : CStr) (len : Int) :
    (∃ err, ((enchant_dict_add_to_session st (some d) (some w) len).dicts d).enchant_private_data
      = apply_dict_error
          (enchant_session_add (enchant_session_clear_error (st.dicts d).enchant_private_data)
            w (word_length w len)) err) ∧
    ((enchant_dict_add_to_session st (some d) (some w) len).dicts d).check = (st.dicts d).check ∧
    ∀ d2, d2 ≠ d →
      (enchant_dict_add_to_session st (some d) (some w) len).dicts d2 = st.dicts d2 := by
  unfold enchant_dict_add_to_session
  simp only [(set_session_same _ _ _).2.2.1]
  cases hh : (st.dicts d).add_to_session with
  | none =>
    refine ⟨⟨none, ?_⟩, ?_, ?_⟩
    · exact (set_session_same _ _ _).1
    · exact (set_session_same _ _ _).2.1
    · intro d2 h2
      exact set_session_other _ _ _ _ h2
  | some hook =>
    refine ⟨⟨(hook w (word_length w len)).error, ?_⟩, ?_, ?_⟩
    · exact (set_session_same _ _ _).1
    · simp only [(set_session_same _ _ _).2.1]
    · intro d2 h2
      simp only [set_session_other _ _ _ _ h2]

/-- The verdict of `enchant_dict_check` and the calls it makes, by cases. -/
theorem check_by_cases (st : State) (d : Ptr) (w : CStr) (len : Int) :
    (enchant_session_contains (st.dicts d).enchant_private_data w (word_length w len) = true →
      (enchant_dict_check st (some d) (some w) len).1 = 0 ∧
      (enchant_dict_check st (some d) (some w) len).2.trace = st.trace) ∧
    (enchant_session_contains (st.dicts d).enchant_private_data w (word_length w len) = false →
      (∀ hook, (st.dicts d).check = some hook →
        (enchant_dict_check st (some d) (some w) len).1 = (hook w (word_length w len)).value ∧
        (enchant_dict_check st (some d) (some w) len).2.trace
          = st.trace ++ [Event.dict_check d w (word_length w len)]) ∧
      ((st.dicts d).check = none →
        (enchant_dict_check st (some d) (some w) len).1
          = (if (st.dicts d).enchant_private_data.is_pwl then 1 else -1) ∧
        (enchant_dict_check st (some d) (some w) len).2.trace = st.trace)) := by
  unfold enchant_dict_check
  simp only [contains_clear_error, (set_session_same _ _ _).2.1]
  constructor
  · intro hc
    simp only [hc, if_true]
    exact ⟨trivial, (set_session_same _ _ _).2.2.2⟩
  · intro hc
    simp only [hc]
    constructor
    · intro hook hh
      simp only [hh]
      refine ⟨by simp, ?_⟩
      simp [(set_session_same _ _ _).2.2.2]
    · intro hh
      simp only [hh]
      cases hp : (st.dicts d).enchant_private_data.is_pwl with
      | true =>
        have hp2 : (enchant_session_clear_error (st.dicts d).enchant_private_data).is_pwl
            = true := hp
        simp [hp2, (set_session_same _ _ _).2.2.2]
      | false =>
        have hp2 : (enchant_session_clear_error (st.dicts d).enchant_private_data).is_pwl
            = false := hp
        simp [hp2, (set_session_same _ _ _).2.2.2]

/-- C9: for a non-null word, `enchant_dict_check` returns 0 when the word (its first `len`
bytes) is in the session set or in the personal set, and then calls no hook; otherwise, when
the dictionary has a `check` hook, it calls the hook once and returns its verdict; otherwise
it returns a positive value for a personal-word-list dictionary and a negative value for
any other dictionary, calling no hook. -/
theorem dict_check_verdict (st : State) (d : Ptr) (w : CStr) (len : Int) :
    (in_word_sets (st.dicts d).enchant_private_data (g_strndup w (word_length w len)) →
      (enchant_dict_check st (some d) (some w) len).1 = 0 ∧
      (enchant_dict_check st (some d) (some w) len).2.trace = st.trace) ∧
    (¬ in_word_sets (st.dicts d).enchant_private_data (g_strndup w (word_length w len)) →
      (∀ hook, (st.dicts d).check = some hook →
        (enchant_dict_check st (some d) (some w) len).1 = (hook w (word_length w len)).value ∧
        (enchant_dict_check st (some d) (some w) len).2.trace
          = st.trace ++ [Event.dict_check d w (word_length w len)]) ∧
      ((st.dicts d).check = none → (st.dicts d).enchant_private_data.is_pwl = true →
        0 < (enchant_dict_check st (some d) (some w) len).1 ∧
        (enchant_dict_check st (some d) (some w) len).2.trace = st.trace) ∧
      ((st.dicts d).check = none → (st.dicts d).enchant_private_data.is_pwl = false →
        (enchant_dict_check st (some d) (some w) len).1 < 0 ∧
        (enchant_dict_check st (some d) (some w) len).2.trace = st.trace)) := by
  obtain ⟨hin, hout⟩ := check_by_cases st d w len
  constructor
  · intro h
    exact hin ((contains_iff _ _ _).mpr h)
  · intro h
    have hc : enchant_session_contains (st.dicts d).enchant_private_data w (word_length w len)
        = false := by
      cases hb : enchant_session_contains (st.dicts d).enchant_private_data w
          (word_length w len) with
      | false => rfl
      | true => exact absurd ((contains_iff _ _ _).mp hb) h
    obtain ⟨hhook, hnohook⟩ := hout hc
    refine ⟨hhook, ?_, ?_⟩
    · intro hn hp
      obtain ⟨h1, h2⟩ := hnohook hn
      rw [h1, hp]
      exact ⟨by decide, h2⟩
    · intro hn hp
      obtain ⟨h1, h2⟩ := hnohook hn
      rw [h1, hp]
      exact ⟨by decide, h2⟩

/-- C9 (witness): on the personal dictionary at address 7 the stored word `foo` is correct
and `bar` is incorrect; on the provider dictionary at address 100 the verdict on `bar` is
the one of its hook. -/
theorem dict_check_verdict_witness :
    (enchant_dict_check two_dict_state (some 7) (some "foo".toList) (-1)).1 = 0 ∧
    0 < (enchant_dict_check two_dict_state (some 7) (some "bar".toList) (-1)).1 ∧
    (enchant_dict_check two_dict_state (some 100) (some "bar".toList) 3).1 = 1 ∧
    (enchant_dict_check two_dict_state (some 100) (some "bar".toList) 3).2.trace
      = [Event.dict_check 100 "bar".toList 3] :=
  ⟨((dict_check_verdict two_dict_state 7 "foo".toList (-1)).1 (Or.inr (by decide))).1,
   ((dict_check_verdict two_dict_state 7 "bar".toList (-1)).2
      (by unfold in_word_sets; decide)).2.1 (by rfl) (by rfl) |>.1,
   ((dict_check_verdict two_dict_state 100 "bar".toList 3).2
      (by unfold in_word_sets; decide)).1 (fun _ _ => { value := 1 }) (by rfl) |>.1,
   ((dict_check_verdict two_dict_state 100 "bar".toList 3).2
      (by unfold in_word_sets; decide)).1 (fun _ _ => { value := 1 }) (by rfl) |>.2⟩

/-- C10: after `enchant_dict_add_to_session (d, w)`, `enchant_dict_check (d, w)` returns 0
whatever the `check` hook of `d` answers (the hook is not called), and
`enchant_dict_is_in_session (d, w)` returns true; every other dictionary object is
unchanged, so its session and personal sets are, and `enchant_dict_is_in_session` keeps its
value on it. -/
theorem session_overlay (st : State) (d : Ptr) (w : CStr) (len : Int) :
    (enchant_dict_check (enchant_dict_add_to_session st (some d) (some w) len)
        (some d) (some w) len).1 = 0 ∧
    (enchant_dict_check (enchant_dict_add_to_session st (some d) (some w) len)
        (some d) (some w) len).2.trace
      = (enchant_dict_add_to_session st (some d) (some w) len).trace ∧
    (enchant_dict_is_in_session (enchant_dict_add_to_session st (some d) (some w) len)
        (some d) (some w) len).1 = 1 ∧
    ∀ d2, d2 ≠ d →
      (enchant_dict_add_to_session st (some d) (some w) len).dicts d2 = st.dicts d2 ∧
      ((enchant_dict_add_to_session st (some d) (some w) len).dicts d2).enchant_private_data.session
        = (st.dicts d2).enchant_private_data.session ∧
      ((enchant_dict_add_to_session st (some d) (some w) len).dicts d2).enchant_private_data.personal
        = (st.dicts d2).enchant_private_data.personal ∧
      (enchant_dict_is_in_session (enchant_dict_add_to_session st (some d) (some w) len)
          (some d2) (some w) len).1
        = (enchant_dict_is_in_session st (some d2) (some w) len).1 := by
  obtain ⟨⟨err, hs⟩, _, hother⟩ := add_to_session_effect st d w len
  have hc : enchant_session_contains
      ((enchant_dict_add_to_session st (some d) (some w) len).dicts d).enchant_private_data
      w (word_length w len) = true := by
    rw [hs, contains_apply_dict_error]
    exact contains_after_add _ _ _
  have hcheck := (check_by_cases (enchant_dict_add_to_session st (some d) (some w) len)
    d w len).1 hc
  refine ⟨hcheck.1, hcheck.2, ?_, ?_⟩
  · unfold enchant_dict_is_in_session
    simp only [contains_clear_error, hc, if_true]
  · intro d2 h2
    have h := hother d2 h2
    refine ⟨h, by rw [h], by rw [h], ?_⟩
    unfold enchant_dict_is_in_session
    simp only [h]

/-- C10 (witness): `xyzzy` added to the session of the provider dictionary at address 100,
whose hook rejects every word: its check then returns 0, and the personal dictionary at
address 7 still does not hold the word. -/
theorem session_overlay_witness :
    (enchant_dict_check two_dict_state (some 100) (some "xyzzy".toList) (-1)).1 = 1 ∧
    (enchant_dict_check
        (enchant_dict_add_to_session two_dict_state (some 100) (some "xyzzy".toList) (-1))
        (some 100) (some "xyzzy".toList) (-1)).1 = 0 ∧
    (enchant_dict_is_in_session
        (enchant_dict_add_to_session two_dict_state (some 100) (some "xyzzy".toList) (-1))
        (some 7) (some "xyzzy".toList) (-1)).1
      = (enchant_dict_is_in_session two_dict_state (some 7) (some "xyzzy".toList) (-1)).1 :=
  ⟨by decide,
   (session_overlay two_dict_state 100 "xyzzy".toList (-1)).1,
   ((session_overlay two_dict_state 100 "xyzzy".toList (-1)).2.2.2 7 (by decide)).2.2.2⟩

/-! ## Lemmas on the ordering table and on existence queries -/

theorem normalize_nil : enchant_normalize_dictionary_tag [] = [] := by decide

theorem g_strstrip_nil : g_strstrip [] = [] := by decide

theorem set_ordering_valid (broker : EnchantBroker) (tag spec : CStr)
    (ht : enchant_normalize_dictionary_tag tag ≠ []) (hs : g_strstrip spec ≠ []) :
    (enchant_broker_set_ordering broker (some tag) (some spec)).provider_ordering
      = g_hash_table_insert broker.provider_ordering (enchant_normalize_dictionary_tag tag)
          (g_strstrip spec) := by
  have ht0 : tag ≠ [] := by
    intro e; rw [e] at ht; exact ht normalize_nil
  have hs0 : spec ≠ [] := by
    intro e; rw [e] at hs; exact hs g_strstrip_nil
  simp [enchant_broker_set_ordering, ht0, hs0, ht, hs, enchant_broker_clear_error]

theorem set_ordering_invalid (broker : EnchantBroker) (tag spec : CStr)
    (h : enchant_normalize_dictionary_tag tag = [] ∨ g_strstrip spec = []) :
    (enchant_broker_set_ordering broker (some tag) (some spec)).provider_ordering
      = broker.provider_ordering := by
  unfold enchant_broker_set_ordering
  by_cases ht0 : tag = []
  · simp [ht0]
  · by_cases hs0 : spec = []
    · simp [ht0, hs0]
    · simp only [ht0, hs0, if_false]
      rcases h with h | h
      · simp [h, enchant_broker_clear_error]
      · simp [h, enchant_broker_clear_error]

theorem exists_loop_frame (tag : CStr) (st : State) (l : List EnchantProvider) :
    (dictionary_exists_loop tag st l).2.broker = st.broker ∧
    (dictionary_exists_loop tag st l).2.dicts = st.dicts ∧
    (dictionary_exists_loop tag st l).2.files = st.files ∧
    ((dictionary_exists_loop tag st l).1 = 1 ∨ (dictionary_exists_loop tag st l).1 = 0) := by
  induction l generalizing st with
  | nil => simp [dictionary_exists_loop]
  | cons p rest ih =>
    cases hp : p.dictionary_exists with
    | none => simp only [dictionary_exists_loop, hp]; exact ih st
    | some hook =>
      cases hh : hook tag with
      | true => simp [dictionary_exists_loop, hp, hh]
      | false =>
        simp only [dictionary_exists_loop, hp, hh]
        exact ih _

theorem exists_loop_iff (tag : CStr) (st : State) (l : List EnchantProvider) :
    (dictionary_exists_loop tag st l).1 = 1 ↔ some_provider_has tag l := by
  induction l generalizing st with
  | nil => simp [dictionary_exists_loop, some_provider_has]
  | cons p rest ih =>
    cases hp : p.dictionary_exists with
    | none =>
      simp only [dictionary_exists_loop, hp]
      rw [ih st]
      constructor
      · rintro ⟨q, hq, hook, h1, h2⟩
        exact ⟨q, List.mem_cons_of_mem _ hq, hook, h1, h2⟩
      · rintro ⟨q, hq, hook, h1, h2⟩
        rcases List.mem_cons.mp hq with e | hq2
        · subst e; rw [hp] at h1; cases h1
        · exact ⟨q, hq2, hook, h1, h2⟩
    | some hook =>
      cases hh : hook tag with
      | true =>
        simp only [dictionary_exists_loop, hp, hh, if_true, true_iff]
        exact ⟨p, List.mem_cons_self _ _, hook, hp, hh⟩
      | false =>
        simp only [dictionary_exists_loop, hp, hh, Bool.false_eq_true, if_false]
        rw [ih]
        constructor
        · rintro ⟨q, hq, hk, h1, h2⟩
          exact ⟨q, List.mem_cons_of_mem _ hq, hk, h1, h2⟩
        · rintro ⟨q, hq, hk, h1, h2⟩
          rcases List.mem_cons.mp hq with e | hq2
          · subst e
            rw [hp] at h1
            cases h1
            rw [hh] at h2
            cases h2
          · exact ⟨q, hq2, hk, h1, h2⟩

theorem exists_loop_skip (tag : CStr) (st : State) (pre rest : List EnchantProvider)
    (hpre : ∀ q ∈ pre, ∀ hook, q.dictionary_exists = some hook → hook tag = false) :
    dictionary_exists_loop tag st (pre ++ rest)
      = dictionary_exists_loop tag
          { st with trace := st.trace ++ existence_events tag pre } rest := by
  induction pre generalizing st with
  | nil => simp [existence_events]
  | cons p ps ih =>
    have hps : ∀ q ∈ ps, ∀ hook, q.dictionary_exists = some hook → hook tag = false :=
      fun q hq => hpre q (List.mem_cons_of_mem _ hq)
    cases hp : p.dictionary_exists with
    | none =>
      simp only [List.cons_append, dictionary_exists_loop, hp]
      refine (ih st hps).trans ?_
      simp [existence_events, List.filter_cons, hp]
    | some hook =>
      have hf := hpre p (List.mem_cons_self _ _) hook hp
      simp only [List.cons_append, dictionary_exists_loop, hp, hf, Bool.false_eq_true,
        if_false]
      refine (ih _ hps).trans ?_
      simp [existence_events, List.filter_cons, hp]

/-! ## Claims on validation, the ordering table and existence queries -/

/-- C15: for a non-empty path whose normalized form is not cached and whose file cannot be
opened for reading, `enchant_broker_request_pwl_dict` returns no dictionary, leaves the
message of line 1114 in the error slot, and leaves the cache, the files (the file still
does not exist), the dictionary objects and the trace unchanged. -/
theorem request_pwl_dict_missing_file (env : Env) (st : State) (path : CStr) (fresh : Ptr)
    (hpath : path ≠ [])
    (hcache : g_hash_table_lookup st.broker.dict_map (enchant_normalize_dictionary_tag path)
      = none)
    (hfile : st.files path = none) :
    (enchant_broker_request_pwl_dict env st (some path) fresh).1 = none ∧
    enchant_broker_get_error (enchant_broker_request_pwl_dict env st (some path) fresh).2.broker
      = some (pwl_error_message (enchant_normalize_dictionary_tag path)) ∧
    (enchant_broker_request_pwl_dict env st (some path) fresh).2.broker.dict_map
      = st.broker.dict_map ∧
    (enchant_broker_request_pwl_dict env st (some path) fresh).2.files = st.files ∧
    (enchant_broker_request_pwl_dict env st (some path) fresh).2.files path = none ∧
    (enchant_broker_request_pwl_dict env st (some path) fresh).2.dicts = st.dicts ∧
    (enchant_broker_request_pwl_dict env st (some path) fresh).2.trace = st.trace := by
  have hc2 : g_hash_table_lookup (enchant_broker_clear_error st.broker).dict_map
      (enchant_normalize_dictionary_tag path) = none := hcache
  have hrun : enchant_broker_request_pwl_dict env st (some path) fresh
      = (none, { st with broker :=
          { enchant_broker_clear_error st.broker with
            error := some (pwl_error_message (enchant_normalize_dictionary_tag path)) } }) := by
    simp only [enchant_broker_request_pwl_dict, hpath, if_false, hc2,
      enchant_session_new_with_pwl, hfile, if_true]
  rw [hrun]
  exact ⟨rfl, rfl, rfl, rfl, hfile, rfl, rfl⟩

/-- C15 (witness): `request_pwl_dict ("/tmp/none")` where no file exists. -/
theorem request_pwl_dict_missing_file_witness :
    (enchant_broker_request_pwl_dict example_env (state_of example_broker)
        (some "/tmp/none".toList) 9).1 = none ∧
    enchant_broker_get_error
      (enchant_broker_request_pwl_dict example_env (state_of example_broker)
        (some "/tmp/none".toList) 9).2.broker
      = some "Couldn't open personal wordlist '/tmp/none'".toList :=
  have h := request_pwl_dict_missing_file example_env (state_of example_broker)
    "/tmp/none".toList 9 (by decide) (by decide) (by rfl)
  ⟨h.1, h.2.1.trans (by decide)⟩

/-- C17: `enchant_broker_request_dict` and `enchant_broker_request_pwl_dict` called with the
empty string return no dictionary and leave the whole state as it was: no hook call, and
the cache, the ordering table and the error slot unchanged. -/
theorem empty_string_request_rejected (env : Env) (st : State) (fresh : Ptr) :
    enchant_broker_request_dict env st (some []) = (none, st) ∧
    enchant_broker_request_pwl_dict env st (some []) fresh = (none, st) ∧
    (enchant_broker_request_dict env st (some [])).2.trace = st.trace ∧
    (enchant_broker_request_dict env st (some [])).2.broker.dict_map = st.broker.dict_map ∧
    (enchant_broker_request_dict env st (some [])).2.broker.provider_ordering
      = st.broker.provider_ordering ∧
    (enchant_broker_request_dict env st (some [])).2.broker.error = st.broker.error ∧
    (enchant_broker_request_pwl_dict env st (some []) fresh).2.trace = st.trace ∧
    (enchant_broker_request_pwl_dict env st (some []) fresh).2.broker.dict_map
      = st.broker.dict_map ∧
    (enchant_broker_request_pwl_dict env st (some []) fresh).2.broker.provider_ordering
      = st.broker.provider_ordering ∧
    (enchant_broker_request_pwl_dict env st (some []) fresh).2.broker.error
      = st.broker.error :=
  ⟨rfl, rfl, rfl, rfl, rfl, rfl, rfl, rfl, rfl, rfl⟩

/-- C18: when the normalized tag and the trimmed spec are both non-empty,
`enchant_broker_set_ordering` makes the table map the normalized tag to the trimmed spec and
leaves the rule of every other key unchanged; a later call for a tag with the same
normalized form replaces the rule. The trimmed spec is the spec without its leading and
trailing run of whitespace (space, tab, line feed, form feed, carriage return). -/
theorem set_ordering_stores (broker : EnchantBroker) (tag spec : CStr)
    (ht : enchant_normalize_dictionary_tag tag ≠ []) (hs : g_strstrip spec ≠ []) :
    g_hash_table_lookup
        (enchant_broker_set_ordering broker (some tag) (some spec)).provider_ordering
        (enchant_normalize_dictionary_tag tag) = some (g_strstrip spec) ∧
    (∀ key, key ≠ enchant_normalize_dictionary_tag tag →
      g_hash_table_lookup
          (enchant_broker_set_ordering broker (some tag) (some spec)).provider_ordering key
        = g_hash_table_lookup broker.provider_ordering key) ∧
    (∀ tag2 spec2, enchant_normalize_dictionary_tag tag2 = enchant_normalize_dictionary_tag tag →
      g_strstrip spec2 ≠ [] →
      g_hash_table_lookup
          (enchant_broker_set_ordering
            (enchant_broker_set_ordering broker (some tag) (some spec))
            (some tag2) (some spec2)).provider_ordering
          (enchant_normalize_dictionary_tag tag) = some (g_strstrip spec2)) ∧
    spec_trimmed (g_strstrip spec) spec := by
  refine ⟨?_, ?_, ?_, g_strstrip_trimmed spec⟩
  · rw [set_ordering_valid broker tag spec ht hs]
    exact lookup_insert_self _ _ _
  · intro key hk
    rw [set_ordering_valid broker tag spec ht hs]
    exact lookup_insert_other _ _ _ _ hk
  · intro tag2 spec2 h2 hs2
    rw [set_ordering_valid _ tag2 spec2 (by rw [h2]; exact ht) hs2, h2]
    exact lookup_insert_self _ _ _

/-- C18 (witness): `set_ordering (" en_US.UTF-8", " b,a ")` stores `b,a` under `en_US`; a
vertical tab is not trimmed: the tag `en_US` after a vertical tab and the spec `a` before
one are stored as they are. -/
theorem set_ordering_stores_witness :
    g_hash_table_lookup
        (enchant_broker_set_ordering example_broker (some " en_US.UTF-8".toList)
          (some " b,a ".toList)).provider_ordering
        "en_US".toList = some "b,a".toList ∧
    g_hash_table_lookup
        (enchant_broker_set_ordering example_broker (some "\x0ben_US".toList)
          (some "a\x0b".toList)).provider_ordering
        "\x0ben_US".toList = some "a\x0b".toList :=
  ⟨(set_ordering_stores example_broker " en_US.UTF-8".toList " b,a ".toList
      (by decide) (by decide)).1,
   (set_ordering_stores example_broker "\x0ben_US".toList "a\x0b".toList
      (by decide) (by decide)).1⟩

/-- C19: `enchant_broker_set_ordering` leaves the ordering table as it was whenever the tag
is empty or normalizes to the empty string (as a tag of whitespace only does, or one that
starts with `@` or with `.`), or the spec is empty or nothing but whitespace; whitespace is
space, tab, line feed, form feed and carriage return. A NULL tag or spec changes nothing at
all. -/
theorem set_ordering_invalid_noop (broker : EnchantBroker) (tag spec : CStr)
    (h : tag = [] ∨ enchant_normalize_dictionary_tag tag = [] ∨
      (∀ c ∈ tag, spec_whitespace c) ∨ tag.head? = some '@' ∨ tag.head? = some '.' ∨
      spec = [] ∨ (∀ c ∈ spec, spec_whitespace c)) :
    (enchant_broker_set_ordering broker (some tag) (some spec)).provider_ordering
      = broker.provider_ordering ∧
    enchant_broker_set_ordering broker none (some spec) = broker ∧
    enchant_broker_set_ordering broker (some tag) none = broker := by
  refine ⟨?_, rfl, rfl⟩
  apply set_ordering_invalid
  rcases h with h | h | h | h | h | h | h
  · left; rw [h]; exact normalize_nil
  · left; exact h
  · left
    rw [normalize_eq_spec]
    unfold spec_normalize
    rw [(g_strstrip_eq_nil_iff tag).mpr h]
    rfl
  · left; exact normalize_of_head tag (Or.inl h)
  · left; exact normalize_of_head tag (Or.inr h)
  · right; rw [h]; exact g_strstrip_nil
  · right; exact (g_strstrip_eq_nil_iff spec).mpr h

/-- C19 (witness): the tags `"   "`, `"@euro"`, `".UTF-8"` and `" @euro"` and the spec of a
blank, a tab and a line feed are declined. -/
theorem set_ordering_invalid_noop_witness :
    (enchant_broker_set_ordering example_broker (some "   ".toList)
        (some "a".toList)).provider_ordering = [] ∧
    (enchant_broker_set_ordering example_broker (some "@euro".toList)
        (some "a".toList)).provider_ordering = [] ∧
    (enchant_broker_set_ordering example_broker (some ".UTF-8".toList)
        (some "a".toList)).provider_ordering = [] ∧
    (enchant_broker_set_ordering example_broker (some " @euro".toList)
        (some "a".toList)).provider_ordering = [] ∧
    (enchant_broker_set_ordering example_broker (some "en_US".toList)
        (some " \t\n".toList)).provider_ordering = [] :=
  ⟨(set_ordering_invalid_noop example_broker "   ".toList "a".toList
      (Or.inr (Or.inr (Or.inl (by decide))))).1,
   (set_ordering_invalid_noop example_broker "@euro".toList "a".toList
      (Or.inr (Or.inr (Or.inr (Or.inl (by rfl)))))).1,
   (set_ordering_invalid_noop example_broker ".UTF-8".toList "a".toList
      (Or.inr (Or.inr (Or.inr (Or.inr (Or.inl (by rfl))))))).1,
   (set_ordering_invalid_noop example_broker " @euro".toList "a".toList
      (Or.inr (Or.inl (by decide)))).1,
   (set_ordering_invalid_noop example_broker "en_US".toList " \t\n".toList
      (Or.inr (Or.inr (Or.inr (Or.inr (Or.inr (Or.inr (by decide)))))))).1⟩

/-- C20: for a non-empty tag, `enchant_broker_dict_exists` returns 1 exactly when the
normalized tag is a key of the cache or some registered provider implementing
`dictionary_exists` answers true for it, and 0 otherwise; it leaves the cache and the
dictionary objects unchanged; it asks no provider when the key is cached, and otherwise asks
the providers that have the hook in registration order, up to and including the first that
answers true. -/
theorem dict_exists_spec (st : State) (tag : CStr) (htag : tag ≠ []) :
    ((enchant_broker_dict_exists st (some tag)).1 = 1 ↔
      ((enchant_normalize_dictionary_tag tag) ∈ st.broker.dict_map.map Prod.fst ∨
        some_provider_has (enchant_normalize_dictionary_tag tag) st.broker.provider_list)) ∧
    ((enchant_broker_dict_exists st (some tag)).1 = 1 ∨
      (enchant_broker_dict_exists st (some tag)).1 = 0) ∧
    (enchant_broker_dict_exists st (some tag)).2.broker.dict_map = st.broker.dict_map ∧
    (enchant_broker_dict_exists st (some tag)).2.dicts = st.dicts ∧
    ((enchant_normalize_dictionary_tag tag) ∈ st.broker.dict_map.map Prod.fst →
      (enchant_broker_dict_exists st (some tag)).2.trace = st.trace) ∧
    ((enchant_normalize_dictionary_tag tag) ∉ st.broker.dict_map.map Prod.fst →
      (∀ pre p post hook, st.broker.provider_list = pre ++ p :: post →
        (∀ q ∈ pre, ∀ hk, q.dictionary_exists = some hk →
          hk (enchant_normalize_dictionary_tag tag) = false) →
        p.dictionary_exists = some hook → hook (enchant_normalize_dictionary_tag tag) = true →
        (enchant_broker_dict_exists st (some tag)).2.trace
          = st.trace ++ existence_events (enchant_normalize_dictionary_tag tag) pre
            ++ [Event.provider_dictionary_exists p.ptr (enchant_normalize_dictionary_tag tag)]) ∧
      ((∀ q ∈ st.broker.provider_list, ∀ hk, q.dictionary_exists = some hk →
          hk (enchant_normalize_dictionary_tag tag) = false) →
        (enchant_broker_dict_exists st (some tag)).2.trace
          = st.trace ++ existence_events (enchant_normalize_dictionary_tag tag)
              st.broker.provider_list)) := by
  by_cases hc : (g_hash_table_lookup st.broker.dict_map
      (enchant_normalize_dictionary_tag tag)).isSome = true
  · have hmem := (lookup_isSome_iff _ _).mp hc
    have hc2 : (g_hash_table_lookup (enchant_broker_clear_error st.broker).dict_map
        (enchant_normalize_dictionary_tag tag)).isSome = true := hc
    have hrun : enchant_broker_dict_exists st (some tag)
        = (1, { st with broker := enchant_broker_clear_error st.broker }) := by
      simp only [enchant_broker_dict_exists, htag, if_false, hc2, if_true]
    rw [hrun]
    refine ⟨⟨fun _ => Or.inl hmem, fun _ => rfl⟩, Or.inl rfl, rfl, rfl, fun _ => rfl, ?_⟩
    intro hn
    exact absurd hmem hn
  · have hmem : (enchant_normalize_dictionary_tag tag) ∉ st.broker.dict_map.map Prod.fst :=
      fun h => hc ((lookup_isSome_iff _ _).mpr h)
    have hc2 : ¬ (g_hash_table_lookup (enchant_broker_clear_error st.broker).dict_map
        (enchant_normalize_dictionary_tag tag)).isSome = true := hc
    have hrun : enchant_broker_dict_exists st (some tag)
        = dictionary_exists_loop (enchant_normalize_dictionary_tag tag)
            { st with broker := enchant_broker_clear_error st.broker }
            st.broker.provider_list := by
      simp only [enchant_broker_dict_exists, htag, if_false, hc2]
      rfl
    rw [hrun]
    obtain ⟨f1, f2, _, f4⟩ := exists_loop_frame (enchant_normalize_dictionary_tag tag)
      { st with broker := enchant_broker_clear_error st.broker } st.broker.provider_list
    refine ⟨?_, f4, ?_, f2, ?_, ?_⟩
    · rw [exists_loop_iff]
      constructor
      · intro h; exact Or.inr h
      · intro h
        rcases h with h | h
        · exact absurd h hmem
        · exact h
    · rw [f1]; rfl
    · intro h; exact absurd h hmem
    · intro _
      constructor
      · intro pre p post hook hl hpre hp hh
        rw [hl, exists_loop_skip _ _ pre (p :: post) hpre]
        simp only [dictionary_exists_loop, hp, hh, if_true]
      · intro hall
        have h := exists_loop_skip (enchant_normalize_dictionary_tag tag)
          { st with broker := enchant_broker_clear_error st.broker }
          st.broker.provider_list [] hall
        rw [List.append_nil] at h
        rw [h]
        rfl

/-- C20 (witness): on the broker with providers `a`, `e`, `d`, `c`, the tag `en_US.UTF-8` is
known: `a` has no hook, `e` answers false and `d` answers true, so `c` is not asked. -/
theorem dict_exists_spec_witness :
    (enchant_broker_dict_exists (state_of second_broker) (some "en_US.UTF-8".toList)).1 = 1 ∧
    (enchant_broker_dict_exists (state_of second_broker) (some "en_US.UTF-8".toList)).2.trace
      = [Event.provider_dictionary_exists 5 "en_US".toList,
         Event.provider_dictionary_exists 4 "en_US".toList] :=
  have h := dict_exists_spec (state_of second_broker) "en_US.UTF-8".toList (by decide)
  ⟨h.1.mpr (Or.inr ⟨prov_d, by simp [state_of, second_broker],
      fun tag => tag = "en_US".toList, rfl, by decide⟩),
   (h.2.2.2.2.2 (by decide)).1 [prov_a, prov_e] prov_d [prov_c]
      (fun tag => tag = "en_US".toList) (by rfl)
      (by
        intro q hq hk hhk
        have hq2 : q = prov_a ∨ q = prov_e := by simpa using hq
        rcases hq2 with e | e
        · subst e; cases hhk
        · subst e; cases hhk; rfl)
      (by rfl) (by decide)⟩

/-! ## Claims on releasing dictionaries and on personal word list dictionaries -/

theorem lookup_remove_self {V : Type} (t : GHashTable V) (key : CStr) :
    g_hash_table_lookup (g_hash_table_remove t key) key = none := by
  induction t with
  | nil => rfl
  | cons e rest ih =>
    obtain ⟨k, v⟩ := e
    by_cases h : k = key
    · simp only [g_hash_table_remove, List.filter_cons, h, ne_eq, not_true_eq_false,
        decide_False, Bool.false_eq_true, if_false]
      exact ih
    · simp only [g_hash_table_remove, List.filter_cons, h, ne_eq, not_false_eq_true,
        decide_True, if_true, g_hash_table_lookup, if_false]
      exact ih

/-- A dictionary returned by `enchant_broker_request_dict` is in the cache under the
normalized tag. -/
theorem request_dict_cached (env : Env) (st st1 : State) (t : CStr) (d : Ptr)
    (ht : t ≠ []) (hreq : enchant_broker_request_dict env st (some t) = (some d, st1)) :
    g_hash_table_lookup st1.broker.dict_map (enchant_normalize_dictionary_tag t) = some d := by
  simp only [enchant_broker_request_dict, ht, if_false] at hreq
  cases hl : g_hash_table_lookup (enchant_broker_clear_error st.broker).dict_map
      (enchant_normalize_dictionary_tag t) with
  | some dict =>
    simp only [hl, Prod.mk.injEq, Option.some.injEq] at hreq
    obtain ⟨e1, e2⟩ := hreq
    subst e1
    subst e2
    exact hl
  | none =>
    simp only [hl] at hreq
    exact request_dict_loop_cached _ _ _ _ _ _ hreq

/-- The hook calls of the request loop: those of the providers tried. -/
theorem request_dict_loop_trace (env : Env) (tag : CStr) (st : State)
    (l : List EnchantProvider) :
    (request_dict_loop env tag st l).2.trace = st.trace ++ request_events tag (tried tag l) := by
  induction l generalizing st with
  | nil => simp [request_dict_loop, tried, request_events]
  | cons p rest ih =>
    cases hp : p.request_dict with
    | none =>
      simp only [request_dict_loop, tried, hp]
      rw [ih st]
      simp [request_events, List.filter_cons, hp]
    | some hook =>
      cases hd : (hook tag).dict with
      | none =>
        simp only [request_dict_loop, tried, hp, hd, Option.isSome_none, Bool.false_eq_true,
          if_false]
        rw [ih]
        simp [request_events, List.filter_cons, hp, after_request]
      | some res =>
        obtain ⟨dptr, obj⟩ := res
        simp [request_dict_loop, tried, hp, hd, request_events, List.filter_cons,
          after_request]

/-- The release of a cached dictionary made for a provider and a tag. -/
theorem free_dict_provider (st1 : State) (key : CStr) (d owner : Ptr)
    (hcached : g_hash_table_lookup st1.broker.dict_map key = some d)
    (hprov : (st1.dicts d).enchant_private_data.provider = some owner)
    (hlang : (st1.dicts d).enchant_private_data.language_tag = key) :
    (enchant_broker_free_dict st1 (some d)).broker
      = { enchant_broker_clear_error st1.broker with
          dict_map := g_hash_table_remove st1.broker.dict_map key } ∧
    (enchant_broker_free_dict st1 (some d)).trace
      = st1.trace ++ (if owner_dispose_dict st1.broker owner
          then [Event.provider_dispose_dict owner d] else []) ∧
    (enchant_broker_free_dict st1 (some d)).dicts = st1.dicts ∧
    (enchant_broker_free_dict st1 (some d)).files = st1.files := by
  have hc2 : g_hash_table_lookup (enchant_broker_clear_error st1.broker).dict_map key
      = some d := hcached
  have hod : owner_dispose_dict
      { enchant_broker_clear_error st1.broker with
        dict_map := g_hash_table_remove (enchant_broker_clear_error st1.broker).dict_map key }
      owner = owner_dispose_dict st1.broker owner := rfl
  simp only [enchant_broker_free_dict, hprov, Option.isSome_some, if_true, hlang,
    dict_map_remove, hc2, enchant_dict_destroyed, hod]
  cases owner_dispose_dict st1.broker owner with
  | true => exact ⟨rfl, rfl, rfl, rfl⟩
  | false => simp [enchant_broker_clear_error]

/-- C12 (the code at the failing input): `request_pwl_dict ("/tmp/words.txt")` caches the
new dictionary under the normalized key `/tmp/words`; `free_dict` removes the key
`/tmp/words.txt`, the file name of the session, which is absent: the entry stays, the cache
still maps `/tmp/words` to the dictionary and its size is still one. -/
theorem free_dict_keeps_pwl_entry :
    (enchant_broker_request_pwl_dict example_env words_state
        (some "/tmp/words.txt".toList) 9).1 = some 9 ∧
    (enchant_broker_request_pwl_dict example_env words_state
        (some "/tmp/words.txt".toList) 9).2.broker.dict_map = [("/tmp/words".toList, 9)] ∧
    (enchant_broker_free_dict
        (enchant_broker_request_pwl_dict example_env words_state
          (some "/tmp/words.txt".toList) 9).2 (some 9)).broker.dict_map
      = [("/tmp/words".toList, 9)] ∧
    g_hash_table_size
        (enchant_broker_free_dict
          (enchant_broker_request_pwl_dict example_env words_state
            (some "/tmp/words.txt".toList) 9).2 (some 9)).broker.dict_map = 1 := by
  decide

/-- A dictionary returned by the request loop carries the tag and a provider. -/
theorem request_dict_loop_session (env : Env) (tag : CStr) (st st1 : State)
    (l : List EnchantProvider) (d : Ptr)
    (h : request_dict_loop env tag st l = (some d, st1)) :
    (st1.dicts d).enchant_private_data.language_tag = tag ∧
    (st1.dicts d).enchant_private_data.provider.isSome = true := by
  induction l generalizing st with
  | nil => simp [request_dict_loop] at h
  | cons p ps ih =>
    cases hp : p.request_dict with
    | none =>
      simp only [request_dict_loop, hp] at h
      exact ih st h
    | some hook =>
      cases hd : (hook tag).dict with
      | none =>
        simp only [request_dict_loop, hp, hd] at h
        exact ih _ h
      | some res =>
        obtain ⟨dptr, obj⟩ := res
        simp only [request_dict_loop, hp, hd, Prod.mk.injEq, Option.some.injEq] at h
        obtain ⟨h1, h2⟩ := h
        subst h1
        subst h2
        simp only [Function.update_same, (session_new_provider _ _ _ _).1,
          (session_new_provider _ _ _ _).2, Option.isSome_some, and_self]

/-- In a state whose cache agrees with the tags of its dictionaries, a provider-backed
dictionary returned by `enchant_broker_request_dict` carries the normalized tag. -/
theorem request_dict_tag (env : Env) (st st1 : State) (t : CStr) (d : Ptr)
    (ht : t ≠ []) (hagree : cache_tags_agree st)
    (hreq : enchant_broker_request_dict env st (some t) = (some d, st1))
    (hprov : (st1.dicts d).enchant_private_data.provider.isSome = true) :
    (st1.dicts d).enchant_private_data.language_tag = enchant_normalize_dictionary_tag t := by
  simp only [enchant_broker_request_dict, ht, if_false] at hreq
  cases hl : g_hash_table_lookup (enchant_broker_clear_error st.broker).dict_map
      (enchant_normalize_dictionary_tag t) with
  | some dict =>
    simp only [hl, Prod.mk.injEq, Option.some.injEq] at hreq
    obtain ⟨e1, e2⟩ := hreq
    subst e1
    subst e2
    exact hagree _ _ hl hprov
  | none =>
    simp only [hl] at hreq
    exact (request_dict_loop_session _ _ _ _ _ _ hreq).1

/-- The request loop keeps the cache in agreement with the tags when the object the provider
hands out is not a dictionary of the cache already. -/
theorem request_dict_loop_agree (env : Env) (tag : CStr) (st st1 : State)
    (l : List EnchantProvider) (d : Ptr) (hagree : cache_tags_agree st)
    (hfresh : ∀ key, g_hash_table_lookup st.broker.dict_map key ≠ some d)
    (h : request_dict_loop env tag st l = (some d, st1)) : cache_tags_agree st1 := by
  induction l generalizing st with
  | nil => simp [request_dict_loop] at h
  | cons p ps ih =>
    cases hp : p.request_dict with
    | none =>
      simp only [request_dict_loop, hp] at h
      exact ih st hagree hfresh h
    | some hook =>
      have hmap : (after_request st p tag (hook tag)).broker.dict_map = st.broker.dict_map := by
        unfold after_request enchant_provider_set_error enchant_broker_clear_error
        cases (hook tag).error <;> rfl
      have hdicts : (after_request st p tag (hook tag)).dicts = st.dicts := rfl
      have hagree2 : cache_tags_agree (after_request st p tag (hook tag)) := by
        intro key d2 hk hpv
        rw [hmap] at hk
        rw [hdicts] at hpv ⊢
        exact hagree key d2 hk hpv
      have hfresh2 : ∀ key,
          g_hash_table_lookup (after_request st p tag (hook tag)).broker.dict_map key
            ≠ some d := by
        intro key
        rw [hmap]
        exact hfresh key
      cases hd : (hook tag).dict with
      | none =>
        simp only [request_dict_loop, hp, hd] at h
        exact ih _ hagree2 hfresh2 h
      | some res =>
        obtain ⟨dptr, obj⟩ := res
        simp only [request_dict_loop, hp, hd, Prod.mk.injEq, Option.some.injEq] at h
        obtain ⟨h1, h2⟩ := h
        subst h1
        subst h2
        intro key d2 hk hpv
        by_cases hkey : key = tag
        · subst hkey
          have hk2 : g_hash_table_lookup
              (g_hash_table_insert (after_request st p key (hook key)).broker.dict_map key dptr)
              key = some d2 := hk
          rw [lookup_insert_self] at hk2
          have e : d2 = dptr := (Option.some.inj hk2).symm
          subst e
          simp only [Function.update_same, (session_new_provider _ _ _ _).2]
        · have hk2 : g_hash_table_lookup
              (g_hash_table_insert (after_request st p tag (hook tag)).broker.dict_map tag dptr)
              key = some d2 := hk
          rw [lookup_insert_other _ _ _ _ hkey] at hk2
          have hne : d2 ≠ dptr := by
            intro e
            rw [e] at hk2
            exact hfresh2 key hk2
          have hpv2 : ((after_request st p tag (hook tag)).dicts d2).enchant_private_data.provider.isSome
              = true := by
            simpa [Function.update_noteq hne] using hpv
          have := hagree2 key d2 hk2 hpv2
          simpa [Function.update_noteq hne] using this

/-- The agreement of the cache with the tags holds on an empty cache. -/
theorem cache_tags_agree_nil (st : State) (h : st.broker.dict_map = []) :
    cache_tags_agree st := by
  intro key d hk
  rw [h] at hk
  cases hk

/-- The agreement of the cache with the tags is kept by `enchant_broker_request_dict` as long
as the object a provider hands out is not a dictionary of the cache already. -/
theorem cache_tags_agree_kept (env : Env) (st st1 : State) (t : CStr) (d : Ptr)
    (hagree : cache_tags_agree st)
    (hreq : enchant_broker_request_dict env st (some t) = (some d, st1))
    (hnew : g_hash_table_lookup st.broker.dict_map (enchant_normalize_dictionary_tag t)
        = some d ∨ ∀ key, g_hash_table_lookup st.broker.dict_map key ≠ some d) :
    cache_tags_agree st1 := by
  have ht : t ≠ [] := by
    intro e
    rw [e] at hreq
    simp [enchant_broker_request_dict] at hreq
  simp only [enchant_broker_request_dict, ht, if_false] at hreq
  cases hl : g_hash_table_lookup (enchant_broker_clear_error st.broker).dict_map
      (enchant_normalize_dictionary_tag t) with
  | some dict =>
    simp only [hl, Prod.mk.injEq, Option.some.injEq] at hreq
    obtain ⟨e1, e2⟩ := hreq
    subst e2
    exact hagree
  | none =>
    simp only [hl] at hreq
    have hl2 : g_hash_table_lookup st.broker.dict_map (enchant_normalize_dictionary_tag t)
        = none := hl
    rcases hnew with hnew | hnew
    · rw [hl2] at hnew
      cases hnew
    · exact request_dict_loop_agree env _
        { st with broker := enchant_broker_clear_error st.broker } st1 _ d hagree hnew hreq

/-- C13 (counterexample): the provider `d` has handed out the object 300 for `en_US` and then
for `fr_FR`. `request_dict ("en_US")` returns the provider-backed dictionary 300 from the
cache; `free_dict` of it removes the key `fr_FR`, the tag its session carries, so the entry
of `en_US` stays, and the next `request_dict ("en_US")` returns the released object from the
cache without any call to a provider. -/
theorem release_keeps_aliased_entry :
    (enchant_broker_request_dict example_env aliased_state (some "en_US".toList)).1
      = some 300 ∧
    ((enchant_broker_request_dict example_env aliased_state (some "en_US".toList)).2.dicts
      300).enchant_private_data.provider = some 4 ∧
    g_hash_table_lookup
      (enchant_broker_free_dict
        (enchant_broker_request_dict example_env aliased_state (some "en_US".toList)).2
        (some 300)).broker.dict_map "en_US".toList = some 300 ∧
    (enchant_broker_request_dict example_env
      (enchant_broker_free_dict
        (enchant_broker_request_dict example_env aliased_state (some "en_US".toList)).2
        (some 300)) (some "en_US".toList)).1 = some 300 ∧
    (enchant_broker_request_dict example_env
      (enchant_broker_free_dict
        (enchant_broker_request_dict example_env aliased_state (some "en_US".toList)).2
        (some 300)) (some "en_US".toList)).2.trace
      = (enchant_broker_free_dict
        (enchant_broker_request_dict example_env aliased_state (some "en_US".toList)).2
        (some 300)).trace := by
  decide

/-- C13 (amended): let the cache agree with the tags of its dictionaries (every
provider-backed dictionary of the cache carries the tag it is cached under, as on an empty
cache and after requests in which no provider handed out an object of the cache). When
`request_dict (t)` then returns the provider-backed dictionary `d`, `free_dict (d)` removes
the cache entry of the normalized tag and calls the `dispose_dict` hook of the owning
provider on `d` once (no call when the provider has no such hook); the next
`request_dict (t)` runs the provider loop again: its hook calls are those of a request on a
cold cache. -/
theorem release_then_request (env : Env) (st st1 : State) (t : CStr) (d owner : Ptr)
    (ht : t ≠ [])
    (hagree : cache_tags_agree st)
    (hreq : enchant_broker_request_dict env st (some t) = (some d, st1))
    (hprov : (st1.dicts d).enchant_private_data.provider = some owner) :
    (st1.dicts d).enchant_private_data.language_tag = enchant_normalize_dictionary_tag t ∧
    g_hash_table_lookup (enchant_broker_free_dict st1 (some d)).broker.dict_map
        (enchant_normalize_dictionary_tag t) = none ∧
    (enchant_broker_free_dict st1 (some d)).trace
      = st1.trace ++ (if owner_dispose_dict st1.broker owner
          then [Event.provider_dispose_dict owner d] else []) ∧
    enchant_broker_request_dict env (enchant_broker_free_dict st1 (some d)) (some t)
      = request_dict_loop env (enchant_normalize_dictionary_tag t)
          { enchant_broker_free_dict st1 (some d) with
            broker := enchant_broker_clear_error (enchant_broker_free_dict st1 (some d)).broker }
          (enchant_get_ordered_providers st1.broker (enchant_normalize_dictionary_tag t)) ∧
    (enchant_broker_request_dict env (enchant_broker_free_dict st1 (some d)) (some t)).2.trace
      = (enchant_broker_free_dict st1 (some d)).trace
        ++ request_events (enchant_normalize_dictionary_tag t)
            (tried (enchant_normalize_dictionary_tag t)
              (enchant_get_ordered_providers st1.broker
                (enchant_normalize_dictionary_tag t))) := by
  have hlang := request_dict_tag env st st1 t d ht hagree hreq (by rw [hprov]; rfl)
  have hcached := request_dict_cached env st st1 t d ht hreq
  obtain ⟨hb, htr, _, _⟩ := free_dict_provider st1 _ d owner hcached hprov hlang
  have hgone : g_hash_table_lookup (enchant_broker_free_dict st1 (some d)).broker.dict_map
      (enchant_normalize_dictionary_tag t) = none := by
    rw [hb]
    exact lookup_remove_self _ _
  have hord : enchant_get_ordered_providers
      (enchant_broker_clear_error (enchant_broker_free_dict st1 (some d)).broker)
      (enchant_normalize_dictionary_tag t)
      = enchant_get_ordered_providers st1.broker (enchant_normalize_dictionary_tag t) := by
    rw [hb]
    rfl
  have hgone2 : g_hash_table_lookup
      (enchant_broker_clear_error (enchant_broker_free_dict st1 (some d)).broker).dict_map
      (enchant_normalize_dictionary_tag t) = none := hgone
  have hrun : enchant_broker_request_dict env (enchant_broker_free_dict st1 (some d)) (some t)
      = request_dict_loop env (enchant_normalize_dictionary_tag t)
          { enchant_broker_free_dict st1 (some d) with
            broker := enchant_broker_clear_error (enchant_broker_free_dict st1 (some d)).broker }
          (enchant_get_ordered_providers st1.broker (enchant_normalize_dictionary_tag t)) := by
    simp only [enchant_broker_request_dict, ht, if_false, hgone2, hord]
  refine ⟨hlang, hgone, htr, hrun, ?_⟩
  rw [hrun, request_dict_loop_trace]

/-- C13 (witness): on the broker with providers `a`, `e`, `d`, `c` and an empty cache, the
dictionary for `en_US` comes from `d`; releasing it calls `dispose_dict` of `d` once, and the
next request calls the `request_dict` hook of `d` again. -/
theorem release_then_request_witness :
    (enchant_broker_free_dict
        (enchant_broker_request_dict example_env (state_of second_broker)
          (some "en_US".toList)).2 (some 300)).trace
      = [Event.provider_request_dict 4 "en_US".toList, Event.provider_dispose_dict 4 300] ∧
    (enchant_broker_request_dict example_env
        (enchant_broker_free_dict
          (enchant_broker_request_dict example_env (state_of second_broker)
            (some "en_US".toList)).2 (some 300)) (some "en_US".toList)).2.trace
      = [Event.provider_request_dict 4 "en_US".toList, Event.provider_dispose_dict 4 300,
         Event.provider_request_dict 4 "en_US".toList] :=
  have h := release_then_request example_env (state_of second_broker)
    (enchant_broker_request_dict example_env (state_of second_broker) (some "en_US".toList)).2
    "en_US".toList 300 4 (by decide)
    (by
      intro key d hk
      cases hk)
    (by rfl) (by rfl)
  ⟨h.2.2.1.trans (by decide), h.2.2.2.2.trans (by decide)⟩

/-- C14 (counterexample): after `request_dict ("en_US")`, a successful
`request_pwl_dict ("en_US.dic")` returns the cached provider dictionary: its session has a
provider and `is_pwl` is false. -/
theorem request_pwl_dict_returns_provider_dict :
    (enchant_broker_request_pwl_dict example_env
        (enchant_broker_request_dict example_env (state_of example_broker)
          (some "en_US".toList)).2 (some "en_US.dic".toList) 9).1 = some 100 ∧
    (((enchant_broker_request_pwl_dict example_env
        (enchant_broker_request_dict example_env (state_of example_broker)
          (some "en_US".toList)).2 (some "en_US.dic".toList) 9).2.dicts
        100).enchant_private_data.provider = some 2) ∧
    (((enchant_broker_request_pwl_dict example_env
        (enchant_broker_request_dict example_env (state_of example_broker)
          (some "en_US".toList)).2 (some "en_US.dic".toList) 9).2.dicts
        100).enchant_private_data.is_pwl = false) := by
  decide

/-- C14 (amended): a dictionary that `enchant_broker_request_pwl_dict` creates (non-empty
path, normalized path not cached, file readable) is a personal-word-list dictionary: no
provider, `is_pwl` true, no `check` hook, backed by the path, cached under the normalized
path. When the normalized path is already a key of the cache, the cached dictionary is
returned as it is, whatever made it; `enchant_broker_request_dict` for a tag with the same
normalized form returns that same dictionary. -/
theorem request_pwl_dict_kinds (env : Env) (st : State) (path : CStr) (fresh : Ptr)
    (hpath : path ≠ []) :
    (∀ content,
      g_hash_table_lookup st.broker.dict_map (enchant_normalize_dictionary_tag path) = none →
      st.files path = some content →
      (enchant_broker_request_pwl_dict env st (some path) fresh).1 = some fresh ∧
      ((enchant_broker_request_pwl_dict env st (some path) fresh).2.dicts
          fresh).enchant_private_data.provider = none ∧
      ((enchant_broker_request_pwl_dict env st (some path) fresh).2.dicts
          fresh).enchant_private_data.is_pwl = true ∧
      ((enchant_broker_request_pwl_dict env st (some path) fresh).2.dicts
          fresh).enchant_private_data.personal_filename = some path ∧
      ((enchant_broker_request_pwl_dict env st (some path) fresh).2.dicts fresh).check = none ∧
      g_hash_table_lookup
          (enchant_broker_request_pwl_dict env st (some path) fresh).2.broker.dict_map
          (enchant_normalize_dictionary_tag path) = some fresh) ∧
    (∀ d,
      g_hash_table_lookup st.broker.dict_map (enchant_normalize_dictionary_tag path) = some d →
      enchant_broker_request_pwl_dict env st (some path) fresh
          = (some d, { st with broker := enchant_broker_clear_error st.broker }) ∧
      ∀ tag, tag ≠ [] →
        enchant_normalize_dictionary_tag tag = enchant_normalize_dictionary_tag path →
        enchant_broker_request_dict env st (some tag)
          = (some d, { st with broker := enchant_broker_clear_error st.broker })) := by
  constructor
  · intro content hcache hfile
    have hc2 : g_hash_table_lookup (enchant_broker_clear_error st.broker).dict_map
        (enchant_normalize_dictionary_tag path) = none := hcache
    simp only [enchant_broker_request_pwl_dict, hpath, if_false, hc2,
      enchant_session_new_with_pwl, hfile, Function.update_same]
    exact ⟨trivial, trivial, trivial, trivial, trivial, lookup_insert_self _ _ _⟩
  · intro d hcache
    have hc2 : g_hash_table_lookup (enchant_broker_clear_error st.broker).dict_map
        (enchant_normalize_dictionary_tag path) = some d := hcache
    constructor
    · simp only [enchant_broker_request_pwl_dict, hpath, if_false, hc2]
    · intro tag htag hn
      simp only [enchant_broker_request_dict, htag, if_false, hn, hc2]

/-- C14 (witness): `request_pwl_dict ("/tmp/words.txt")` on a cold cache creates a
personal-word-list dictionary. -/
theorem request_pwl_dict_kinds_witness :
    (enchant_broker_request_pwl_dict example_env words_state
        (some "/tmp/words.txt".toList) 9).1 = some 9 ∧
    ((enchant_broker_request_pwl_dict example_env words_state
        (some "/tmp/words.txt".toList) 9).2.dicts 9).enchant_private_data.provider = none ∧
    ((enchant_broker_request_pwl_dict example_env words_state
        (some "/tmp/words.txt".toList) 9).2.dicts 9).enchant_private_data.is_pwl = true :=
  have h := (request_pwl_dict_kinds example_env words_state "/tmp/words.txt".toList 9
    (by decide)).1 "foo\n".toList (by decide) (by rfl)
  ⟨h.1, h.2.1, h.2.2.1⟩

/-- C16 (counterexample): `enchant_dict_check` with the empty word returns the positive
value 1 on a personal-word-list dictionary, and on a provider dictionary it calls the
`check` hook. -/
theorem empty_word_not_rejected :
    (enchant_dict_check two_dict_state (some 7) (some []) 0).1 = 1 ∧
    ¬ (enchant_dict_check two_dict_state (some 7) (some []) 0).1 < 0 ∧
    (enchant_dict_check two_dict_state (some 100) (some []) 0).2.trace
      = [Event.dict_check 100 [] 0] := by
  decide

/-- C16 (amended): `enchant_dict_check` rejects a NULL word and a NULL dictionary only: it
then returns -1 and changes nothing, calling no hook. A word of length 0 is judged like any
other word: 0 when the empty string is in the session or personal set; otherwise the verdict
of the `check` hook, which is called, when the dictionary has one; otherwise 1 for a
personal-word-list dictionary and -1 for any other. -/
theorem check_validation (st : State) (d : Ptr) (w : CStr) (len : Int)
    (hempty : g_strndup w (word_length w len) = []) :
    enchant_dict_check st (some d) none len = (-1, st) ∧
    enchant_dict_check st none (some w) len = (-1, st) ∧
    (in_word_sets (st.dicts d).enchant_private_data [] →
      (enchant_dict_check st (some d) (some w) len).1 = 0) ∧
    (¬ in_word_sets (st.dicts d).enchant_private_data [] →
      (∀ hook, (st.dicts d).check = some hook →
        (enchant_dict_check st (some d) (some w) len).1 = (hook w (word_length w len)).value ∧
        (enchant_dict_check st (some d) (some w) len).2.trace
          = st.trace ++ [Event.dict_check d w (word_length w len)]) ∧
      ((st.dicts d).check = none →
        (enchant_dict_check st (some d) (some w) len).1
          = (if (st.dicts d).enchant_private_data.is_pwl then 1 else -1))) := by
  obtain ⟨hin, hout⟩ := check_by_cases st d w len
  refine ⟨rfl, rfl, ?_, ?_⟩
  · intro h
    rw [← hempty] at h
    exact (hin ((contains_iff _ _ _).mpr h)).1
  · intro h
    have hc : enchant_session_contains (st.dicts d).enchant_private_data w (word_length w len)
        = false := by
      cases hb : enchant_session_contains (st.dicts d).enchant_private_data w
          (word_length w len) with
      | false => rfl
      | true =>
        have h2 := (contains_iff _ _ _).mp hb
        rw [hempty] at h2
        exact absurd h2 h
    obtain ⟨hhook, hnohook⟩ := hout hc
    exact ⟨hhook, fun hn => (hnohook hn).1⟩

/-- C16 (witness): the empty word on the provider dictionary at address 100, whose hook
rejects every word: the verdict is the hook's. -/
theorem check_validation_witness :
    (enchant_dict_check two_dict_state (some 100) (some []) 0).1 = 1 :=
  ((check_validation two_dict_state 100 [] 0 (by decide)).2.2.2
    (by unfold in_word_sets; decide)).1 (fun _ _ => { value := 1 }) (by rfl) |>.1

/-! ## Lemmas on the personal word list file -/

theorem fgets_lines_split (n : Nat) (a b cur : List Char) :
    fgets_lines n (a ++ '\n' :: b) cur = fgets_lines n (a ++ ['\n']) cur ++ fgets_lines n b [] := by
  induction a generalizing cur with
  | nil => simp [fgets_lines]
  | cons c a ih =>
    by_cases h : c = '\n' ∨ n ≤ cur.length + 2
    · simp only [List.cons_append, fgets_lines, h, if_true]
      exact congrArg _ (ih [])
    · simp only [List.cons_append, fgets_lines, h, if_false]
      exact ih _

theorem fgets_lines_word (n : Nat) (word cur : List Char) (hnl : '\n' ∉ word)
    (hcur : cur.length + 1 < n) (hfit : cur.length + word.length < n) :
    fgets_lines n (word ++ ['\n']) cur = [cur ++ word ++ ['\n']] ∨
    fgets_lines n (word ++ ['\n']) cur = [cur ++ word, ['\n']] := by
  induction word generalizing cur with
  | nil => left; simp [fgets_lines]
  | cons c w ih =>
    have hc : ¬ c = '\n' := fun e => hnl (by simp [e])
    have hw : '\n' ∉ w := fun e => hnl (List.mem_cons_of_mem _ e)
    by_cases h : n ≤ cur.length + 2
    · right
      have hw0 : w = [] := by
        apply List.eq_nil_of_length_eq_zero
        simp only [List.length_cons] at hfit
        omega
      subst hw0
      simp [fgets_lines, hc, h]
    · have h2 : ¬ (c = '\n' ∨ n ≤ cur.length + 2) := by
        intro e; rcases e with e | e
        · exact hc e
        · exact h e
      simp only [List.cons_append, fgets_lines, h2, if_false]
      have := ih (cur ++ [c]) hw (by simp; omega) (by simp at hfit ⊢; omega)
      simpa [List.append_assoc] using this

theorem strip_newline_line (word : List Char) (hnul : '\x00' ∉ word) :
    strip_newline (word ++ ['\n']) = word := by
  have htw : (word ++ ['\n']).takeWhile (· ≠ '\x00') = word ++ ['\n'] := by
    rw [List.takeWhile_eq_self_iff]
    intro c hc
    rcases List.mem_append.mp hc with h | h
    · have : c ≠ '\x00' := fun e => hnul (e ▸ h)
      simpa using this
    · simp at h; subst h; decide
  unfold strip_newline
  simp only [htw, List.getLast?_concat, List.dropLast_concat]

theorem strip_newline_plain (word : List Char) (hnul : '\x00' ∉ word) (hnl : '\n' ∉ word) :
    strip_newline word = word := by
  have htw : word.takeWhile (· ≠ '\x00') = word := by
    rw [List.takeWhile_eq_self_iff]
    intro c hc
    have : c ≠ '\x00' := fun e => hnul (e ▸ hc)
    simpa using this
  unfold strip_newline
  simp only [htw]
  split
  · rename_i h
    exact absurd (List.mem_of_getLast?_eq_some h) hnl
  · rfl

theorem lookup_insert_isSome {V : Type} (t : GHashTable V) (key other : CStr) (value : V)
    (h : (g_hash_table_lookup t other).isSome = true) :
    (g_hash_table_lookup (g_hash_table_insert t key value) other).isSome = true := by
  by_cases e : other = key
  · subst e; rw [lookup_insert_self]; rfl
  · rw [lookup_insert_other _ _ _ _ e]; exact h

theorem load_personal_keeps (personal : GHashTable Unit) (lines : List (List Char))
    (word : CStr) (h : (g_hash_table_lookup personal word).isSome = true) :
    (g_hash_table_lookup (load_personal personal lines) word).isSome = true := by
  induction lines generalizing personal with
  | nil => exact h
  | cons line rest ih =>
    simp only [load_personal]
    exact ih _ (lookup_insert_isSome _ _ _ _ h)

theorem load_personal_mem (personal : GHashTable Unit) (lines : List (List Char))
    (word : CStr) (h : word ∈ lines.map strip_newline) :
    (g_hash_table_lookup (load_personal personal lines) word).isSome = true := by
  induction lines generalizing personal with
  | nil => simp at h
  | cons line rest ih =>
    simp only [load_personal]
    simp only [List.map_cons, List.mem_cons] at h
    rcases h with h | h
    · apply load_personal_keeps
      rw [h, lookup_insert_self]
      rfl
    · exact ih _ h

/-- A word appended as a line of its own is read back by the loader. -/
theorem appended_word_loaded (n : Nat) (old word : List Char) (hn : 2 ≤ n)
    (hold : old = [] ∨ old.getLast? = some '\n')
    (hnl : '\n' ∉ word) (hnul : '\x00' ∉ word) (hshort : word.length < n) :
    word ∈ (fgets_lines n (old ++ word ++ ['\n']) []).map strip_newline := by
  have hw : word ∈ (fgets_lines n (word ++ ['\n']) []).map strip_newline := by
    rcases fgets_lines_word n word [] hnl (by simp; omega) (by simpa using hshort) with h | h
    · rw [h]
      simp [strip_newline_line word hnul]
    · rw [h]
      simp [strip_newline_plain word hnul hnl]
  rcases hold with h | h
  · subst h
    simpa using hw
  · obtain ⟨ys, hys⟩ := List.getLast?_eq_some_iff.mp h
    subst hys
    have e : ys ++ ['\n'] ++ word ++ ['\n'] = ys ++ '\n' :: (word ++ ['\n']) := by simp
    rw [e, fgets_lines_split, List.map_append, List.mem_append]
    exact Or.inr hw

theorem add_to_session_files (st : State) (d : Ptr) (w : CStr) (len : Int) :
    (enchant_dict_add_to_session st (some d) (some w) len).files = st.files ∧
    (enchant_dict_add_to_session st (some d) (some w) len).broker = st.broker := by
  unfold enchant_dict_add_to_session
  simp only []
  split <;> exact ⟨rfl, rfl⟩

theorem apply_dict_error_filename (session : EnchantSession) (err : Option CStr) :
    (apply_dict_error session err).personal_filename = session.personal_filename := by
  cases err <;> rfl

/-- The file of the session after `enchant_dict_add_to_pwl`: the old content, the word and
a line feed. -/
theorem add_to_pwl_files (can_append : CStr → Bool) (st : State) (d : Ptr) (w : CStr)
    (len : Int) (name : CStr)
    (hname : (st.dicts d).enchant_private_data.personal_filename = some name)
    (happ : can_append name = true) :
    (enchant_dict_add_to_pwl can_append st (some d) (some w) len).files
      = Function.update st.files name
          (some ((st.files name).getD [] ++ g_strndup w (word_length w len) ++ ['\n'])) := by
  obtain ⟨⟨err, hs⟩, _, _⟩ :=
    add_to_session_effect st d w (Int.ofNat (word_length w len))
  have hfn : (enchant_session_clear_error
      ((enchant_dict_add_to_session st (some d) (some w)
        (Int.ofNat (word_length w len))).dicts d).enchant_private_data).personal_filename
      = some name := by
    rw [hs]
    show (apply_dict_error _ err).personal_filename = some name
    rw [apply_dict_error_filename]
    exact hname
  have hfiles := (add_to_session_files st d w (Int.ofNat (word_length w len))).1
  unfold enchant_dict_add_to_pwl
  simp only []
  split
  · simp only [State.set_session, enchant_session_add_personal, hfn, happ, if_true, hfiles,
      g_strndup]
  · simp only [State.set_session, enchant_session_add_personal, hfn, happ, if_true, hfiles,
      g_strndup]

/-! ## Claim on the persistence of personal words -/

/-- C11 (counterexample): the personal file holds `abc` without a final line feed;
`add_to_pwl ("foobar")` makes it `abcfoobar` and a line feed, and on the dictionary that a
fresh broker gets from `request_pwl_dict` for the file, `check ("foobar")` returns 1. -/
theorem round_trip_fails_after_partial_line :
    (enchant_dict_add_to_pwl always_append (pwl_state "abc".toList) (some 7)
        (some "foobar".toList) (-1)).files "/tmp/pwl".toList = some "abcfoobar\n".toList ∧
    (enchant_broker_request_pwl_dict example_env
        { state_of example_broker with
          files := (enchant_dict_add_to_pwl always_append (pwl_state "abc".toList) (some 7)
            (some "foobar".toList) (-1)).files }
        (some "/tmp/pwl".toList) 9).1 = some 9 ∧
    (enchant_dict_check
        (enchant_broker_request_pwl_dict example_env
          { state_of example_broker with
            files := (enchant_dict_add_to_pwl always_append (pwl_state "abc".toList) (some 7)
              (some "foobar".toList) (-1)).files }
          (some "/tmp/pwl".toList) 9).2 (some 9) (some "foobar".toList) (-1)).1 = 1 := by
  decide

/-- C11 (amended): let the dictionary be backed by the non-empty file name `F`, which can be
opened for append and is absent or a text file (no NUL byte) that is empty or ends in a line
feed; let the word (the first `len` bytes of `w`) hold no line feed and be shorter than the
line buffer of the loader. Then `enchant_dict_add_to_pwl` leaves in `F` the old content
followed by the word and a line feed, and in every state with these files whose cache does
not hold the normalized `F` (a fresh broker), `enchant_broker_request_pwl_dict (F)` yields a
new dictionary on which `enchant_dict_check` of the word returns 0. -/
theorem pwl_round_trip (env : Env) (can_append : CStr → Bool) (st st2 : State) (d : Ptr)
    (w : CStr) (len : Int) (F : CStr) (fresh : Ptr)
    (hbuf : 2 ≤ env.BUFSIZ)
    (hF : (st.dicts d).enchant_private_data.personal_filename = some F)
    (hFne : F ≠ [])
    (happ : can_append F = true)
    (hold : ∀ content, st.files F = some content →
      '\x00' ∉ content ∧ (content = [] ∨ content.getLast? = some '\n'))
    (hlen : word_length w len ≤ w.length)
    (hnl : '\n' ∉ g_strndup w (word_length w len))
    (hnul : '\x00' ∉ g_strndup w (word_length w len))
    (hshort : (g_strndup w (word_length w len)).length < env.BUFSIZ)
    (hfiles : st2.files = (enchant_dict_add_to_pwl can_append st (some d) (some w) len).files)
    (hcold : g_hash_table_lookup st2.broker.dict_map (enchant_normalize_dictionary_tag F)
      = none) :
    (enchant_dict_add_to_pwl can_append st (some d) (some w) len).files F
      = some ((st.files F).getD [] ++ g_strndup w (word_length w len) ++ ['\n']) ∧
    (enchant_broker_request_pwl_dict env st2 (some F) fresh).1 = some fresh ∧
    (enchant_dict_check (enchant_broker_request_pwl_dict env st2 (some F) fresh).2
      (some fresh) (some w) len).1 = 0 := by
  have hf := add_to_pwl_files can_append st d w len F hF happ
  have hfF : st2.files F
      = some ((st.files F).getD [] ++ g_strndup w (word_length w len) ++ ['\n']) := by
    rw [hfiles, hf]
    simp
  have hold2 : (st.files F).getD [] = [] ∨ ((st.files F).getD []).getLast? = some '\n' := by
    cases hc : st.files F with
    | none => left; rfl
    | some content => exact (hold content hc).2
  have hmem := appended_word_loaded env.BUFSIZ ((st.files F).getD [])
    (g_strndup w (word_length w len)) hbuf hold2 hnl hnul hshort
  have hc2 : g_hash_table_lookup (enchant_broker_clear_error st2.broker).dict_map
      (enchant_normalize_dictionary_tag F) = none := hcold
  have hrun : enchant_broker_request_pwl_dict env st2 (some F) fresh
      = (some fresh,
          { st2 with
            dicts := Function.update st2.dicts fresh
              { enchant_private_data :=
                  { session := [], personal := load_personal []
                      (fgets_lines env.BUFSIZ
                        ((st.files F).getD [] ++ g_strndup w (word_length w len) ++ ['\n']) []),
                    personal_filename := some F,
                    language_tag := "Personal WordList".toList, error := none,
                    is_pwl := true, provider := none } }
            broker := { enchant_broker_clear_error st2.broker with
              dict_map := g_hash_table_insert st2.broker.dict_map
                (enchant_normalize_dictionary_tag F) fresh } }) := by
    simp only [enchant_broker_request_pwl_dict, hFne, if_false, hc2,
      enchant_session_new_with_pwl, hfF]
    rfl
  refine ⟨by rw [hf]; simp, by rw [hrun], ?_⟩
  apply (check_by_cases _ fresh w len).1 ?_ |>.1
  rw [hrun]
  simp only [Function.update_same]
  unfold enchant_session_contains
  simp only [Bool.or_eq_true]
  right
  exact load_personal_mem _ _ _ hmem

/-- C11 (witness): the personal file holds the line `abc`; after `add_to_pwl ("foobar")` a
fresh broker reads the file and `check ("foobar")` returns 0. -/
theorem pwl_round_trip_witness :
    (enchant_dict_check
        (enchant_broker_request_pwl_dict example_env
          { state_of example_broker with
            files := (enchant_dict_add_to_pwl always_append (pwl_state "abc\n".toList) (some 7)
              (some "foobar".toList) (-1)).files }
          (some "/tmp/pwl".toList) 9).2 (some 9) (some "foobar".toList) (-1)).1 = 0 :=
  (pwl_round_trip example_env always_append (pwl_state "abc\n".toList)
    { state_of example_broker with
      files := (enchant_dict_add_to_pwl always_append (pwl_state "abc\n".toList) (some 7)
        (some "foobar".toList) (-1)).files }
    7 "foobar".toList (-1) "/tmp/pwl".toList 9
    (by decide) (by rfl) (by decide) (by rfl)
    (by
      intro content hc
      have e : content = "abc\n".toList := by
        have h2 : (pwl_state "abc\n".toList).files "/tmp/pwl".toList
            = some "abc\n".toList := by rfl
        rw [h2] at hc
        exact (Option.some.inj hc).symm
      subst e
      exact ⟨by decide, Or.inr (by decide)⟩)
    (by decide) (by decide) (by decide) (by decide) (by rfl) (by decide)).2.2

/-! ## Claims on the order of the cuts and on repeated and omitted providers -/

theorem cut_at_first_eq (c : Char) (s : CStr) : cut_at_first c s = s.takeWhile (· ≠ c) :=
  strchr_cut s c

theorem takeWhile_both (c1 c2 : Char) (s : CStr) :
    (s.takeWhile (· ≠ c1)).takeWhile (· ≠ c2)
      = s.takeWhile (fun c => decide (c ≠ c1 ∧ c ≠ c2)) := by
  induction s with
  | nil => rfl
  | cons x xs ih =>
    by_cases h1 : x = c1
    · simp [List.takeWhile_cons, h1]
    · by_cases h2 : x = c2
      · rw [List.takeWhile_cons_of_pos (by simpa using h1),
          List.takeWhile_cons_of_neg (by simpa using h2),
          List.takeWhile_cons_of_neg (by simp [h2])]
      · simp only [List.takeWhile_cons, h1, h2, ne_eq, not_false_eq_true, decide_True,
          and_self, if_true, ih]

theorem cuts_commute (s : CStr) :
    cut_at_first '.' (cut_at_first '@' s) = cut_at_first '@' (cut_at_first '.' s) := by
  rw [cut_at_first_eq, cut_at_first_eq, cut_at_first_eq, cut_at_first_eq,
    takeWhile_both, takeWhile_both]
  apply congrArg (fun f => List.takeWhile f s)
  funext c
  simp only [and_comm]

/-- C28 (the negation of the claim): no input string tells the two orders apart: cutting at
the first `@` and then at the first `.` equals cutting at the first `.` and then at the
first `@`, for every string. -/
theorem no_string_separates_cut_orders :
    ¬ ∃ s : CStr,
      cut_at_first '.' (cut_at_first '@' s) ≠ cut_at_first '@' (cut_at_first '.' s) := by
  rintro ⟨s, hs⟩
  exact hs (cuts_commute s)

/-- C28 (amended): the order of the two cuts of `enchant_normalize_dictionary_tag` does not
change its result: for every input, the function equals the variant that cuts at `.` first
and at `@` second, and both are the longest prefix of the trimmed input that holds neither
`@` nor `.`. -/
theorem cut_order_immaterial (x : CStr) :
    enchant_normalize_dictionary_tag x = normalize_dot_first x ∧
    enchant_normalize_dictionary_tag x
      = (g_strstrip x).takeWhile (fun c => decide (c ≠ '@' ∧ c ≠ '.')) := by
  have h1 : enchant_normalize_dictionary_tag x
      = cut_at_first '.' (cut_at_first '@' (g_strstrip x)) := rfl
  refine ⟨?_, ?_⟩
  · rw [h1, cuts_commute]
    rfl
  · rw [h1, cut_at_first_eq, cut_at_first_eq, takeWhile_both]

theorem occurrences_none (list : List EnchantProvider) (address : Ptr)
    (h : address ∉ list.map (·.ptr)) (g : EnchantProvider → Bool) :
    list.countP (fun r => r.ptr == address && g r) = 0 := by
  rw [List.countP_eq_zero]
  intro r hr hc
  simp only [Bool.and_eq_true, beq_iff_eq] at hc
  exact h (List.mem_map.mpr ⟨r, hr, hc.1⟩)

/-- Among providers at pairwise distinct addresses, a registered provider is counted once
when it satisfies the test and not at all otherwise. -/
theorem occurrences_single (providers : List EnchantProvider) (p : EnchantProvider)
    (hnd : (providers.map (·.ptr)).Nodup) (hp : p ∈ providers) (g : EnchantProvider → Bool) :
    providers.countP (fun r => r.ptr == p.ptr && g r) = if g p then 1 else 0 := by
  induction providers with
  | nil => simp at hp
  | cons r rest ih =>
    simp only [List.map_cons, List.nodup_cons] at hnd
    by_cases hr : r.ptr = p.ptr
    · have hpr : p = r := by
        rcases List.mem_cons.mp hp with e | e
        · exact e
        · exact absurd (hr ▸ List.mem_map_of_mem (·.ptr) e) hnd.1
      subst hpr
      rw [List.countP_cons, occurrences_none rest p.ptr hnd.1 g]
      simp
    · have hpr : p ∈ rest := by
        rcases List.mem_cons.mp hp with e | e
        · exact absurd (e ▸ rfl) hr
        · exact e
      rw [List.countP_cons, ih hnd.2 hpr]
      simp [hr]

theorem occurrences_matched (providers : List EnchantProvider) (p : EnchantProvider)
    (hnd : (providers.map (·.ptr)).Nodup) (hp : p ∈ providers) (tokens : List CStr) :
    occurrences (spec_matched providers tokens) p.ptr = tokens.count p.identify := by
  induction tokens with
  | nil => simp [occurrences, spec_matched]
  | cons t ts ih =>
    have hcons : spec_matched providers (t :: ts)
        = providers.filter (fun q => q.identify = t) ++ spec_matched providers ts := by
      simp [spec_matched, List.flatMap_cons]
    unfold occurrences at ih ⊢
    rw [hcons, List.countP_append, ih, List.countP_filter,
      occurrences_single providers p hnd hp (fun q => decide (q.identify = t)),
      List.count_cons]
    by_cases e : p.identify = t
    · simp [e]; omega
    · have e2 : ¬ t = p.identify := fun h => e h.symm
      simp [e, e2]

theorem occurrences_pos_iff (list : List EnchantProvider) (address : Ptr) :
    0 < occurrences list address ↔ address ∈ list.map (·.ptr) := by
  unfold occurrences
  rw [List.countP_pos_iff]
  simp only [beq_iff_eq, List.mem_map]

/-- The number of occurrences of a registered provider in the ordered list: the number of
tokens that name it, and one when no token names it. -/
theorem occurrences_ordered (broker : EnchantBroker) (tag rule : CStr)
    (hsel : selected_rule broker tag = some rule)
    (hnd : (broker.provider_list.map (·.ptr)).Nodup) (p : EnchantProvider)
    (hp : p ∈ broker.provider_list) :
    occurrences (enchant_get_ordered_providers broker tag) p.ptr
      = if (g_strsplit_comma rule).count p.identify = 0 then 1
        else (g_strsplit_comma rule).count p.identify := by
  rw [ordered_of_rule broker tag rule hsel, spec_ordered,
    spec_not_yet_included_nodup _ _ hnd]
  have hm := occurrences_matched broker.provider_list p hnd hp (g_strsplit_comma rule)
  have hpos := occurrences_pos_iff (spec_matched broker.provider_list (g_strsplit_comma rule))
    p.ptr
  unfold occurrences at hm hpos ⊢
  rw [List.countP_append, hm, List.countP_filter]
  have hs := occurrences_single broker.provider_list p hnd hp
    (fun q => decide (q.ptr ∉
      (spec_matched broker.provider_list (g_strsplit_comma rule)).map (·.ptr)))
  rw [hs]
  rw [hm] at hpos
  by_cases hz : (g_strsplit_comma rule).count p.identify = 0
  · have hnot : p.ptr ∉ (spec_matched broker.provider_list (g_strsplit_comma rule)).map
        (·.ptr) := fun h => by have := hpos.mpr h; omega
    simp [hz, hnot]
  · have hin : p.ptr ∈ (spec_matched broker.provider_list (g_strsplit_comma rule)).map
        (·.ptr) := hpos.mp (by omega)
    simp [hz, hin]

/-- C25: a provider named by `k` tokens of the rule, `k > 0`, is listed `k` times, once at
the place of each of these tokens: the ordered list starts with the token-wise matches,
nothing is removed from them, and among providers at pairwise distinct addresses the
provider occurs exactly `k` times in the whole list. With providers `[a, b]` and the rule
`a,a` the list is `[a, a, b]`. -/
theorem repeated_names_preserved :
    (∀ (broker : EnchantBroker) (tag rule : CStr), selected_rule broker tag = some rule →
      (∃ rest, enchant_get_ordered_providers broker tag
        = (g_strsplit_comma rule).flatMap
            (fun token => broker.provider_list.filter (fun p => p.identify = token))
          ++ rest) ∧
      ((broker.provider_list.map (·.ptr)).Nodup →
        ∀ p ∈ broker.provider_list, 0 < (g_strsplit_comma rule).count p.identify →
          occurrences (enchant_get_ordered_providers broker tag) p.ptr
            = (g_strsplit_comma rule).count p.identify)) ∧
    enchant_get_ordered_providers
        (enchant_broker_set_ordering ab_broker (some "en_US".toList) (some "a,a".toList))
        "en_US".toList = [prov_a, prov_a, prov_b] := by
  refine ⟨?_, by rfl⟩
  intro broker tag rule hsel
  constructor
  · exact ⟨_, ordered_of_rule broker tag rule hsel⟩
  · intro hnd p hp hk
    rw [occurrences_ordered broker tag rule hsel hnd p hp]
    have : ¬ (g_strsplit_comma rule).count p.identify = 0 := by omega
    simp [this]

/-- C25 (witness): in the list for `en_US` under the rule `a,a`, the provider `a` occurs
twice. -/
theorem repeated_names_preserved_witness :
    occurrences
      (enchant_get_ordered_providers
        (enchant_broker_set_ordering ab_broker (some "en_US".toList) (some "a,a".toList))
        "en_US".toList) 1 = 2 :=
  ((repeated_names_preserved.1
    (enchant_broker_set_ordering ab_broker (some "en_US".toList) (some "a,a".toList))
    "en_US".toList "a,a".toList (by rfl)).2 (by decide) prov_a
    (by exact List.mem_cons_self prov_a [prov_b]) (by decide)).trans
    (by decide)

theorem exists_in_not_yet_included (included : List Ptr) (providers : List EnchantProvider)
    (p : EnchantProvider) (hp : p ∈ providers) (hn : p.ptr ∉ included) :
    ∃ r ∈ spec_not_yet_included included providers, r.ptr = p.ptr := by
  induction providers generalizing included with
  | nil => simp at hp
  | cons x rest ih =>
    by_cases hx : x.ptr ∈ included
    · simp only [spec_not_yet_included, hx, if_true]
      rcases List.mem_cons.mp hp with e | e
      · exact absurd (e ▸ hx) hn
      · exact ih included e hn
    · simp only [spec_not_yet_included, hx, if_false]
      by_cases hpx : p.ptr = x.ptr
      · exact ⟨x, List.mem_cons_self _ _, hpx.symm⟩
      · rcases List.mem_cons.mp hp with e | e
        · exact absurd (e ▸ rfl) hpx
        · have hn2 : p.ptr ∉ included ++ [x.ptr] := by
            simp only [List.mem_append, List.mem_singleton, not_or]
            exact ⟨hn, hpx⟩
          obtain ⟨r, hr, he⟩ := ih (included ++ [x.ptr]) e hn2
          exact ⟨r, List.mem_cons_of_mem _ hr, he⟩

theorem mem_spec_matched (providers : List EnchantProvider) (tokens : List CStr)
    (q : EnchantProvider) (h : q ∈ spec_matched providers tokens) :
    q ∈ providers ∧ q.identify ∈ tokens := by
  simp only [spec_matched, List.mem_flatMap, List.mem_filter, decide_eq_true_eq] at h
  obtain ⟨t, ht, hq, he⟩ := h
  exact ⟨hq, he ▸ ht⟩

theorem spec_matched_nodup (providers : List EnchantProvider) (tokens : List CStr)
    (hp : providers.Nodup) (ht : tokens.Nodup) : (spec_matched providers tokens).Nodup := by
  unfold spec_matched
  rw [List.nodup_flatMap]
  refine ⟨fun t _ => hp.filter _, ?_⟩
  refine List.Pairwise.imp ?_ ht
  intro t1 t2 hne
  intro q h1 h2
  simp only [List.mem_filter, decide_eq_true_eq] at h1 h2
  exact hne (h1.2.symm.trans h2.2)

/-- With pairwise distinct tokens and pairwise distinct provider names, the resolution of a
rule is a permutation of the registered providers. -/
theorem spec_ordered_perm (providers : List EnchantProvider) (rule : CStr)
    (hwf : addresses_determine providers)
    (ht : (g_strsplit_comma rule).Nodup) (hn : (providers.map (·.identify)).Nodup) :
    (spec_ordered providers rule).Perm providers := by
  have hpn : providers.Nodup := List.Nodup.of_map _ hn
  have hptr : (providers.map (·.ptr)).Nodup := List.Nodup.map_on hwf hpn
  rw [spec_ordered, spec_not_yet_included_nodup _ _ hptr]
  have hmn := spec_matched_nodup providers (g_strsplit_comma rule) hpn ht
  have hmatched : (spec_matched providers (g_strsplit_comma rule)).Perm
      (providers.filter (fun p => decide (p.ptr ∈
        (spec_matched providers (g_strsplit_comma rule)).map (·.ptr)))) := by
    rw [List.perm_ext_iff_of_nodup hmn (hpn.filter _)]
    intro q
    simp only [List.mem_filter, decide_eq_true_eq]
    constructor
    · intro hq
      exact ⟨(mem_spec_matched _ _ q hq).1, List.mem_map_of_mem _ hq⟩
    · rintro ⟨hq, hm⟩
      obtain ⟨r, hr, he⟩ := List.mem_map.mp hm
      have e := hwf r (mem_spec_matched _ _ r hr).1 q hq he
      exact e ▸ hr
  have hrest : providers.filter (fun p => decide (p.ptr ∉
        (spec_matched providers (g_strsplit_comma rule)).map (·.ptr)))
      = providers.filter (fun p => !decide (p.ptr ∈
        (spec_matched providers (g_strsplit_comma rule)).map (·.ptr))) := by
    apply List.filter_congr
    intro q _
    simp only [decide_not]
  rw [hrest]
  exact (hmatched.append_right _).trans (List.filter_append_perm _ _)

/-- C26: with provider objects determined by their address, every registered provider occurs
in the ordered list, whatever the tag and the ordering table are, and the list holds
registered providers only; when the tokens of the selected rule are pairwise distinct and
the provider names are pairwise distinct, the list is a permutation of the registered list
(and it is the registered list itself when no rule is selected). -/
theorem every_provider_reachable (broker : EnchantBroker) (tag : CStr)
    (hwf : addresses_determine broker.provider_list) :
    (∀ p ∈ broker.provider_list, p ∈ enchant_get_ordered_providers broker tag) ∧
    (∀ q ∈ enchant_get_ordered_providers broker tag, q ∈ broker.provider_list) ∧
    (∀ rule, selected_rule broker tag = some rule → (g_strsplit_comma rule).Nodup →
      (broker.provider_list.map (·.identify)).Nodup →
      (enchant_get_ordered_providers broker tag).Perm broker.provider_list) ∧
    (selected_rule broker tag = none →
      enchant_get_ordered_providers broker tag = broker.provider_list) := by
  refine ⟨?_, fun q hq => mem_ordered_registered broker tag q hq, ?_,
    fun h => ordered_of_no_rule broker tag h⟩
  · intro p hp
    cases hr : selected_rule broker tag with
    | none => rw [ordered_of_no_rule broker tag hr]; exact hp
    | some rule =>
      rw [ordered_of_rule broker tag rule hr, spec_ordered, List.mem_append]
      by_cases hm : p.ptr ∈
          (spec_matched broker.provider_list (g_strsplit_comma rule)).map (·.ptr)
      · left
        obtain ⟨r, hr2, he⟩ := List.mem_map.mp hm
        have e := hwf r (mem_spec_matched _ _ r hr2).1 p hp he
        exact e ▸ hr2
      · right
        obtain ⟨r, hr2, he⟩ := exists_in_not_yet_included _ _ p hp hm
        have e := hwf r (mem_spec_not_yet_included _ _ r hr2) p hp he
        exact e ▸ hr2
  · intro rule hr ht hn
    rw [ordered_of_rule broker tag rule hr]
    exact spec_ordered_perm _ rule hwf ht hn

theorem example_addresses : addresses_determine [prov_a, prov_b, prov_c] := by
  intro p hp q hq h
  have hp2 : p = prov_a ∨ p = prov_b ∨ p = prov_c := by simpa using hp
  have hq2 : q = prov_a ∨ q = prov_b ∨ q = prov_c := by simpa using hq
  rcases hp2 with e | e | e <;> rcases hq2 with f | f | f <;> subst e <;> subst f <;>
    first
      | rfl
      | exact absurd h (by decide)

/-- C26 (witness): under the wildcard rule `c,a` the provider `b`, which the rule omits, is
in the list for `de_DE`, and the list is a permutation of `[a, b, c]`. -/
theorem every_provider_reachable_witness :
    prov_b ∈ enchant_get_ordered_providers
        (enchant_broker_set_ordering example_broker (some "*".toList) (some "c,a".toList))
        "de_DE".toList ∧
    (enchant_get_ordered_providers
        (enchant_broker_set_ordering example_broker (some "*".toList) (some "c,a".toList))
        "de_DE".toList).Perm [prov_a, prov_b, prov_c] :=
  have h := every_provider_reachable
    (enchant_broker_set_ordering example_broker (some "*".toList) (some "c,a".toList))
    "de_DE".toList example_addresses
  ⟨h.1 prov_b (by exact List.mem_cons_of_mem _ (List.mem_cons_self prov_b [prov_c])),
   h.2.2.1 "c,a".toList (by rfl) (by decide) (by decide)⟩

/-! ## Claims on suggestions and on the error slots -/

theorem apply_dict_error_provider (session : EnchantSession) (err : Option CStr) :
    (apply_dict_error session err).provider = session.provider := by
  cases err <;> rfl

/-- C24 (the code at the failing input): the `check` hook of the dictionary at address 7
fails and leaves a message in the error slot; `enchant_dict_suggest` on that dictionary,
which has no `suggest` hook, succeeds with the empty result and the count 0, and the slot
still holds the message, whereas `enchant_dict_is_in_session` in its place clears it. -/
theorem suggest_keeps_error :
    enchant_dict_get_error
        (enchant_dict_check hooks_state (some 7) (some "x".toList) (-1)).2 (some 7)
      = some "backend failure".toList ∧
    (enchant_dict_suggest
        (enchant_dict_check hooks_state (some 7) (some "x".toList) (-1)).2
        (some 7) (some "x".toList) (-1)).1 = (none, some 0) ∧
    enchant_dict_get_error
        (enchant_dict_suggest
          (enchant_dict_check hooks_state (some 7) (some "x".toList) (-1)).2
          (some 7) (some "x".toList) (-1)).2 (some 7)
      = some "backend failure".toList ∧
    enchant_dict_get_error
        (enchant_dict_is_in_session
          (enchant_dict_check hooks_state (some 7) (some "x".toList) (-1)).2
          (some 7) (some "x".toList) (-1)).2 (some 7)
      = none := by
  decide

/-! ## Claims on additions to the personal word list -/

theorem add_to_session_trace (st : State) (d : Ptr) (w : CStr) (len : Int) :
    ((st.dicts d).add_to_session = none →
      (enchant_dict_add_to_session st (some d) (some w) len).trace = st.trace) ∧
    (∀ hook, (st.dicts d).add_to_session = some hook →
      (enchant_dict_add_to_session st (some d) (some w) len).trace
        = st.trace ++ [Event.dict_add_to_session d w (word_length w len)]) ∧
    ((enchant_dict_add_to_session st (some d) (some w) len).dicts d).add_to_personal
      = (st.dicts d).add_to_personal := by
  unfold enchant_dict_add_to_session
  simp only [(set_session_same _ _ _).2.2.1]
  refine ⟨?_, ?_, ?_⟩
  · intro h
    simp only [h]
    exact (set_session_same _ _ _).2.2.2
  · intro hook h
    simp only [h]
    simp [(set_session_same _ _ _).2.2.2]
  · cases h : (st.dicts d).add_to_session with
    | none => simp [State.set_session]
    | some hook => simp [State.set_session]

/-- The session of the dictionary after `enchant_dict_add_to_pwl`, relative to the state that
`enchant_dict_add_to_session` leaves, and the other dictionaries. -/
theorem add_to_pwl_effect (can_append : CStr → Bool) (st : State) (d : Ptr) (w : CStr)
    (len : Int) :
    (∃ err, ((enchant_dict_add_to_pwl can_append st (some d) (some w) len).dicts
        d).enchant_private_data
      = apply_dict_error (enchant_session_clear_error
          ((enchant_dict_add_to_session st (some d) (some w)
            (Int.ofNat (word_length w len))).dicts d).enchant_private_data) err) ∧
    (∀ d2, d2 ≠ d →
      (enchant_dict_add_to_pwl can_append st (some d) (some w) len).dicts d2
        = (enchant_dict_add_to_session st (some d) (some w)
            (Int.ofNat (word_length w len))).dicts d2) := by
  have hhook := (add_to_session_trace st d w (Int.ofNat (word_length w len))).2.2
  have hd : ∀ (s : State) (session : EnchantSession),
      (enchant_session_add_personal can_append s session w (word_length w len)).dicts
        = s.dicts := by
    intro s session
    unfold enchant_session_add_personal
    split
    · split <;> rfl
    · rfl
  unfold enchant_dict_add_to_pwl
  simp only [hd]
  cases hp : (st.dicts d).add_to_personal with
  | none =>
    rw [hp] at hhook
    simp only [State.set_session, Function.update_same, hhook, hd]
    refine ⟨⟨none, rfl⟩, ?_⟩
    intro d2 h2
    simp [Function.update_noteq h2]
  | some hook =>
    rw [hp] at hhook
    simp only [State.set_session, Function.update_same, hhook, hd]
    refine ⟨⟨(hook w (word_length w len)).error, rfl⟩, ?_⟩
    intro d2 h2
    simp [Function.update_noteq h2]

theorem word_length_ofNat (w : CStr) (n : Nat) : word_length w (Int.ofNat n) = n := by
  unfold word_length
  simp

/-- The calls of `enchant_dict_add_to_pwl` after those of `enchant_dict_add_to_session`: the
two `fwrite` calls on the personal file, then the `add_to_personal` hook when there is
one. -/
theorem add_to_pwl_trace (can_append : CStr → Bool) (st : State) (d : Ptr) (w : CStr)
    (len : Int) (name : CStr)
    (hname : (st.dicts d).enchant_private_data.personal_filename = some name)
    (happ : can_append name = true) :
    (enchant_dict_add_to_pwl can_append st (some d) (some w) len).trace
      = (enchant_dict_add_to_session st (some d) (some w)
          (Int.ofNat (word_length w len))).trace
        ++ [Event.fwrite name (g_strndup w (word_length w len)), Event.fwrite name ['\n']]
        ++ (if (st.dicts d).add_to_personal.isSome
            then [Event.dict_add_to_personal d w (word_length w len)] else []) := by
  obtain ⟨⟨err, hs⟩, _, _⟩ :=
    add_to_session_effect st d w (Int.ofNat (word_length w len))
  have hfn : (enchant_session_clear_error
      ((enchant_dict_add_to_session st (some d) (some w)
        (Int.ofNat (word_length w len))).dicts d).enchant_private_data).personal_filename
      = some name := by
    rw [hs]
    show (apply_dict_error _ err).personal_filename = some name
    rw [apply_dict_error_filename]
    exact hname
  have hhook := (add_to_session_trace st d w (Int.ofNat (word_length w len))).2.2
  unfold enchant_dict_add_to_pwl
  simp only []
  cases hp : (st.dicts d).add_to_personal with
  | none =>
    rw [hp] at hhook
    simp only [State.set_session, enchant_session_add_personal, hfn, happ, if_true,
      Function.update_same, hhook, g_strndup]
    simp
  | some hook =>
    rw [hp] at hhook
    simp only [State.set_session, enchant_session_add_personal, hfn, happ, if_true,
      Function.update_same, hhook, g_strndup]
    simp

/-- C21: for a dictionary whose personal file name `F` can be opened for append,
`enchant_dict_add_to_pwl` (a) leaves the word in the session set, so that
`enchant_dict_is_in_session` returns true, (b) leaves in the personal file its old content
(nothing when the file was absent) followed by the bytes of the word and one line feed, every
other file unchanged, and (c) calls the `add_to_personal` hook, when there is one, with the
word. The order is that of the calls recorded: the `add_to_session` hook (when present), the
two `fwrite` calls on `F`, the `add_to_personal` hook (when present), and nothing else. Step
(a) is complete before the first write: the state that `enchant_dict_add_to_session` leaves
has the word in the session set and the files as they were, and the writes and the hook of
(c) follow its calls. -/
theorem add_to_pwl_steps (can_append : CStr → Bool) (st : State) (d : Ptr) (w : CStr)
    (len : Int) (F : CStr)
    (hF : (st.dicts d).enchant_private_data.personal_filename = some F)
    (happ : can_append F = true)
    (hlen : word_length w len ≤ w.length) :
    (g_hash_table_lookup
        ((enchant_dict_add_to_pwl can_append st (some d) (some w) len).dicts
          d).enchant_private_data.session (g_strndup w (word_length w len))).isSome = true ∧
    (enchant_dict_is_in_session (enchant_dict_add_to_pwl can_append st (some d) (some w) len)
      (some d) (some w) len).1 = 1 ∧
    (enchant_dict_add_to_pwl can_append st (some d) (some w) len).files F
      = some ((st.files F).getD [] ++ g_strndup w (word_length w len) ++ ['\n']) ∧
    (∀ other, other ≠ F →
      (enchant_dict_add_to_pwl can_append st (some d) (some w) len).files other
        = st.files other) ∧
    (enchant_dict_add_to_pwl can_append st (some d) (some w) len).trace
      = st.trace
        ++ (if (st.dicts d).add_to_session.isSome
            then [Event.dict_add_to_session d w (word_length w len)] else [])
        ++ [Event.fwrite F (g_strndup w (word_length w len)), Event.fwrite F ['\n']]
        ++ (if (st.dicts d).add_to_personal.isSome
            then [Event.dict_add_to_personal d w (word_length w len)] else []) ∧
    (g_hash_table_lookup
        ((enchant_dict_add_to_session st (some d) (some w)
          (Int.ofNat (word_length w len))).dicts d).enchant_private_data.session
        (g_strndup w (word_length w len))).isSome = true ∧
    (enchant_dict_add_to_session st (some d) (some w)
      (Int.ofNat (word_length w len))).files = st.files ∧
    (enchant_dict_add_to_pwl can_append st (some d) (some w) len).trace
      = (enchant_dict_add_to_session st (some d) (some w)
          (Int.ofNat (word_length w len))).trace
        ++ [Event.fwrite F (g_strndup w (word_length w len)), Event.fwrite F ['\n']]
        ++ (if (st.dicts d).add_to_personal.isSome
            then [Event.dict_add_to_personal d w (word_length w len)] else []) := by
  obtain ⟨⟨err, hs⟩, _⟩ := add_to_pwl_effect can_append st d w len
  obtain ⟨⟨err1, hs1⟩, _, _⟩ := add_to_session_effect st d w (Int.ofNat (word_length w len))
  have hfiles := add_to_pwl_files can_append st d w len F hF happ
  have htrace := add_to_pwl_trace can_append st d w len F hF happ
  obtain ⟨hsn, hsh, _⟩ := add_to_session_trace st d w (Int.ofNat (word_length w len))
  rw [word_length_ofNat] at hs1 hsh
  have hc : enchant_session_contains
      ((enchant_dict_add_to_pwl can_append st (some d) (some w) len).dicts
        d).enchant_private_data w (word_length w len) = true := by
    rw [hs, contains_apply_dict_error, contains_clear_error, hs1, contains_apply_dict_error]
    exact contains_after_add _ _ _
  have e2 : (apply_dict_error (enchant_session_add
      (enchant_session_clear_error (st.dicts d).enchant_private_data) w
      (word_length w len)) err1).session
      = g_hash_table_insert (st.dicts d).enchant_private_data.session
          (g_strndup w (word_length w len)) () := by
    cases err1 <;> rfl
  have hfirst : (g_hash_table_lookup
      ((enchant_dict_add_to_session st (some d) (some w)
        (Int.ofNat (word_length w len))).dicts d).enchant_private_data.session
      (g_strndup w (word_length w len))).isSome = true := by
    rw [hs1, e2, lookup_insert_self]
    rfl
  have hsess : (g_hash_table_lookup
      ((enchant_dict_add_to_pwl can_append st (some d) (some w) len).dicts
        d).enchant_private_data.session (g_strndup w (word_length w len))).isSome = true := by
    rw [hs]
    have e : (apply_dict_error (enchant_session_clear_error
        ((enchant_dict_add_to_session st (some d) (some w)
          (Int.ofNat (word_length w len))).dicts d).enchant_private_data) err).session
        = ((enchant_dict_add_to_session st (some d) (some w)
          (Int.ofNat (word_length w len))).dicts d).enchant_private_data.session := by
      cases err <;> rfl
    rw [e]
    exact hfirst
  have hst1 : (enchant_dict_add_to_session st (some d) (some w)
      (Int.ofNat (word_length w len))).trace
      = st.trace ++ (if (st.dicts d).add_to_session.isSome
          then [Event.dict_add_to_session d w (word_length w len)] else []) := by
    cases hh : (st.dicts d).add_to_session with
    | none => simpa using hsn hh
    | some hook => simpa using hsh hook hh
  refine ⟨hsess, ?_, ?_, ?_, ?_, hfirst,
    (add_to_session_files st d w (Int.ofNat (word_length w len))).1, htrace⟩
  · unfold enchant_dict_is_in_session
    simp only [contains_clear_error, hc, if_true]
  · rw [hfiles]
    simp
  · intro other ho
    rw [hfiles]
    exact Function.update_noteq ho _ _
  · rw [htrace, hst1]

/-- C21 (witness): `add_to_pwl ("foobar")` on the dictionary backed by `/tmp/pwl`, which
holds the line `abc`, and having both hooks: the word is in the session, the file holds the
two lines, and the calls are the `add_to_session` hook, the two writes, the
`add_to_personal` hook. -/
theorem add_to_pwl_steps_witness :
    (enchant_dict_is_in_session
        (enchant_dict_add_to_pwl always_append pwl_hooks_state (some 7)
          (some "foobar".toList) (-1)) (some 7) (some "foobar".toList) (-1)).1 = 1 ∧
    (enchant_dict_add_to_pwl always_append pwl_hooks_state (some 7)
        (some "foobar".toList) (-1)).files "/tmp/pwl".toList
      = some "abc\nfoobar\n".toList ∧
    (enchant_dict_add_to_pwl always_append pwl_hooks_state (some 7)
        (some "foobar".toList) (-1)).trace
      = [Event.dict_add_to_session 7 "foobar".toList 6,
         Event.fwrite "/tmp/pwl".toList "foobar".toList,
         Event.fwrite "/tmp/pwl".toList "\n".toList,
         Event.dict_add_to_personal 7 "foobar".toList 6] :=
  have h := add_to_pwl_steps always_append pwl_hooks_state 7 "foobar".toList (-1)
    "/tmp/pwl".toList (by rfl) (by rfl) (by decide)
  ⟨h.2.1, h.2.2.1.trans (by decide), h.2.2.2.2.1.trans (by decide)⟩

/-! ## Claim on the word sets of a session along the operations -/

theorem session_le_refl (s : EnchantSession) : session_le s s :=
  ⟨rfl, rfl, rfl, fun _ h => h⟩

theorem session_le_trans {s1 s2 s3 : EnchantSession} (h12 : session_le s1 s2)
    (h23 : session_le s2 s3) : session_le s1 s3 :=
  ⟨h23.1.trans h12.1, h23.2.1.trans h12.2.1, h23.2.2.1.trans h12.2.2.1,
    fun k h => h23.2.2.2 k (h12.2.2.2 k h)⟩

theorem session_le_clear (s : EnchantSession) : session_le s (enchant_session_clear_error s) :=
  ⟨rfl, rfl, rfl, fun _ h => h⟩

theorem session_le_error (s : EnchantSession) (err : Option CStr) :
    session_le s (apply_dict_error s err) := by
  cases err with
  | none => exact session_le_refl s
  | some e => exact ⟨rfl, rfl, rfl, fun _ h => h⟩

theorem session_le_add (s : EnchantSession) (w : CStr) (n : Nat) :
    session_le s (enchant_session_add s w n) :=
  ⟨rfl, rfl, rfl, fun k h => lookup_insert_isSome _ _ _ _ h⟩

/-- The sessions of all dictionaries of the second state are above those of the first. -/
theorem sessions_le_of_effect (st st2 : State) (d : Ptr)
    (hd : session_le (st.dicts d).enchant_private_data (st2.dicts d).enchant_private_data)
    (ho : ∀ d2, d2 ≠ d → st2.dicts d2 = st.dicts d2) :
    ∀ x, session_le (st.dicts x).enchant_private_data (st2.dicts x).enchant_private_data := by
  intro x
  by_cases hx : x = d
  · subst hx; exact hd
  · rw [ho x hx]; exact session_le_refl _

theorem check_sessions (st : State) (d : Ptr) (w : CStr) (len : Int) :
    ∀ x, session_le (st.dicts x).enchant_private_data
      ((enchant_dict_check st (some d) (some w) len).2.dicts x).enchant_private_data := by
  apply sessions_le_of_effect st _ d
  · unfold enchant_dict_check
    simp only [(set_session_same _ _ _).2.1]
    split
    · rw [(set_session_same _ _ _).1]
      exact session_le_clear _
    · split
      · simp only [State.set_session, Function.update_same]
        exact session_le_trans (session_le_clear _) (session_le_error _ _)
      · split
        · rw [(set_session_same _ _ _).1]; exact session_le_clear _
        · rw [(set_session_same _ _ _).1]; exact session_le_clear _
  · intro d2 h2
    unfold enchant_dict_check
    simp only [(set_session_same _ _ _).2.1]
    split
    · exact set_session_other _ _ _ _ h2
    · split
      · simp [State.set_session, Function.update_noteq h2]
      · split
        · exact set_session_other _ _ _ _ h2
        · exact set_session_other _ _ _ _ h2

theorem is_in_session_sessions (st : State) (d : Ptr) (w : CStr) (len : Int) :
    ∀ x, session_le (st.dicts x).enchant_private_data
      ((enchant_dict_is_in_session st (some d) (some w) len).2.dicts x).enchant_private_data := by
  apply sessions_le_of_effect st _ d
  · unfold enchant_dict_is_in_session
    simp only [State.set_session, Function.update_same]
    exact session_le_clear _
  · intro d2 h2
    unfold enchant_dict_is_in_session
    simp [State.set_session, Function.update_noteq h2]

theorem add_to_session_sessions (st : State) (d : Ptr) (w : CStr) (len : Int) :
    ∀ x, session_le (st.dicts x).enchant_private_data
      ((enchant_dict_add_to_session st (some d) (some w) len).dicts x).enchant_private_data := by
  obtain ⟨⟨err, hs⟩, _, ho⟩ := add_to_session_effect st d w len
  apply sessions_le_of_effect st _ d
  · rw [hs]
    exact session_le_trans (session_le_trans (session_le_clear _) (session_le_add _ _ _))
      (session_le_error _ _)
  · exact ho

theorem add_to_pwl_sessions (can_append : CStr → Bool) (st : State) (d : Ptr) (w : CStr)
    (len : Int) :
    ∀ x, session_le (st.dicts x).enchant_private_data
      ((enchant_dict_add_to_pwl can_append st (some d) (some w) len).dicts
        x).enchant_private_data := by
  obtain ⟨⟨err, hs⟩, ho⟩ := add_to_pwl_effect can_append st d w len
  have h1 := add_to_session_sessions st d w (Int.ofNat (word_length w len))
  intro x
  by_cases hx : x = d
  · subst hx
    rw [hs]
    exact session_le_trans (h1 x)
      (session_le_trans (session_le_clear _) (session_le_error _ _))
  · rw [ho x hx]
    exact h1 x

theorem suggest_sessions (st : State) (d : Ptr) (w : CStr) (len : Int) :
    ∀ x, session_le (st.dicts x).enchant_private_data
      ((enchant_dict_suggest st (some d) (some w) len).2.dicts x).enchant_private_data := by
  apply sessions_le_of_effect st _ d
  · unfold enchant_dict_suggest
    simp only []
    split
    · split
      · unfold enchant_dict_free_string_list_impl
        simp only [State.set_session, Function.update_same]
        split
        · split
          · simp only [Function.update_same]
            exact session_le_trans (session_le_error _ _) (session_le_clear _)
          · simp only [Function.update_same]
            exact session_le_trans (session_le_error _ _) (session_le_clear _)
        · simp only [Function.update_same]
          exact session_le_trans (session_le_error _ _) (session_le_clear _)
      · simp only [State.set_session, Function.update_same]
        exact session_le_error _ _
    · exact session_le_refl _
  · intro d2 h2
    unfold enchant_dict_suggest
    simp only []
    split
    · split
      · unfold enchant_dict_free_string_list_impl
        simp only [State.set_session]
        split
        · split <;> simp [Function.update_noteq h2]
        · simp [Function.update_noteq h2]
      · simp [State.set_session, Function.update_noteq h2]
    · rfl

theorem store_replacement_sessions (st : State) (d : Ptr) (m : CStr) (mis_len : Int)
    (c : CStr) (cor_len : Int) :
    ∀ x, session_le (st.dicts x).enchant_private_data
      ((enchant_dict_store_replacement st (some d) (some m) mis_len (some c) cor_len).dicts
        x).enchant_private_data := by
  apply sessions_le_of_effect st _ d
  · unfold enchant_dict_store_replacement
    simp only []
    split
    · simp only [State.set_session, Function.update_same]
      exact session_le_trans (session_le_clear _) (session_le_error _ _)
    · simp only [State.set_session, Function.update_same]
      exact session_le_clear _
  · intro d2 h2
    unfold enchant_dict_store_replacement
    simp only []
    split
    · simp [State.set_session, Function.update_noteq h2]
    · simp [State.set_session, Function.update_noteq h2]

/-- Every public operation on a dictionary leaves every session above what it was. -/
theorem run_sessions (can_append : CStr → Bool) (st : State) (op : DictOp) :
    ∀ x, session_le (st.dicts x).enchant_private_data
      ((op.run can_append st).dicts x).enchant_private_data := by
  cases op with
  | check dict word len =>
    cases dict with
    | none => exact fun x => session_le_refl _
    | some d =>
      cases word with
      | none => exact fun x => session_le_refl _
      | some w => exact check_sessions st d w len
  | suggest dict word len =>
    cases dict with
    | none => exact fun x => session_le_refl _
    | some d =>
      cases word with
      | none => exact fun x => session_le_refl _
      | some w => exact suggest_sessions st d w len
  | add_to_pwl dict word len =>
    cases dict with
    | none => exact fun x => session_le_refl _
    | some d =>
      cases word with
      | none => exact fun x => session_le_refl _
      | some w => exact add_to_pwl_sessions can_append st d w len
  | add_to_session dict word len =>
    cases dict with
    | none => exact fun x => session_le_refl _
    | some d =>
      cases word with
      | none => exact fun x => session_le_refl _
      | some w => exact add_to_session_sessions st d w len
  | is_in_session dict word len =>
    cases dict with
    | none => exact fun x => session_le_refl _
    | some d =>
      cases word with
      | none => exact fun x => session_le_refl _
      | some w => exact is_in_session_sessions st d w len
  | store_replacement dict mis mis_len cor cor_len =>
    cases dict with
    | none => exact fun x => session_le_refl _
    | some d =>
      cases mis with
      | none => exact fun x => session_le_refl _
      | some m =>
        cases cor with
        | none => exact fun x => session_le_refl _
        | some c => exact store_replacement_sessions st d m mis_len c cor_len

theorem run_ops_sessions (can_append : CStr → Bool) (st : State) (ops : List DictOp) :
    ∀ x, session_le (st.dicts x).enchant_private_data
      ((run_ops can_append st ops).dicts x).enchant_private_data := by
  induction ops generalizing st with
  | nil => exact fun x => session_le_refl _
  | cons op rest ih =>
    intro x
    exact session_le_trans (run_sessions can_append st op x) (ih (op.run can_append st) x)

theorem add_to_pwl_in_session (can_append : CStr → Bool) (st : State) (d : Ptr) (w : CStr)
    (len : Int) :
    (g_hash_table_lookup
        ((enchant_dict_add_to_pwl can_append st (some d) (some w) len).dicts
          d).enchant_private_data.session (g_strndup w (word_length w len))).isSome = true := by
  obtain ⟨⟨err, hs⟩, _⟩ := add_to_pwl_effect can_append st d w len
  obtain ⟨⟨err1, hs1⟩, _, _⟩ := add_to_session_effect st d w (Int.ofNat (word_length w len))
  rw [word_length_ofNat] at hs1
  rw [hs]
  have e : (apply_dict_error (enchant_session_clear_error
      ((enchant_dict_add_to_session st (some d) (some w)
        (Int.ofNat (word_length w len))).dicts d).enchant_private_data) err).session
      = ((enchant_dict_add_to_session st (some d) (some w)
        (Int.ofNat (word_length w len))).dicts d).enchant_private_data.session := by
    cases err <;> rfl
  rw [e, hs1]
  have e2 : (apply_dict_error (enchant_session_add
      (enchant_session_clear_error (st.dicts d).enchant_private_data) w
      (word_length w len)) err1).session
      = g_hash_table_insert (st.dicts d).enchant_private_data.session
          (g_strndup w (word_length w len)) () := by
    cases err1 <;> rfl
  rw [e2, lookup_insert_self]
  rfl

theorem run_ops_appended (can_append : CStr → Bool) (st : State) (ops : List DictOp)
    (d : Ptr) (w : CStr) (len : Int)
    (h : DictOp.add_to_pwl (some d) (some w) len ∈ ops) :
    (g_hash_table_lookup ((run_ops can_append st ops).dicts d).enchant_private_data.session
      (g_strndup w (word_length w len))).isSome = true := by
  induction ops generalizing st with
  | nil => simp at h
  | cons op rest ih =>
    rcases List.mem_cons.mp h with e | e
    · subst e
      exact (run_ops_sessions can_append _ rest d).2.2.2 _
        (add_to_pwl_in_session can_append st d w len)
    · exact ih _ e

theorem session_new_loaded (bufsiz : Nat) (files : CStr → Option (List Char))
    (provider : Option Ptr) (pwl lang : CStr) (fail_if_no_pwl : Bool)
    (session : EnchantSession) (content : List Char)
    (hnew : enchant_session_new_with_pwl bufsiz files provider (some pwl) lang fail_if_no_pwl
      = some session)
    (hfile : files pwl = some content) :
    ∀ line ∈ fgets_lines bufsiz content [],
      (g_hash_table_lookup session.personal (strip_newline line)).isSome = true := by
  intro line hline
  simp only [enchant_session_new_with_pwl, hfile, Option.some.injEq] at hnew
  subst hnew
  exact load_personal_mem _ _ _ (List.mem_map_of_mem _ hline)

/-- C22 (counterexample): the dictionary made by `request_pwl_dict ("/tmp/words.txt")` holds
`foo` in its personal set; after `add_to_pwl ("foobar")` the file holds the new line, and
the personal set of the session does not hold `foobar`: the word is in the session set. -/
theorem appended_word_not_in_personal :
    (enchant_dict_add_to_pwl always_append
        (enchant_broker_request_pwl_dict example_env words_state
          (some "/tmp/words.txt".toList) 9).2
        (some 9) (some "foobar".toList) (-1)).files "/tmp/words.txt".toList
      = some "foo\nfoobar\n".toList ∧
    g_hash_table_lookup
        ((enchant_dict_add_to_pwl always_append
          (enchant_broker_request_pwl_dict example_env words_state
            (some "/tmp/words.txt".toList) 9).2
          (some 9) (some "foobar".toList) (-1)).dicts 9).enchant_private_data.personal
        "foobar".toList = none ∧
    g_hash_table_lookup
        ((enchant_dict_add_to_pwl always_append
          (enchant_broker_request_pwl_dict example_env words_state
            (some "/tmp/words.txt".toList) 9).2
          (some 9) (some "foobar".toList) (-1)).dicts 9).enchant_private_data.session
        "foobar".toList = some () := by
  decide

/-- C22 (amended): along every sequence of public dictionary operations, the personal set of
every session stays what it was when the session was created, and a session created for a
readable file holds every line the loader read from it; every word passed to
`enchant_dict_add_to_pwl` on a dictionary is from then on in the session set of its session
(not in its personal set), so that `enchant_session_contains` finds it. -/
theorem word_sets_invariant (can_append : CStr → Bool) (st : State) (ops : List DictOp)
    (d : Ptr) :
    ((run_ops can_append st ops).dicts d).enchant_private_data.personal
      = (st.dicts d).enchant_private_data.personal ∧
    (∀ k, (g_hash_table_lookup (st.dicts d).enchant_private_data.session k).isSome = true →
      (g_hash_table_lookup
        ((run_ops can_append st ops).dicts d).enchant_private_data.session k).isSome = true) ∧
    (∀ w len, DictOp.add_to_pwl (some d) (some w) len ∈ ops →
      (g_hash_table_lookup ((run_ops can_append st ops).dicts d).enchant_private_data.session
        (g_strndup w (word_length w len))).isSome = true ∧
      enchant_session_contains ((run_ops can_append st ops).dicts d).enchant_private_data
        w (word_length w len) = true) ∧
    (∀ bufsiz files provider pwl lang fail_if_no_pwl session content,
      enchant_session_new_with_pwl bufsiz files provider (some pwl) lang fail_if_no_pwl
        = some session →
      files pwl = some content →
      ∀ line ∈ fgets_lines bufsiz content [],
        (g_hash_table_lookup session.personal (strip_newline line)).isSome = true) := by
  have hle := run_ops_sessions can_append st ops d
  refine ⟨hle.1, hle.2.2.2, ?_, ?_⟩
  · intro w len hmem
    have h := run_ops_appended can_append st ops d w len hmem
    refine ⟨h, ?_⟩
    unfold enchant_session_contains
    simp only [Bool.or_eq_true]
    exact Or.inl h
  · intro bufsiz files provider pwl lang fail session content hnew hfile
    exact session_new_loaded bufsiz files provider pwl lang fail session content hnew hfile

/-- C22 (witness): on the dictionary made for `/tmp/words.txt`, after a check, an
`add_to_pwl ("foobar")` and another check, `foobar` is in the session set. -/
theorem word_sets_invariant_witness :
    (g_hash_table_lookup
      ((run_ops always_append
        (enchant_broker_request_pwl_dict example_env words_state
          (some "/tmp/words.txt".toList) 9).2
        [DictOp.check (some 9) (some "foo".toList) (-1),
         DictOp.add_to_pwl (some 9) (some "foobar".toList) (-1),
         DictOp.check (some 9) (some "bar".toList) (-1)]).dicts 9).enchant_private_data.session
      "foobar".toList).isSome = true :=
  ((word_sets_invariant always_append
    (enchant_broker_request_pwl_dict example_env words_state
      (some "/tmp/words.txt".toList) 9).2
    [DictOp.check (some 9) (some "foo".toList) (-1),
     DictOp.add_to_pwl (some 9) (some "foobar".toList) (-1),
     DictOp.check (some 9) (some "bar".toList) (-1)] 9).2.2.1
    "foobar".toList (-1) (List.mem_cons_of_mem _ (List.mem_cons_self _ _))).1

/-! ## Claim on the teardown of the broker -/

theorem list_dicts_tags_eq (provider : EnchantProvider) (tags : GHashTable Unit)
    (calls : List ListDictsCall) (dicts : List CStr) :
    list_dicts_tags provider tags calls dicts
      = (tags_after tags (dicts.map (fun tag => (tag, provider))),
         calls ++ report tags (dicts.map (fun tag => (tag, provider)))) := by
  induction dicts generalizing tags calls with
  | nil => simp [list_dicts_tags, tags_after, report]
  | cons t rest ih =>
    by_cases h : (g_hash_table_lookup tags t).isSome = true
    · simp only [list_dicts_tags, h, if_true, List.map_cons, tags_after, report, ih]
    · simp only [list_dicts_tags, h, if_false, List.map_cons, tags_after, report, ih,
        call_of, Bool.false_eq_true, List.append_assoc, List.singleton_append]

theorem report_append (tags : GHashTable Unit) (l1 l2 : List (CStr × EnchantProvider)) :
    report tags (l1 ++ l2) = report tags l1 ++ report (tags_after tags l1) l2 ∧
    tags_after tags (l1 ++ l2) = tags_after (tags_after tags l1) l2 := by
  induction l1 generalizing tags with
  | nil => simp [report, tags_after]
  | cons x rest ih =>
    by_cases h : (g_hash_table_lookup tags x.1).isSome = true
    · simp only [List.cons_append, report, tags_after, h, if_true]
      exact ih tags
    · simp only [List.cons_append, report, tags_after, h, if_false, Bool.false_eq_true]
      exact ⟨congrArg _ (ih _).1, (ih _).2⟩

theorem list_dicts_loop_calls (st : State) (tags : GHashTable Unit)
    (calls : List ListDictsCall) (providers : List EnchantProvider) :
    (list_dicts_loop st tags calls providers).1
      = calls ++ report tags (listed_pairs providers) := by
  induction providers generalizing st tags calls with
  | nil => simp [list_dicts_loop, listed_pairs, report]
  | cons p rest ih =>
    have hcons : listed_pairs (p :: rest)
        = (match p.list_dicts with
            | some dicts => dicts.map (fun tag => (tag, p))
            | none => []) ++ listed_pairs rest := by
      simp [listed_pairs, List.flatMap_cons]
    rw [hcons]
    cases hl : p.list_dicts with
    | none =>
      simp only [list_dicts_loop, hl, List.nil_append]
      exact ih st tags calls
    | some dicts =>
      simp only [list_dicts_loop, hl, list_dicts_tags_eq]
      rw [ih, (report_append tags _ _).1, List.append_assoc]

theorem report_unseen (tags : GHashTable Unit) (l : List (CStr × EnchantProvider)) :
    ∀ c ∈ report tags l,
      (g_hash_table_lookup tags c.tag).isSome = false ∧ c.tag ∈ l.map Prod.fst := by
  induction l generalizing tags with
  | nil => simp [report]
  | cons x rest ih =>
    intro c hc
    by_cases h : (g_hash_table_lookup tags x.1).isSome = true
    · simp only [report, h, if_true] at hc
      obtain ⟨h1, h2⟩ := ih tags c hc
      exact ⟨h1, List.mem_cons_of_mem _ h2⟩
    · simp only [report, h, if_false, Bool.false_eq_true, List.mem_cons] at hc
      rcases hc with e | e
      · subst e
        exact ⟨by simpa [call_of] using h, List.mem_cons_self _ _⟩
      · obtain ⟨h1, h2⟩ := ih _ c e
        refine ⟨?_, List.mem_cons_of_mem _ h2⟩
        cases hs : (g_hash_table_lookup tags c.tag).isSome with
        | false => rfl
        | true =>
          have := lookup_insert_isSome tags x.1 c.tag () hs
          rw [h1] at this
          cases this

theorem report_tags_nodup (tags : GHashTable Unit) (l : List (CStr × EnchantProvider)) :
    ((report tags l).map (·.tag)).Nodup := by
  induction l generalizing tags with
  | nil => simp [report]
  | cons x rest ih =>
    by_cases h : (g_hash_table_lookup tags x.1).isSome = true
    · simp only [report, h, if_true]
      exact ih tags
    · simp only [report, h, if_false, Bool.false_eq_true, List.map_cons, List.nodup_cons]
      refine ⟨?_, ih _⟩
      intro hmem
      obtain ⟨c, hc, he⟩ := List.mem_map.mp hmem
      have hu := (report_unseen _ rest c hc).1
      have he2 : c.tag = x.1 := he
      rw [he2, lookup_insert_self] at hu
      cases hu

theorem report_mem_iff (tags : GHashTable Unit) (l : List (CStr × EnchantProvider))
    (t : CStr) :
    t ∈ (report tags l).map (·.tag)
      ↔ (g_hash_table_lookup tags t).isSome = false ∧ t ∈ l.map Prod.fst := by
  constructor
  · intro h
    obtain ⟨c, hc, he⟩ := List.mem_map.mp h
    have hu := report_unseen tags l c hc
    have he2 : c.tag = t := he
    rw [he2] at hu
    exact hu
  · rintro ⟨hu, hm⟩
    induction l generalizing tags with
    | nil => simp at hm
    | cons x rest ih =>
      by_cases h : (g_hash_table_lookup tags x.1).isSome = true
      · simp only [report, h, if_true]
        have hne : t ≠ x.1 := by
          intro e; rw [e, h] at hu; cases hu
        have hm2 : t ∈ rest.map Prod.fst := by
          simp only [List.map_cons, List.mem_cons] at hm
          rcases hm with e | e
          · exact absurd e hne
          · exact e
        exact ih tags hu hm2
      · simp only [report, h, if_false, Bool.false_eq_true, List.map_cons, List.mem_cons]
        by_cases e : t = x.1
        · left; simp [call_of, e]
        · right
          have hm2 : t ∈ rest.map Prod.fst := by
            simp only [List.map_cons, List.mem_cons] at hm
            rcases hm with e2 | e2
            · exact absurd e2 e
            · exact e2
          apply ih _ _ hm2
          rw [lookup_insert_other _ _ _ _ e]
          exact hu

theorem report_first (tags : GHashTable Unit) (l : List (CStr × EnchantProvider)) :
    ∀ c ∈ report tags l, ∃ l1 p l2,
      l = l1 ++ (c.tag, p) :: l2 ∧ c = call_of (c.tag, p) ∧ c.tag ∉ l1.map Prod.fst := by
  induction l generalizing tags with
  | nil =>
    intro c hc
    simp only [report] at hc
    cases hc
  | cons x rest ih =>
    intro c hc
    by_cases h : (g_hash_table_lookup tags x.1).isSome = true
    · have hu := (report_unseen tags (x :: rest) c hc).1
      simp only [report, h, if_true] at hc
      obtain ⟨l1, p, l2, h1, h2, h3⟩ := ih tags c hc
      refine ⟨x :: l1, p, l2, by rw [h1]; rfl, h2, ?_⟩
      simp only [List.map_cons, List.mem_cons, not_or]
      refine ⟨?_, h3⟩
      intro e
      rw [e, h] at hu
      cases hu
    · simp only [report, h, if_false, Bool.false_eq_true, List.mem_cons] at hc
      rcases hc with e | e
      · subst e
        exact ⟨[], x.2, rest, rfl, rfl, by simp⟩
      · have hu := (report_unseen _ rest c e).1
        obtain ⟨l1, p, l2, h1, h2, h3⟩ := ih _ c e
        refine ⟨x :: l1, p, l2, by rw [h1]; rfl, h2, ?_⟩
        simp only [List.map_cons, List.mem_cons, not_or]
        refine ⟨?_, h3⟩
        intro e2
        rw [e2, lookup_insert_self] at hu
        cases hu

theorem report_sublist (tags : GHashTable Unit) (l : List (CStr × EnchantProvider)) :
    (report tags l).Sublist (l.map call_of) := by
  induction l generalizing tags with
  | nil => simp [report]
  | cons x rest ih =>
    by_cases h : (g_hash_table_lookup tags x.1).isSome = true
    · simp only [report, h, if_true, List.map_cons]
      exact List.Sublist.cons _ (ih tags)
    · simp only [report, h, if_false, Bool.false_eq_true, List.map_cons]
      exact List.Sublist.cons₂ _ (ih _)

theorem mem_listed_pairs (providers : List EnchantProvider) (t : CStr) :
    t ∈ (listed_pairs providers).map Prod.fst
      ↔ ∃ p ∈ providers, ∃ dicts, p.list_dicts = some dicts ∧ t ∈ dicts := by
  simp only [listed_pairs, List.mem_map, List.mem_flatMap]
  constructor
  · rintro ⟨⟨t2, q⟩, ⟨p, hp, hq⟩, he⟩
    cases hl : p.list_dicts with
    | none => simp [hl] at hq
    | some dicts =>
      simp only [hl, List.mem_map, Prod.mk.injEq] at hq
      obtain ⟨t3, ht3, e1, e2⟩ := hq
      exact ⟨p, hp, dicts, hl, by rw [← he, ← e1]; exact ht3⟩
  · rintro ⟨p, hp, dicts, hl, ht⟩
    exact ⟨(t, p), ⟨p, hp, by simp [hl, ht]⟩, rfl⟩

/-- The first pair with a tag belongs to the earliest registered provider listing the tag. -/
theorem first_pair_provider (providers : List EnchantProvider) (t : CStr)
    (p : EnchantProvider) (l1 l2 : List (CStr × EnchantProvider))
    (hsplit : listed_pairs providers = l1 ++ (t, p) :: l2)
    (hfirst : t ∉ l1.map Prod.fst) :
    ∃ pre post dicts, providers = pre ++ p :: post ∧ p.list_dicts = some dicts ∧ t ∈ dicts ∧
      ∀ q ∈ pre, ∀ ds, q.list_dicts = some ds → t ∉ ds := by
  induction providers generalizing l1 with
  | nil =>
    simp only [listed_pairs, List.flatMap_nil] at hsplit
    exact absurd hsplit (by simp)
  | cons x rest ih =>
    have hcons : listed_pairs (x :: rest)
        = (match x.list_dicts with
            | some dicts => dicts.map (fun tag => (tag, x))
            | none => []) ++ listed_pairs rest := by
      simp [listed_pairs, List.flatMap_cons]
    rw [hcons] at hsplit
    rcases List.append_eq_append_iff.mp hsplit with ⟨a, ha, hb⟩ | ⟨c, hc, hd⟩
    · -- the pairs of `x` all precede the pair
      have hx : ∀ ds, x.list_dicts = some ds → t ∉ ds := by
        intro ds hds hmem
        apply hfirst
        rw [ha, hds]
        simp only [List.map_append, List.map_map, List.mem_append, List.mem_map]
        exact Or.inl ⟨t, hmem, rfl⟩
      have ha2 : t ∉ a.map Prod.fst := by
        intro hmem
        apply hfirst
        rw [ha]
        simp only [List.map_append, List.mem_append]
        exact Or.inr hmem
      obtain ⟨pre, post, dicts, h1, h2, h3, h4⟩ := ih a hb ha2
      refine ⟨x :: pre, post, dicts, by rw [h1]; rfl, h2, h3, ?_⟩
      intro q hq ds hds
      rcases List.mem_cons.mp hq with e | e
      · subst e; exact hx ds hds
      · exact h4 q e ds hds
    · -- the pair is among the pairs of `x`
      cases c with
      | nil =>
        simp only [List.append_nil] at hc
        simp only [List.nil_append] at hd
        have hx : ∀ ds, x.list_dicts = some ds → t ∉ ds := by
          intro ds hds hmem
          apply hfirst
          rw [← hc, hds]
          simp only [List.map_map, List.mem_map]
          exact ⟨t, hmem, rfl⟩
        obtain ⟨pre, post, dicts, h1, h2, h3, h4⟩ := ih [] (by simpa using hd.symm) (by simp)
        refine ⟨x :: pre, post, dicts, by rw [h1]; rfl, h2, h3, ?_⟩
        intro q hq ds hds
        rcases List.mem_cons.mp hq with e | e
        · subst e; exact hx ds hds
        · exact h4 q e ds hds
      | cons y ys =>
        simp only [List.cons_append, List.cons.injEq] at hd
        have hmem : (t, p) ∈ (match x.list_dicts with
            | some dicts => dicts.map (fun tag => (tag, x))
            | none => []) := by
          rw [hc, ← hd.1]
          simp
        cases hl : x.list_dicts with
        | none => simp [hl] at hmem
        | some dicts =>
          simp only [hl, List.mem_map, Prod.mk.injEq] at hmem
          obtain ⟨t2, ht2, e1, e2⟩ := hmem
          subst e1
          subst e2
          exact ⟨[], rest, dicts, rfl, hl, ht2, by simp⟩

theorem list_dicts_calls (st : State) :
    (enchant_broker_list_dicts st).1 = report [] (listed_pairs st.broker.provider_list) := by
  unfold enchant_broker_list_dicts
  simp only []
  rw [list_dicts_loop_calls]
  rfl

/-- C29: `enchant_broker_list_dicts` invokes the callback once for every tag that some
provider lists and for no other tag: the reported tags are pairwise distinct; each call
carries the name and description of the earliest registered provider whose list holds the
tag; and the calls follow the registration order of the providers and, for one provider,
the order of its list. -/
theorem list_dicts_once (st : State) :
    ((enchant_broker_list_dicts st).1.map (·.tag)).Nodup ∧
    (∀ t, t ∈ (enchant_broker_list_dicts st).1.map (·.tag)
      ↔ ∃ p ∈ st.broker.provider_list, ∃ dicts, p.list_dicts = some dicts ∧ t ∈ dicts) ∧
    (∀ c ∈ (enchant_broker_list_dicts st).1, ∃ pre p post dicts,
      st.broker.provider_list = pre ++ p :: post ∧ p.list_dicts = some dicts ∧
      c.tag ∈ dicts ∧ (∀ q ∈ pre, ∀ ds, q.list_dicts = some ds → c.tag ∉ ds) ∧
      c.name = p.identify ∧ c.desc = p.describe ∧ c.provider = p.ptr) ∧
    (enchant_broker_list_dicts st).1.Sublist
      ((listed_pairs st.broker.provider_list).map call_of) := by
  rw [list_dicts_calls]
  refine ⟨report_tags_nodup _ _, ?_, ?_, report_sublist _ _⟩
  · intro t
    rw [report_mem_iff, ← mem_listed_pairs]
    constructor
    · exact fun h => h.2
    · exact fun h => ⟨rfl, h⟩
  · intro c hc
    obtain ⟨l1, p, l2, h1, h2, h3⟩ := report_first _ _ c hc
    obtain ⟨pre, post, dicts, g1, g2, g3, g4⟩ :=
      first_pair_provider st.broker.provider_list c.tag p l1 l2 h1 h3
    refine ⟨pre, p, post, dicts, g1, g2, g3, g4, ?_, ?_, ?_⟩
    · rw [h2]; rfl
    · rw [h2]; rfl
    · rw [h2]; rfl

/-- C29 (witness): with the providers `a`, `f`, `g`, where `f` lists `en_US`, `fr_FR` and `g`
lists `fr_FR`, `de_DE`, `de_DE`, the callback is invoked for `en_US` and `fr_FR` with `f` and
once for `de_DE` with `g`. -/
theorem list_dicts_once_witness :
    (enchant_broker_list_dicts listing_state).1.map (fun c => (c.tag, c.provider))
      = [("en_US".toList, 6), ("fr_FR".toList, 6), ("de_DE".toList, 8)] ∧
    "de_DE".toList ∈ (enchant_broker_list_dicts listing_state).1.map (·.tag) ∧
    ((enchant_broker_list_dicts listing_state).1.map (·.tag)).Nodup :=
  have h := list_dicts_once listing_state
  ⟨by decide,
   (h.2.1 "de_DE".toList).mpr
     ⟨prov_g, by exact List.mem_cons_of_mem _ (List.mem_cons_of_mem _ (List.mem_cons_self _ _)),
      ["fr_FR".toList, "de_DE".toList, "de_DE".toList], rfl, by decide⟩,
   h.1⟩

end Enchant
